import Mathlib

/-
Shallow embedding of the sortedcontainers repository (src/src/sorted_containers.rs,
src/src/sorted_container_iter.rs, src/src/errors.rs) instantiated at element type Int
(the Rust code is generic over T : Ord + Clone; all claims concern integer elements).

Modelling conventions:
- Rust panics (out-of-bounds indexing, Vec::insert/remove position errors) are modelled
  by Option: a result of none means the operation panics.  List indexing is done with
  the panic-tracking l[i]? accessor throughout.
- The two binary-search while-loops are modelled with an explicit fuel argument
  (fuel = length + 1 always suffices, which the lemmas below prove); fuel exhaustion
  is mapped to none and is shown unreachable.
- usize arithmetic is modelled by Nat.  The two places where Rust could wrap on
  subtraction (update_index with a negative delta, and tuple_from_index's offset
  subtraction) are modelled with Int.toNat / Nat truncation; the invariant proofs
  below show the subtrahend never exceeds the minuend on any reachable state, where
  both models agree with Rust.
-/

inductive OrderType where
  | Asc
  | Desc
deriving DecidableEq

inductive ProcessType where
  | Insert
  | Update
  | InsertOrUpdate
deriving DecidableEq

/-- Model of src/src/errors.rs (SortedContainersError). -/
inductive SortedContainersError where
  | ElementAlreadyExist (v : Int)
  | ElementNotFound (v : Int)
deriving DecidableEq

/-- Model of the SortedContainers struct of src/src/sorted_containers.rs. -/
structure SortedContainers where
  data : List (List Int)
  maxes : List Int
  index : List Nat
  order_type : OrderType
  len : Nat
  expand_strategy : Nat → Nat → Bool
  shrink_strategy : Nat → Nat → Bool

/-- Model of Rust Vec::insert at a position: panics (none) when the position exceeds the
length of the vector. -/
def vecInsert {α : Type} : Nat → α → List α → Option (List α)
  | 0, a, l => some (a :: l)
  | n + 1, a, x :: l => (vecInsert n a l).map (x :: ·)
  | _ + 1, _, [] => none

/-- Model of Rust Vec::remove at a position: returns the removed element and the remaining
vector; panics (none) when the position is out of bounds. -/
def vecRemove {α : Type} : Nat → List α → Option (α × List α)
  | _, [] => none
  | 0, x :: l => some (x, l)
  | n + 1, x :: l => (vecRemove n l).map (fun p => (p.1, x :: p.2))

/-- Model of a Rust indexed slot assignment (v[n] = a): panics (none) out of bounds. -/
def vecSet {α : Type} (n : Nat) (a : α) (l : List α) : Option (List α) :=
  if n < l.length then some (l.set n a) else none

/-- Rust Ord::cmp for integers. -/
def icmp (a b : Int) : Ordering :=
  if a < b then .lt else if a = b then .eq else .gt

/-- Rust Ord::cmp for usize. -/
def ncmp (a b : Nat) : Ordering :=
  if a < b then .lt else if a = b then .eq else .gt

namespace SortedContainers

/-- The while-loop of SortedContainers::bisect (sorted_containers.rs lines 289-304),
with explicit fuel.  Returns inl middle when values[middle] == value (the early
Ok(middle) return), otherwise inr (low, high) with the final loop bounds. -/
def bisectLoop (ot : OrderType) (values : List Int) (value : Int) :
    Nat → Nat → Nat → Option (Sum Nat (Nat × Nat))
  | 0, _, _ => none
  | fuel + 1, low, high =>
    if low < high then
      let middle := (high + low) / 2
      match values[middle]? with
      | none => none
      | some x =>
        match icmp x value with
        | .lt =>
          match ot with
          | .Asc => bisectLoop ot values value fuel (middle + 1) high
          | .Desc => bisectLoop ot values value fuel low middle
        | .eq => some (.inl middle)
        | .gt =>
          match ot with
          | .Asc => bisectLoop ot values value fuel low middle
          | .Desc => bisectLoop ot values value fuel (middle + 1) high
    else
      some (.inr (low, high))

/-- Model of SortedContainers::bisect (sorted_containers.rs lines 288-328).
Result inl is Ok, inr is Err. -/
def bisect (s : SortedContainers) (values : List Int) (value : Int)
    (bisect_maxes : Bool) : Option (Sum Nat Nat) :=
  match bisectLoop s.order_type values value (values.length + 1) 0 values.length with
  | none => none
  | some (.inl middle) => some (.inl middle)
  | some (.inr (low, high)) =>
    if bisect_maxes then
      match s.order_type with
      | .Asc => some (.inl low)
      | .Desc =>
        let low1 := if low = s.maxes.length then low - 1 else low
        if 0 < low1 then
          match s.maxes[low1]? with
          | none => none
          | some m =>
            match icmp m value with
            | .lt => some (.inl (low1 - 1))
            | .eq => some (.inl low1)
            | .gt => some (.inl low1)
        else some (.inl low1)
    else
      match s.order_type with
      | .Asc => some (.inr low)
      | .Desc => some (.inr high)

/-- Model of SortedContainers::search_element (sorted_containers.rs lines 272-284).
inl is Ok (found at bucket, offset), inr is Err (insertion point). -/
def search_element (s : SortedContainers) (value : Int) :
    Option (Sum (Nat × Nat) (Nat × Nat)) :=
  match (if 1 < s.maxes.length then s.bisect s.maxes value true else some (.inl 0)) with
  | none => none
  | some (.inr _) => none
  | some (.inl p) =>
    let pos := if s.data.length = p then p - 1 else p
    match s.data[pos]? with
    | none => none
    | some bucket =>
      match s.bisect bucket value false with
      | none => none
      | some (.inl idx) => some (.inl (pos, idx))
      | some (.inr idx) => some (.inr (pos, idx))

/-- The while-loop of SortedContainers::positional_search (lines 332-341), with fuel.
inl (middle + 1) is the early Ok(middle + 1) return, inr low the final Err(low). -/
def posLoop (idxs : List Nat) (position : Nat) :
    Nat → Nat → Nat → Option (Sum Nat Nat)
  | 0, _, _ => none
  | fuel + 1, low, high =>
    if low < high then
      let middle := (high + low) / 2
      match idxs[middle]? with
      | none => none
      | some x =>
        match ncmp x position with
        | .lt => posLoop idxs position fuel (middle + 1) high
        | .eq => some (.inl (middle + 1))
        | .gt => posLoop idxs position fuel low middle
    else
      some (.inr low)

/-- Model of SortedContainers::positional_search (sorted_containers.rs lines 331-343). -/
def positional_search (s : SortedContainers) (position : Nat) : Option (Sum Nat Nat) :=
  posLoop s.index position (s.index.length + 1) 0 s.index.length

/-- Model of SortedContainers::tuple_from_index (sorted_containers.rs lines 346-356). -/
def tuple_from_index (s : SortedContainers) (i : Nat) : Option (Nat × Nat) :=
  match s.data[0]? with
  | none => none
  | some b0 =>
    if i < b0.length then some (0, i)
    else
      match s.positional_search i with
      | none => none
      | some r =>
        let data_pos := match r with | .inl idx => idx - 1 | .inr idx => idx - 1
        match s.index[data_pos]? with
        | none => none
        | some e => some (data_pos, i - e)

/-- Model of SortedContainers::index_from_tuple (sorted_containers.rs lines 359-364). -/
def index_from_tuple (s : SortedContainers) (pos : Nat × Nat) : Option Nat :=
  if 1 < s.data.length then
    match s.index[pos.fst]? with
    | none => none
    | some e => some (e + pos.snd)
  else some pos.snd

/-- Cumulative length list built by the loop of build_index: starting from an
accumulator, each bucket appends accumulator + length. -/
def cumFrom : Nat → List (List Int) → List Nat
  | _, [] => []
  | acc, b :: rest => (acc + b.length) :: cumFrom (acc + b.length) rest

/-- The full contents of the index vector produced by build_index when it fills it:
a leading 0 followed by the running cumulative bucket lengths. -/
def cumIdx (data : List (List Int)) : List Nat := 0 :: cumFrom 0 data

/-- Model of SortedContainers::build_index (sorted_containers.rs lines 367-377). -/
def build_index (s : SortedContainers) : SortedContainers :=
  if s.len = 0 ∨ s.maxes.length < 2 then { s with index := [] }
  else { s with index := cumIdx s.data }

/-- Model of SortedContainers::update_index (sorted_containers.rs lines 380-386).
Rust casts (index[i] as i32 + values_len) as usize; Int.toNat agrees with that cast
whenever the sum is nonnegative, which the invariant proofs establish for all uses. -/
def update_index (s : SortedContainers) (pos : Nat) (values_len : Int) : SortedContainers :=
  if 1 < s.maxes.length then
    { s with
      index := s.index.mapIdx (fun i v =>
        if pos + 1 ≤ i then Int.toNat (Int.ofNat v + values_len) else v) }
  else s

/-- Model of SortedContainers::expand (sorted_containers.rs lines 214-242): split the
bucket at pos at its midpoint, keep the lower half in place, insert the upper half
after it, recompute both boundary values, rebuild the index. -/
def expand (s : SortedContainers) (pos : Nat) : Option SortedContainers := do
  let bucket ← s.data[pos]?
  let split_at := bucket.length / 2
  let lower := bucket.take split_at
  let upper := bucket.drop split_at
  let mUp ← match s.order_type with
    | .Asc => upper[upper.length - 1]?
    | .Desc => upper[0]?
  let mLow ← match s.order_type with
    | .Asc => lower[lower.length - 1]?
    | .Desc => lower[0]?
  let maxes1 ← vecInsert (pos + 1) mUp s.maxes
  let maxes2 ← vecSet pos mLow maxes1
  let data1 ← vecSet pos lower s.data
  let data2 ← vecInsert (pos + 1) upper data1
  some (build_index { s with data := data2, maxes := maxes2 })

/-- Model of SortedContainers::shrink (sorted_containers.rs lines 246-267): choose the
merge partner, concatenate the two buckets, drop the donor bucket and its boundary
entry, rebuild the index. -/
def shrink (s : SortedContainers) (pos : Nat) : Option SortedContainers := do
  let vec_to_expand ←
    if pos = 0 then some 1
    else if pos = s.data.length - 1 then some (s.data.length - 2)
    else do
      let left ← s.data[pos - 1]?
      let right ← s.data[pos + 1]?
      some (if left.length < right.length then pos - 1 else pos + 1)
  if pos < vec_to_expand then do
    let pr ← vecRemove vec_to_expand s.data
    let bucket ← pr.snd[pos]?
    let data2 ← vecSet pos (bucket ++ pr.fst) pr.snd
    let mr ← vecRemove vec_to_expand s.maxes
    let maxes2 ← vecSet pos mr.fst mr.snd
    some (build_index { s with data := data2, maxes := maxes2 })
  else do
    let pr ← vecRemove pos s.data
    let bucket ← pr.snd[vec_to_expand]?
    let data2 ← vecSet vec_to_expand (bucket ++ pr.fst) pr.snd
    let mr ← vecRemove pos s.maxes
    let maxes2 ← vecSet vec_to_expand mr.fst mr.snd
    some (build_index { s with data := data2, maxes := maxes2 })

/-- Model of SortedContainers::process_element (sorted_containers.rs lines 389-457). -/
def process_element (s : SortedContainers) (value : Int) (process_type : ProcessType) :
    Option (Except SortedContainersError Nat × SortedContainers) :=
  if s.maxes.isEmpty ∧ (process_type = .Insert ∨ process_type = .InsertOrUpdate) then do
    let data0 := if s.data.isEmpty then s.data ++ [[]] else s.data
    let b0 ← data0[0]?
    let data1 ← vecSet 0 (b0 ++ [value]) data0
    some (.ok 0, { s with data := data1, maxes := s.maxes ++ [value], len := s.len + 1 })
  else if s.maxes.isEmpty ∧ process_type = .Update then
    some (.error (.ElementNotFound value), s)
  else
    match s.search_element value with
    | none => none
    | some (.inl pq) =>
      if process_type = .Update ∨ process_type = .InsertOrUpdate then do
        let bucket ← s.data[pq.fst]?
        let bucket1 ← vecSet pq.snd value bucket
        let data1 ← vecSet pq.fst bucket1 s.data
        let s1 : SortedContainers := { s with data := data1 }
        let r ← s1.index_from_tuple pq
        some (.ok r, s1)
      else
        some (.error (.ElementAlreadyExist value), s)
    | some (.inr pq) =>
      if process_type = .Insert ∨ process_type = .InsertOrUpdate then do
        let mOld ← s.maxes[pq.fst]?
        let maxes1 := if mOld < value then s.maxes.set pq.fst value else s.maxes
        let bucket ← s.data[pq.fst]?
        let bucket1 ← vecInsert pq.snd value bucket
        let data1 ← vecSet pq.fst bucket1 s.data
        let s1 := update_index
          { s with data := data1, maxes := maxes1, len := s.len + 1 } pq.fst 1
        let final_pos ← s1.index_from_tuple pq
        let s2 ← if s1.expand_strategy bucket1.length pq.snd then s1.expand pq.fst
                 else some s1
        some (.ok final_pos, s2)
      else
        some (.error (.ElementNotFound value), s)

/-- Model of SortedContainers::insert. -/
def insert (s : SortedContainers) (value : Int) :
    Option (Except SortedContainersError Nat × SortedContainers) :=
  s.process_element value .Insert

/-- Model of SortedContainers::update. -/
def update (s : SortedContainers) (value : Int) :
    Option (Except SortedContainersError Nat × SortedContainers) :=
  s.process_element value .Update

/-- Model of SortedContainers::insert_or_update. -/
def insert_or_update (s : SortedContainers) (value : Int) :
    Option (Except SortedContainersError Nat × SortedContainers) :=
  s.process_element value .InsertOrUpdate

/-- Model of SortedContainers::remove (sorted_containers.rs lines 130-149).
Outer none is a panic; the inner Option is the Rust return value. -/
def remove (s : SortedContainers) (value : Int) :
    Option (Option Int × SortedContainers) :=
  match s.search_element value with
  | none => none
  | some (.inr _) => some (none, s)
  | some (.inl pq) => do
    let bucket ← s.data[pq.fst]?
    let rr ← vecRemove pq.snd bucket
    let data1 ← vecSet pq.fst rr.snd s.data
    let s1 := update_index { s with data := data1 } pq.fst (-1)
    let s2 : SortedContainers := { s1 with len := s1.len - 1 }
    if s2.len = 0 then
      some (some rr.fst, { s2 with maxes := [], data := [], index := [] })
    else if 1 < s2.maxes.length ∧ s2.shrink_strategy rr.snd.length pq.fst = true then do
      let s3 ← s2.shrink pq.fst
      some (some rr.fst, s3)
    else
      some (some rr.fst, s2)

/-- Model of SortedContainers::find (sorted_containers.rs lines 98-103). -/
def find (s : SortedContainers) (element : Int) : Option (Option Nat) :=
  match s.search_element element with
  | none => none
  | some (.inl pq) => (s.index_from_tuple pq).map some
  | some (.inr _) => some none

/-- The loop of SortedContainers::range, iterating global ranks i, i+1, ... for a given
count of iterations and materializing elements by rank lookup. -/
def rangeGo (s : SortedContainers) : Nat → Nat → Option (List Int)
  | _, 0 => some []
  | i, count + 1 => do
    let p ← s.tuple_from_index i
    let b ← s.data[p.fst]?
    let x ← b[p.snd]?
    let rest ← rangeGo s (i + 1) count
    some (x :: rest)

/-- Model of SortedContainers::range (sorted_containers.rs lines 155-175); the Rust
parameter named end is called stop here (end is a Lean keyword).  Outer none is the
panic on invalid bounds; the inner Option is the Rust return value. -/
def range (s : SortedContainers) (start stop : Nat) : Option (Option (List Int)) :=
  if start > stop then none
  else if start ≥ s.len then none
  else if stop ≥ s.len then none
  else do
    let vec ← rangeGo s start (stop - start)
    some (if vec.isEmpty then none else some vec)

/-- Model of the Index trait implementation (sorted_containers.rs lines 459-467):
asserts the rank is below the length, then reads through tuple_from_index. -/
def elementAt (s : SortedContainers) (i : Nat) : Option Int :=
  if i < s.len then do
    let p ← s.tuple_from_index i
    let b ← s.data[p.fst]?
    b[p.snd]?
  else none

/-- Model of SortedContainers::clear (sorted_containers.rs lines 88-93). -/
def clear (s : SortedContainers) : SortedContainers :=
  { s with data := [], maxes := [], index := [], len := 0 }

/-- Default expand strategy of SortedContainers::new: bucket length above 2000. -/
def default_expand : Nat → Nat → Bool := fun len _pos => decide (2000 < len)

/-- Default shrink strategy of SortedContainers::new: bucket length below 500. -/
def default_shrink : Nat → Nat → Bool := fun len _pos => decide (len < 500)

/-- Model of SortedContainers::new_with_strategies (sorted_containers.rs lines 60-74). -/
def new_with_strategies (order_type : OrderType) (es ss : Nat → Nat → Bool) :
    SortedContainers :=
  ⟨[[]], [], [], order_type, 0, es, ss⟩

/-- Model of SortedContainers::new (sorted_containers.rs lines 49-59). -/
def new (order_type : OrderType) : SortedContainers :=
  new_with_strategies order_type default_expand default_shrink

/-- Fold a list of values through insert, threading the state and propagating panics;
an insert that merely returns the AlreadyExist error keeps the current state, exactly
as the Rust caller observing an Err does. -/
def insertAll (s : SortedContainers) (vs : List Int) : Option SortedContainers :=
  vs.foldlM (fun t v => (t.insert v).map Prod.snd) s

/-- Fold a list of process_element mutations (insert, update, insert_or_update). -/
def applyMuts (s : SortedContainers) (ms : List (ProcessType × Int)) :
    Option SortedContainers :=
  ms.foldlM (fun t m => (t.process_element m.snd m.fst).map Prod.snd) s

/-- States reachable from construction through the public mutating API.  The
constructor's shrink strategy is required to request a merge for empty buckets, as
the default strategies of new do. -/
inductive Reachable : SortedContainers → Prop where
  | base (ot : OrderType) (es ss : Nat → Nat → Bool) (h : ∀ p, ss 0 p = true) :
      Reachable (new_with_strategies ot es ss)
  | step_process (s : SortedContainers) (v : Int) (pt : ProcessType)
      (res : Except SortedContainersError Nat) (s' : SortedContainers)
      (hs : Reachable s) (h : s.process_element v pt = some (res, s')) :
      Reachable s'
  | step_remove (s : SortedContainers) (v : Int) (res : Option Int)
      (s' : SortedContainers) (hs : Reachable s)
      (h : s.remove v = some (res, s')) : Reachable s'
  | step_clear (s : SortedContainers) (hs : Reachable s) : Reachable s.clear

end SortedContainers

/-- The merge-partner choice as worded by the specification: the right neighbor for
the first bucket, the left neighbor for the last bucket, otherwise the neighbor
currently holding fewer elements, with ties resolved to the right neighbor. -/
def spec_merge_partner (data : List (List Int)) (pos : Nat) : Nat :=
  if pos = 0 then 1
  else if pos = data.length - 1 then data.length - 2
  else
    match data[pos - 1]?, data[pos + 1]? with
    | some left, some right =>
        if left.length < right.length then pos - 1 else pos + 1
    | _, _ => pos + 1

/-- Model of SortedContainerIter (src/src/sorted_container_iter.rs): position and
in-bucket cursor over a borrowed bucket sequence. -/
structure SortedContainerIter where
  pos : Nat
  idx : Nat

/-- Model of the Iterator::next implementation (sorted_container_iter.rs lines 9-21).
Outer none is a panic (the unchecked data[self.pos] access); some none is iterator
exhaustion; some (some (x, it)) yields an element and the advanced iterator. -/
def iterNext (data : List (List Int)) (it : SortedContainerIter) :
    Option (Option (Int × SortedContainerIter)) := do
  let b ← data[it.pos]?
  let pi := if b.length ≤ it.idx then (it.pos + 1, 0) else (it.pos, it.idx)
  if data.length ≤ pi.fst then some none
  else do
    let b2 ← data[pi.fst]?
    let x ← b2[pi.snd]?
    some (some (x, ⟨pi.fst, pi.snd + 1⟩))

/-- Repeatedly call iterNext and collect the yielded elements, with fuel.  none means
a panic or fuel exhaustion; the lemmas below show fuel = len + 1 always completes on
well-formed states. -/
def iterTrace (data : List (List Int)) (it : SortedContainerIter) :
    Nat → Option (List Int)
  | 0 => none
  | fuel + 1 =>
    match iterNext data it with
    | none => none
    | some none => some []
    | some (some (x, it2)) => (iterTrace data it2 fuel).map (x :: ·)

/-- The iterator as obtained from SortedContainers::iter (sorted_containers.rs
lines 204-210): cursor at position (0, 0). -/
def iterStart : SortedContainerIter := ⟨0, 0⟩

/-- Comparison in iteration order: for ascending collections the usual order on Int,
for descending collections its reverse. -/
def ordLt (ot : OrderType) (a b : Int) : Prop :=
  match ot with
  | .Asc => a < b
  | .Desc => b < a

instance (ot : OrderType) (a b : Int) : Decidable (ordLt ot a b) :=
  match ot with
  | .Asc => Int.decLt a b
  | .Desc => Int.decLt b a

/-- Sum of the lengths of the first p buckets: the global rank of the first element of
bucket p. -/
def pfxLen (data : List (List Int)) (p : Nat) : Nat :=
  ((data.take p).map List.length).sum

/-! Basic facts about the order relation and the comparison function. -/

theorem ordLt_trans {ot : OrderType} {a b c : Int} (h1 : ordLt ot a b) (h2 : ordLt ot b c) :
    ordLt ot a c := by
  cases ot <;> simp only [ordLt] at * <;> omega

theorem ordLt_irrefl {ot : OrderType} {a : Int} (h : ordLt ot a a) : False := by
  cases ot <;> simp only [ordLt] at h <;> omega

theorem ordLt_asymm {ot : OrderType} {a b : Int} (h1 : ordLt ot a b) (h2 : ordLt ot b a) :
    False := by
  cases ot <;> simp only [ordLt] at * <;> omega

theorem icmp_lt {a b : Int} : icmp a b = .lt ↔ a < b := by
  simp only [icmp]
  split <;> rename_i h1
  · simp [h1]
  · split <;> rename_i h2 <;> simp <;> omega

theorem icmp_eq {a b : Int} : icmp a b = .eq ↔ a = b := by
  simp only [icmp]
  split <;> rename_i h1
  · constructor <;> intro h <;> [exact absurd h (by simp); omega]
  · split <;> rename_i h2 <;> simp <;> omega

theorem icmp_gt {a b : Int} : icmp a b = .gt ↔ b < a := by
  simp only [icmp]
  split <;> rename_i h1
  · constructor <;> intro h <;> [exact absurd h (by simp); omega]
  · split <;> rename_i h2
    · constructor <;> intro h <;> [exact absurd h (by simp); omega]
    · simp; omega

theorem ncmp_lt {a b : Nat} : ncmp a b = .lt ↔ a < b := by
  simp only [ncmp]
  split <;> rename_i h1
  · simp [h1]
  · split <;> rename_i h2 <;> simp <;> omega

theorem ncmp_eq {a b : Nat} : ncmp a b = .eq ↔ a = b := by
  simp only [ncmp]
  split <;> rename_i h1
  · constructor <;> intro h <;> [exact absurd h (by simp); omega]
  · split <;> rename_i h2 <;> simp <;> omega

theorem ncmp_gt {a b : Nat} : ncmp a b = .gt ↔ b < a := by
  simp only [ncmp]
  split <;> rename_i h1
  · constructor <;> intro h <;> [exact absurd h (by simp); omega]
  · split <;> rename_i h2
    · constructor <;> intro h <;> [exact absurd h (by simp); omega]
    · simp; omega

/-! Facts about the panic-tracking vector primitives. -/

theorem vecInsert_some {α : Type} (a : α) :
    ∀ (n : Nat) (l : List α), n ≤ l.length →
      vecInsert n a l = some (l.take n ++ a :: l.drop n)
  | 0, l, _ => by simp [vecInsert]
  | n + 1, x :: l, h => by
    simp [vecInsert, vecInsert_some a n l (by simpa using h)]
  | n + 1, [], h => by simp at h

theorem vecRemove_some {α : Type} :
    ∀ (n : Nat) (l : List α) (x : α), l[n]? = some x →
      vecRemove n l = some (x, l.eraseIdx n)
  | _, [], x, h => by simp at h
  | 0, y :: l, x, h => by
    simp only [List.getElem?_cons_zero, Option.some_inj] at h
    simp [vecRemove, h, List.eraseIdx]
  | n + 1, y :: l, x, h => by
    simp only [List.getElem?_cons_succ] at h
    simp [vecRemove, vecRemove_some n l x h]

theorem vecSet_some {α : Type} {n : Nat} {l : List α} (a : α) (h : n < l.length) :
    vecSet n a l = some (l.set n a) := by
  simp [vecSet, h]

/-! Facts about prefix sums of bucket lengths and flatten positions. -/

theorem pfxLen_zero (data : List (List Int)) : pfxLen data 0 = 0 := by
  simp [pfxLen]

theorem pfxLen_succ {data : List (List Int)} {p : Nat} {b : List Int}
    (h : data[p]? = some b) : pfxLen data (p + 1) = pfxLen data p + b.length := by
  have hp : p < data.length := by
    rcases List.getElem?_eq_some.mp h with ⟨hlt, _⟩; exact hlt
  have hb : data[p] = b := by
    rcases List.getElem?_eq_some.mp h with ⟨_, hb⟩; exact hb
  simp only [pfxLen, List.map_take]
  have := List.sum_take_succ (data.map List.length) p (by simpa using hp)
  simp only [List.getElem_map] at this
  rw [this, hb]

theorem pfxLen_all {data : List (List Int)} {p : Nat} (h : data.length ≤ p) :
    pfxLen data p = data.flatten.length := by
  simp [pfxLen, List.take_of_length_le h, List.length_flatten]

theorem length_flatten_take (data : List (List Int)) (p : Nat) :
    (data.take p).flatten.length = pfxLen data p := by
  simp [pfxLen, List.length_flatten, List.map_take]

theorem flatten_decomp {data : List (List Int)} {p : Nat} {b : List Int}
    (h : data[p]? = some b) :
    data.flatten = (data.take p).flatten ++ b ++ (data.drop (p + 1)).flatten := by
  rcases List.getElem?_eq_some.mp h with ⟨hlt, hb⟩
  conv_lhs => rw [← List.take_append_drop p data]
  rw [List.drop_eq_getElem_cons hlt, hb]
  simp

theorem flatten_pos {data : List (List Int)} {p k : Nat} {b : List Int}
    (h : data[p]? = some b) (hk : k < b.length) :
    data.flatten[pfxLen data p + k]? = b[k]? := by
  rw [flatten_decomp h]
  rw [List.append_assoc, List.getElem?_append]
  simp only [length_flatten_take]
  rw [if_neg (by omega)]
  rw [List.getElem?_append]
  rw [if_pos (by omega), Nat.add_comm (pfxLen data p) k, Nat.add_sub_cancel]

theorem pfxLen_le {data : List (List Int)} {p k : Nat} (h : p ≤ k) :
    pfxLen data p ≤ pfxLen data k := by
  have hk : k = p + (k - p) := by omega
  rw [hk]
  simp only [pfxLen, List.map_take]
  rw [List.take_add, List.sum_append]
  omega

theorem pfxLen_cons (b : List Int) (rest : List (List Int)) (n : Nat) :
    pfxLen (b :: rest) (n + 1) = b.length + pfxLen rest n := by
  simp [pfxLen]

theorem SortedContainers.cumFrom_length : ∀ (acc : Nat) (data : List (List Int)),
    (SortedContainers.cumFrom acc data).length = data.length
  | _, [] => rfl
  | acc, b :: rest => by simp [SortedContainers.cumFrom, SortedContainers.cumFrom_length (acc + b.length) rest]

theorem SortedContainers.cumIdx_length (data : List (List Int)) :
    (SortedContainers.cumIdx data).length = data.length + 1 := by
  simp [SortedContainers.cumIdx, SortedContainers.cumFrom_length]

theorem SortedContainers.cumFrom_getElem? : ∀ (acc : Nat) (data : List (List Int)) (i : Nat),
    (SortedContainers.cumFrom acc data)[i]? =
      if i < data.length then some (acc + pfxLen data (i + 1)) else none
  | _, [], i => by simp [SortedContainers.cumFrom]
  | acc, b :: rest, 0 => by
    simp [SortedContainers.cumFrom, pfxLen_cons, pfxLen_zero]
  | acc, b :: rest, i + 1 => by
    simp only [SortedContainers.cumFrom, List.getElem?_cons_succ, SortedContainers.cumFrom_getElem? (acc + b.length) rest i,
      List.length_cons, pfxLen_cons]
    split <;> rename_i h1
    · rw [if_pos (by omega)]
      congr 1
      omega
    · rw [if_neg (by omega)]

theorem SortedContainers.cumIdx_getElem? (data : List (List Int)) (i : Nat) :
    (SortedContainers.cumIdx data)[i]? = if i ≤ data.length then some (pfxLen data i) else none := by
  cases i with
  | zero => simp [SortedContainers.cumIdx, pfxLen_zero]
  | succ n =>
    simp only [SortedContainers.cumIdx, List.getElem?_cons_succ, SortedContainers.cumFrom_getElem? 0 data n]
    split <;> rename_i h1
    · rw [if_pos (by omega), Nat.zero_add]
    · rw [if_neg (by omega)]

theorem rank_decomp : ∀ (data : List (List Int)) (r : Nat), r < data.flatten.length →
    ∃ p b k, data[p]? = some b ∧ k < b.length ∧ r = pfxLen data p + k
  | [], r, h => by simp at h
  | b :: rest, r, h => by
    rcases Nat.lt_or_ge r b.length with hr | hr
    · exact ⟨0, b, r, by simp, hr, by simp [pfxLen_zero]⟩
    · have h2 : r - b.length < rest.flatten.length := by
        simp only [List.flatten_cons, List.length_append] at h
        omega
      rcases rank_decomp rest (r - b.length) h2 with ⟨p, bk, k, h3, h4, h5⟩
      exact ⟨p + 1, bk, k, by simpa using h3, h4, by rw [pfxLen_cons]; omega⟩

theorem sorted_getElem?_lt {ot : OrderType} {l : List Int} {i j : Nat} {x y : Int}
    (hs : l.Pairwise (ordLt ot)) (hi : l[i]? = some x) (hj : l[j]? = some y)
    (hij : i < j) : ordLt ot x y := by
  rcases List.getElem?_eq_some.mp hi with ⟨hi1, hi2⟩
  rcases List.getElem?_eq_some.mp hj with ⟨hj1, hj2⟩
  have := List.pairwise_iff_getElem.mp hs i j hi1 hj1 hij
  rw [hi2, hj2] at this
  exact this

theorem sorted_getElem?_unique {ot : OrderType} {l : List Int} {i j : Nat} {v : Int}
    (hs : l.Pairwise (ordLt ot)) (hi : l[i]? = some v) (hj : l[j]? = some v) : i = j := by
  rcases Nat.lt_trichotomy i j with h | h | h
  · exact absurd (sorted_getElem?_lt hs hi hj h) ordLt_irrefl
  · exact h
  · exact absurd (sorted_getElem?_lt hs hj hi h) ordLt_irrefl

theorem mem_of_bucket {data : List (List Int)} {p : Nat} {b : List Int} {x : Int}
    (hp : data[p]? = some b) (hx : x ∈ b) : x ∈ data.flatten := by
  rcases List.getElem?_eq_some.mp hp with ⟨h1, h2⟩
  exact List.mem_flatten.mpr ⟨b, by rw [← h2]; exact List.getElem_mem h1, hx⟩

theorem bucket_sorted {ot : OrderType} {data : List (List Int)} {p : Nat} {b : List Int}
    (hs : data.flatten.Pairwise (ordLt ot)) (hp : data[p]? = some b) :
    b.Pairwise (ordLt ot) := by
  rcases List.getElem?_eq_some.mp hp with ⟨h1, h2⟩
  exact (List.pairwise_flatten.mp hs).1 b (by rw [← h2]; exact List.getElem_mem h1)

theorem cross_bucket {ot : OrderType} {data : List (List Int)} {p q : Nat}
    {b1 b2 : List Int} {x y : Int}
    (hs : data.flatten.Pairwise (ordLt ot)) (hp : data[p]? = some b1)
    (hq : data[q]? = some b2) (hpq : p < q) (hx : x ∈ b1) (hy : y ∈ b2) :
    ordLt ot x y := by
  have h2 := (List.pairwise_flatten.mp hs).2
  rcases List.getElem?_eq_some.mp hp with ⟨hp1, hp2⟩
  rcases List.getElem?_eq_some.mp hq with ⟨hq1, hq2⟩
  have := List.pairwise_iff_getElem.mp h2 p q hp1 hq1 hpq
  rw [hp2, hq2] at this
  exact this x hx y hy

/-! Specification of the bisect while-loop on sorted input: it terminates within fuel,
finds an equal element when one is in range, and otherwise returns the pivot position
with everything before it strictly below the target and everything from it on strictly
above the target (in the active order). -/

theorem bisectLoop_spec {ot : OrderType} {values : List Int} {value : Int}
    (hs : values.Pairwise (ordLt ot)) :
    ∀ (fuel low high : Nat), high ≤ values.length → low ≤ high → high - low < fuel →
    (∃ m, SortedContainers.bisectLoop ot values value fuel low high = some (.inl m) ∧
        low ≤ m ∧ m < high ∧ values[m]? = some value) ∨
    (∃ l, SortedContainers.bisectLoop ot values value fuel low high = some (.inr (l, l)) ∧
        low ≤ l ∧ l ≤ high ∧
        (∀ i x, low ≤ i → i < l → values[i]? = some x → ordLt ot x value) ∧
        (∀ i x, l ≤ i → i < high → values[i]? = some x → ordLt ot value x)) := by
  intro fuel
  induction fuel with
  | zero => intro low high _ _ hf; omega
  | succ f ih =>
    intro low high hhi hlh hf
    by_cases hcmp : low < high
    · have hmid1 : low ≤ (high + low) / 2 := by omega
      have hmid2 : (high + low) / 2 < high := by omega
      have hmidlen : (high + low) / 2 < values.length := by omega
      have hx : values[(high + low) / 2]? = some values[(high + low) / 2] :=
        List.getElem?_eq_getElem hmidlen
      set x := values[(high + low) / 2] with hxdef
      rcases hc : icmp x value with _ | _ | _
      · -- element below target
        have hxv : x < value := icmp_lt.mp hc
        cases ot with
        | Asc =>
          have hstep : SortedContainers.bisectLoop .Asc values value (f + 1) low high =
              SortedContainers.bisectLoop .Asc values value f ((high + low) / 2 + 1) high := by
            rw [SortedContainers.bisectLoop]
            simp only [if_pos hcmp, hx, hc]
          rcases ih ((high + low) / 2 + 1) high hhi (by omega) (by omega) with
            ⟨m, hm, hm1, hm2, hm3⟩ | ⟨l, hl, hl1, hl2, hl3, hl4⟩
          · exact Or.inl ⟨m, by rw [hstep]; exact hm, by omega, hm2, hm3⟩
          · refine Or.inr ⟨l, by rw [hstep]; exact hl, by omega, hl2, ?_, hl4⟩
            intro i y hi1 hi2 hy
            rcases Nat.lt_or_ge i ((high + low) / 2 + 1) with hile | hile
            · rcases Nat.lt_or_ge i ((high + low) / 2) with h5 | h5
              · exact ordLt_trans (sorted_getElem?_lt hs hy hx h5) hxv
              · have : i = (high + low) / 2 := by omega
                subst this
                rw [hy] at hx
                injection hx with hx2
                rw [← hx2] at hxv
                exact hxv
            · exact hl3 i y hile hi2 hy
        | Desc =>
          have hxv2 : ordLt .Desc value x := hxv
          have hstep : SortedContainers.bisectLoop .Desc values value (f + 1) low high =
              SortedContainers.bisectLoop .Desc values value f low ((high + low) / 2) := by
            rw [SortedContainers.bisectLoop]
            simp only [if_pos hcmp, hx, hc]
          rcases ih low ((high + low) / 2) (by omega) (by omega) (by omega) with
            ⟨m, hm, hm1, hm2, hm3⟩ | ⟨l, hl, hl1, hl2, hl3, hl4⟩
          · exact Or.inl ⟨m, by rw [hstep]; exact hm, hm1, by omega, hm3⟩
          · refine Or.inr ⟨l, by rw [hstep]; exact hl, hl1, by omega, hl3, ?_⟩
            intro i y hi1 hi2 hy
            rcases Nat.lt_or_ge i ((high + low) / 2) with h5 | h5
            · exact hl4 i y hi1 h5 hy
            · rcases Nat.eq_or_lt_of_le h5 with h6 | h6
              · rw [← h6] at hy
                rw [hy] at hx
                injection hx with hx2
                rw [hx2]
                exact hxv2
              · exact ordLt_trans hxv2 (sorted_getElem?_lt hs hx hy h6)
      · -- equal element found
        have hxv : x = value := icmp_eq.mp hc
        refine Or.inl ⟨(high + low) / 2, ?_, hmid1, hmid2, by rw [hx, hxv]⟩
        cases ot <;>
          · rw [SortedContainers.bisectLoop]
            simp only [if_pos hcmp, hx, hc]
      · -- element above target
        have hxv : value < x := icmp_gt.mp hc
        cases ot with
        | Asc =>
          have hxv2 : ordLt .Asc value x := hxv
          have hstep : SortedContainers.bisectLoop .Asc values value (f + 1) low high =
              SortedContainers.bisectLoop .Asc values value f low ((high + low) / 2) := by
            rw [SortedContainers.bisectLoop]
            simp only [if_pos hcmp, hx, hc]
          rcases ih low ((high + low) / 2) (by omega) (by omega) (by omega) with
            ⟨m, hm, hm1, hm2, hm3⟩ | ⟨l, hl, hl1, hl2, hl3, hl4⟩
          · exact Or.inl ⟨m, by rw [hstep]; exact hm, hm1, by omega, hm3⟩
          · refine Or.inr ⟨l, by rw [hstep]; exact hl, hl1, by omega, hl3, ?_⟩
            intro i y hi1 hi2 hy
            rcases Nat.lt_or_ge i ((high + low) / 2) with h5 | h5
            · exact hl4 i y hi1 h5 hy
            · rcases Nat.eq_or_lt_of_le h5 with h6 | h6
              · rw [← h6] at hy
                rw [hy] at hx
                injection hx with hx2
                rw [hx2]
                exact hxv2
              · exact ordLt_trans hxv2 (sorted_getElem?_lt hs hx hy h6)
        | Desc =>
          have hxv2 : ordLt .Desc x value := hxv
          have hstep : SortedContainers.bisectLoop .Desc values value (f + 1) low high =
              SortedContainers.bisectLoop .Desc values value f ((high + low) / 2 + 1) high := by
            rw [SortedContainers.bisectLoop]
            simp only [if_pos hcmp, hx, hc]
          rcases ih ((high + low) / 2 + 1) high hhi (by omega) (by omega) with
            ⟨m, hm, hm1, hm2, hm3⟩ | ⟨l, hl, hl1, hl2, hl3, hl4⟩
          · exact Or.inl ⟨m, by rw [hstep]; exact hm, by omega, hm2, hm3⟩
          · refine Or.inr ⟨l, by rw [hstep]; exact hl, by omega, hl2, ?_, hl4⟩
            intro i y hi1 hi2 hy
            rcases Nat.lt_or_ge i ((high + low) / 2 + 1) with hile | hile
            · rcases Nat.lt_or_ge i ((high + low) / 2) with h5 | h5
              · exact ordLt_trans (sorted_getElem?_lt hs hy hx h5) hxv2
              · have : i = (high + low) / 2 := by omega
                subst this
                rw [hy] at hx
                injection hx with hx2
                rw [← hx2] at hxv2
                exact hxv2
            · exact hl3 i y hile hi2 hy
    · have hle : low = high := by omega
      refine Or.inr ⟨low, ?_, by omega, by omega, by omega, by omega⟩
      rw [SortedContainers.bisectLoop]
      simp only [if_neg hcmp]
      rw [hle]

theorem bisectLoop_all {ot : OrderType} {values : List Int} {value : Int}
    (hs : values.Pairwise (ordLt ot)) :
    (∃ m, SortedContainers.bisectLoop ot values value (values.length + 1) 0
        values.length = some (.inl m) ∧ m < values.length ∧ values[m]? = some value) ∨
    (∃ l, SortedContainers.bisectLoop ot values value (values.length + 1) 0
        values.length = some (.inr (l, l)) ∧ l ≤ values.length ∧
        (∀ i x, i < l → values[i]? = some x → ordLt ot x value) ∧
        (∀ i x, l ≤ i → i < values.length → values[i]? = some x → ordLt ot value x)) := by
  rcases bisectLoop_spec hs (values.length + 1) 0 values.length (Nat.le_refl _)
      (Nat.zero_le _) (by omega) with ⟨m, hm, _, hm2, hm3⟩ | ⟨l, hl, _, hl2, hl3, hl4⟩
  · exact Or.inl ⟨m, hm, hm2, hm3⟩
  · exact Or.inr ⟨l, hl, hl2, fun i x h1 h2 => hl3 i x (Nat.zero_le _) h1 h2, hl4⟩

/-- Specification of bisect with bisect_maxes = false on a sorted bucket: Ok finds an
equal element, Err returns the order-respecting insertion offset. -/
theorem inBucket_cases (s : SortedContainers) (b : List Int) (v : Int)
    (hb : b.Pairwise (ordLt s.order_type)) :
    (∃ i, s.bisect b v false = some (.inl i) ∧ b[i]? = some v) ∨
    (∃ i, s.bisect b v false = some (.inr i) ∧ i ≤ b.length ∧
      (∀ j x, j < i → b[j]? = some x → ordLt s.order_type x v) ∧
      (∀ j x, i ≤ j → j < b.length → b[j]? = some x → ordLt s.order_type v x)) := by
  rcases bisectLoop_all hb with ⟨m, hm, hm2, hm3⟩ | ⟨l, hl, hl2, hl3, hl4⟩
  · refine Or.inl ⟨m, ?_, hm3⟩
    rw [SortedContainers.bisect, hm]
  · refine Or.inr ⟨l, ?_, hl2, hl3, hl4⟩
    rw [SortedContainers.bisect, hl]
    cases s.order_type <;> rfl

/-- Completeness of bisect with bisect_maxes = false: when the target is present in the
sorted bucket, the search returns exactly its offset. -/
theorem inBucket_found (s : SortedContainers) (b : List Int) (v : Int) (j : Nat)
    (hb : b.Pairwise (ordLt s.order_type)) (hj : b[j]? = some v) :
    s.bisect b v false = some (.inl j) := by
  rcases inBucket_cases s b v hb with ⟨i, hi, hi2⟩ | ⟨i, hi, hi2, hi3, hi4⟩
  · rw [hi, sorted_getElem?_unique hb hj hi2]
  · exfalso
    have hjlen : j < b.length := (List.getElem?_eq_some.mp hj).1
    rcases Nat.lt_or_ge j i with h | h
    · exact ordLt_irrefl (hi3 j v h hj)
    · exact ordLt_irrefl (hi4 j v h hjlen hj)

/-! Structural invariant of the container, maintained by every public operation (for
strategies whose shrink predicate requests a merge for an emptied bucket, as the
defaults do).  It captures the shapes of data, maxes and the rank index, but says
nothing about element order or boundary values. -/

structure SInv (s : SortedContainers) : Prop where
  shape0 : s.len = 0 → (s.data = [[]] ∨ s.data = []) ∧ s.maxes = [] ∧ s.index = []
  ne : s.len ≠ 0 → ∀ b ∈ s.data, b ≠ []
  mlen : s.len ≠ 0 → s.maxes.length = s.data.length
  lenEq : s.len = s.data.flatten.length
  idxEq : s.index = if s.maxes.length < 2 then [] else SortedContainers.cumIdx s.data
  shrink0 : ∀ p, s.shrink_strategy 0 p = true

/-- The flattened bucket contents are strictly sorted in the active order. -/
def sortedFlat (s : SortedContainers) : Prop :=
  s.data.flatten.Pairwise (ordLt s.order_type)

/-- Weak boundary soundness: each boundary value bounds its own bucket from above
(in the plain integer order, for both modes) and separates it from its neighbor on
the side the search relies on (the next bucket for ascending, the previous bucket
for descending).  remove can leave boundaries stale, but keeps this property in
ascending mode. -/
def weakBound (s : SortedContainers) : Prop :=
  ∀ q b m, s.data[q]? = some b → s.maxes[q]? = some m →
    (∀ x ∈ b, x ≤ m) ∧
    (match s.order_type with
     | .Asc => ∀ b2 y, s.data[q + 1]? = some b2 → y ∈ b2 → m < y
     | .Desc => ∀ b0 y, s.data[q - 1]? = some b0 → q ≠ 0 → y ∈ b0 → m < y)

/-- Tight boundary correctness: each boundary value is the bucket's true extreme
element (last for ascending, first for descending). -/
def tightM (s : SortedContainers) : Prop :=
  s.len ≠ 0 → ∀ (q : Nat) (b : List Int), s.data[q]? = some b →
    s.maxes[q]? = some (match s.order_type with | .Asc => b.getLastD 0 | .Desc => b.headD 0)

/-- Invariant used for states reachable through any operation sequence in ascending
mode (and through insert-only sequences in both modes). -/
structure WInv (s : SortedContainers) : Prop where
  si : SInv s
  sorted : sortedFlat s
  wb : weakBound s

/-- Invariant for states reachable through insert, update and insert_or_update only:
structure, order, and tight boundaries. -/
structure TInv (s : SortedContainers) : Prop where
  si : SInv s
  sorted : sortedFlat s
  tight : tightM s

theorem data_ne_of_len {s : SortedContainers} (hsi : SInv s) (h : s.len ≠ 0) :
    1 ≤ s.data.length := by
  rcases Nat.eq_zero_or_pos s.data.length with h0 | h1
  · exfalso
    have := hsi.lenEq
    rw [List.length_eq_zero] at h0
    rw [h0] at this
    simp at this
    exact h this
  · exact h1

theorem getLastD_getElem? {b : List Int} (h : b ≠ []) :
    b[b.length - 1]? = some (b.getLastD 0) := by
  cases b with
  | nil => exact absurd rfl h
  | cons x l =>
    rw [List.getLastD_eq_getLast? , ← List.getLast?_eq_getElem?]
    rw [List.getLast?_eq_getLast (x :: l) (by simp)]
    simp

theorem headD_getElem? {b : List Int} (h : b ≠ []) : b[0]? = some (b.headD 0) := by
  cases b with
  | nil => exact absurd rfl h
  | cons x l => simp

theorem getLastD_mem {b : List Int} (h : b ≠ []) : b.getLastD 0 ∈ b := by
  have := getLastD_getElem? h
  exact List.mem_iff_getElem?.mpr ⟨b.length - 1, this⟩

theorem headD_mem {b : List Int} (h : b ≠ []) : b.headD 0 ∈ b := by
  have := headD_getElem? h
  exact List.mem_iff_getElem?.mpr ⟨0, this⟩

theorem getLastD_greatest {ot : OrderType} {b : List Int} {x : Int}
    (hb : b.Pairwise (ordLt ot)) (hx : x ∈ b) (hord : ot = .Asc) : x ≤ b.getLastD 0 := by
  subst hord
  have hne : b ≠ [] := by rintro rfl; simp at hx
  rcases List.mem_iff_getElem?.mp hx with ⟨i, hi⟩
  have hilen : i < b.length := (List.getElem?_eq_some.mp hi).1
  have hlast := getLastD_getElem? hne
  rcases Nat.lt_or_ge i (b.length - 1) with h1 | h1
  · have := sorted_getElem?_lt hb hi hlast h1
    simp only [ordLt] at this
    omega
  · have : i = b.length - 1 := by omega
    rw [this] at hi
    rw [hi] at hlast
    injection hlast with h2
    omega

theorem headD_greatest {ot : OrderType} {b : List Int} {x : Int}
    (hb : b.Pairwise (ordLt ot)) (hx : x ∈ b) (hord : ot = .Desc) : x ≤ b.headD 0 := by
  subst hord
  have hne : b ≠ [] := by rintro rfl; simp at hx
  rcases List.mem_iff_getElem?.mp hx with ⟨i, hi⟩
  have hhead := headD_getElem? hne
  rcases Nat.eq_zero_or_pos i with h1 | h1
  · rw [h1] at hi
    rw [hi] at hhead
    injection hhead with h2
    omega
  · have := sorted_getElem?_lt hb hhead hi h1
    simp only [ordLt] at this
    omega

/-- Tight boundaries imply weakly sound boundaries on sorted data. -/
theorem tight_imp_weak {s : SortedContainers} (hsi : SInv s) (hsort : sortedFlat s)
    (ht : tightM s) : weakBound s := by
  intro q b m hq hm
  by_cases hlen : s.len = 0
  · exfalso
    have := (hsi.shape0 hlen).2.1
    rw [this] at hm
    simp at hm
  have hbm := ht hlen q b hq
  rw [hbm] at hm
  injection hm with hm
  have hbne : b ≠ [] := hsi.ne hlen b (by
    rcases List.getElem?_eq_some.mp hq with ⟨h1, h2⟩
    rw [← h2]; exact List.getElem_mem h1)
  constructor
  · intro x hx
    cases hot : s.order_type with
    | Asc =>
      rw [← hm, hot]
      exact getLastD_greatest (by rw [← hot]; exact bucket_sorted hsort hq) hx rfl
    | Desc =>
      rw [← hm, hot]
      exact headD_greatest (by rw [← hot]; exact bucket_sorted hsort hq) hx rfl
  · cases hot : s.order_type with
    | Asc =>
      intro b2 y h2 hy
      have hmem : m ∈ b := by
        rw [← hm, hot]
        exact getLastD_mem hbne
      have := cross_bucket hsort hq h2 (by omega) hmem hy
      rw [hot] at this
      exact this
    | Desc =>
      intro b0 y h0 hq0 hy
      have hmem : m ∈ b := by
        rw [← hm, hot]
        exact headD_mem hbne
      have := cross_bucket hsort h0 hq (by omega) hy hmem
      rw [hot] at this
      exact this

theorem pairwise_of_adj {ot : OrderType} {l : List Int}
    (h : ∀ q x y, l[q]? = some x → l[q + 1]? = some y → ordLt ot x y) :
    l.Pairwise (ordLt ot) := by
  have key : ∀ (d i : Nat) (x y : Int), l[i]? = some x → l[i + d + 1]? = some y →
      ordLt ot x y := by
    intro d
    induction d with
    | zero => intro i x y hx hy; exact h i x y hx hy
    | succ n ih =>
      intro i x y hx hy
      have hylen := (List.getElem?_eq_some.mp hy).1
      have hmidlen : i + n + 1 < l.length := by omega
      have hz : l[i + n + 1]? = some l[i + n + 1] := List.getElem?_eq_getElem hmidlen
      refine ordLt_trans (ih i x _ hx hz) (h (i + n + 1) _ y hz ?_)
      have : i + n + 1 + 1 = i + (n + 1) + 1 := by omega
      rw [this]
      exact hy
  rw [List.pairwise_iff_getElem]
  intro i j hi hj hij
  have hx : l[i]? = some l[i] := List.getElem?_eq_getElem hi
  have hy : l[j]? = some l[j] := List.getElem?_eq_getElem hj
  refine key (j - i - 1) i _ _ hx ?_
  rw [show i + (j - i - 1) + 1 = j from by omega]
  exact hy

/-- The boundary sequence is strictly sorted in the active order on any state with
weakly sound boundaries and non-empty buckets. -/
theorem maxes_sorted {s : SortedContainers} (hsi : SInv s) (hwb : weakBound s)
    (hlen : s.len ≠ 0) : s.maxes.Pairwise (ordLt s.order_type) := by
  apply pairwise_of_adj
  intro q x y hx hy
  have hql : q + 1 < s.maxes.length := (List.getElem?_eq_some.mp hy).1
  have hmd := hsi.mlen hlen
  have hbq : ∃ b, s.data[q]? = some b := by
    have : q < s.data.length := by omega
    exact ⟨s.data[q], List.getElem?_eq_getElem this⟩
  have hbq1 : ∃ b, s.data[q + 1]? = some b := by
    have : q + 1 < s.data.length := by omega
    exact ⟨s.data[q + 1], List.getElem?_eq_getElem this⟩
  rcases hbq with ⟨b, hb⟩
  rcases hbq1 with ⟨b2, hb2⟩
  have hbne : b2 ≠ [] := hsi.ne hlen b2 (by
    rcases List.getElem?_eq_some.mp hb2 with ⟨h1, h2⟩
    rw [← h2]; exact List.getElem_mem h1)
  have hbqne : b ≠ [] := hsi.ne hlen b (by
    rcases List.getElem?_eq_some.mp hb with ⟨h1, h2⟩
    rw [← h2]; exact List.getElem_mem h1)
  cases hot : s.order_type with
  | Asc =>
    have hsep := (hwb q b x hb hx).2
    rw [hot] at hsep
    have hub := (hwb (q + 1) b2 y hb2 hy).1
    rcases List.exists_mem_of_ne_nil b2 hbne with ⟨z, hz⟩
    have h1 : x < z := hsep b2 z hb2 hz
    have h2 : z ≤ y := hub z hz
    simp only [ordLt, hot]
    omega
  | Desc =>
    have hsep := (hwb (q + 1) b2 y hb2 hy).2
    rw [hot] at hsep
    have hub := (hwb q b x hb hx).1
    rcases List.exists_mem_of_ne_nil b hbqne with ⟨z, hz⟩
    have h1 : y < z := hsep b z (by simpa using hb) (by omega) hz
    have h2 : z ≤ x := hub z hz
    simp only [ordLt, hot]
    omega

/-- The facts the bucket-routing stage establishes about the bucket selected for a
target value: the selected position is in range, all boundary values before it are
strictly below the target and all after it strictly above (in the active order), and
either the target is weakly bounded by the selected boundary or the selected bucket
is the terminal one in the search direction. -/
def routed (s : SortedContainers) (v : Int) (p : Nat) : Prop :=
  p < s.data.length ∧
  (∀ q m, q < p → s.maxes[q]? = some m → ordLt s.order_type m v) ∧
  (∀ q m, p < q → s.maxes[q]? = some m → ordLt s.order_type v m) ∧
  ((match s.order_type with | .Asc => p + 1 = s.data.length | .Desc => p = 0) ∨
    (∃ m, s.maxes[p]? = some m ∧ v ≤ m))

/-- Routing stage of search_element: the bucket position computed from the boundary
bisect (after search_element's clamp) satisfies the routed predicate. -/
theorem route_spec (s : SortedContainers) (v : Int)
    (hmd : s.maxes.length = s.data.length) (hd1 : 1 ≤ s.data.length)
    (hms : s.maxes.Pairwise (ordLt s.order_type)) :
    ∃ p0, (if 1 < s.maxes.length then s.bisect s.maxes v true else some (.inl 0))
        = some (.inl p0) ∧
      routed s v (if s.data.length = p0 then p0 - 1 else p0) := by
  by_cases hml : 1 < s.maxes.length
  · rcases bisectLoop_all hms with ⟨m, hloop, hm2, hm3⟩ | ⟨l, hloop, hl2, hL1, hL2⟩
    · -- the target equals a boundary value: Ok(m) from the loop
      refine ⟨m, ?_, ?_⟩
      · rw [if_pos hml, SortedContainers.bisect, hloop]
      · rw [if_neg (by omega)]
        refine ⟨by omega, ?_, ?_, Or.inr ⟨v, hm3, Int.le_refl v⟩⟩
        · intro q mq hq hmq
          exact sorted_getElem?_lt hms hmq hm3 hq
        · intro q mq hq hmq
          exact sorted_getElem?_lt hms hm3 hmq hq
    · cases hot : s.order_type with
      | Asc =>
        have hbis : s.bisect s.maxes v true = some (.inl l) := by
          rw [SortedContainers.bisect, hloop, hot]
          simp
        refine ⟨l, by rw [if_pos hml]; exact hbis, ?_⟩
        by_cases hdl : s.data.length = l
        · rw [if_pos hdl]
          refine ⟨by omega, ?_, ?_, Or.inl ?_⟩
          · intro q mq hq hmq
            exact hL1 q mq (by omega) hmq
          · intro q mq hq hmq
            have hqlen := (List.getElem?_eq_some.mp hmq).1
            omega
          · rw [hot]
            omega
        · rw [if_neg hdl]
          have hllt : l < s.maxes.length := by omega
          have hme : s.maxes[l]? = some s.maxes[l] := List.getElem?_eq_getElem hllt
          refine ⟨by omega, fun q mq hq hmq => hL1 q mq hq hmq, ?_, Or.inr ?_⟩
          · intro q mq hq hmq
            have hqlen := (List.getElem?_eq_some.mp hmq).1
            exact hL2 q mq (by omega) hqlen hmq
          · refine ⟨s.maxes[l], hme, ?_⟩
            have := hL2 l s.maxes[l] (by omega) hllt hme
            rw [hot] at this
            exact Int.le_of_lt this
      | Desc =>
        by_cases hdl : l = s.maxes.length
        · -- overran the boundary sequence: step back once, compare, keep
          have hlow1 : s.maxes.length - 1 < s.maxes.length := by omega
          have hme : s.maxes[s.maxes.length - 1]? = some s.maxes[s.maxes.length - 1] :=
            List.getElem?_eq_getElem hlow1
          have hgt : ordLt s.order_type s.maxes[s.maxes.length - 1] v :=
            hL1 (s.maxes.length - 1) _ (by omega) hme
          rw [hot] at hgt
          have hicmp : icmp s.maxes[s.maxes.length - 1] v = .gt := icmp_gt.mpr hgt
          have hbis : s.bisect s.maxes v true = some (.inl (s.maxes.length - 1)) := by
            rw [SortedContainers.bisect, hloop, hot]
            simp [hdl, hme, hicmp, show 0 < s.maxes.length - 1 from by omega]
          refine ⟨s.maxes.length - 1, by rw [if_pos hml]; exact hbis, ?_⟩
          rw [if_neg (by omega)]
          refine ⟨by omega, ?_, ?_, Or.inr ⟨_, hme, Int.le_of_lt hgt⟩⟩
          · intro q mq hq hmq
            exact hL1 q mq (by omega) hmq
          · intro q mq hq hmq
            have hqlen := (List.getElem?_eq_some.mp hmq).1
            omega
        · by_cases hl0 : l = 0
          · have hbis : s.bisect s.maxes v true = some (.inl 0) := by
              rw [SortedContainers.bisect, hloop, hot]
              subst hl0
              simp [hdl]
            refine ⟨0, by rw [if_pos hml]; exact hbis, ?_⟩
            rw [if_neg (by omega)]
            refine ⟨by omega, ?_, ?_, Or.inl (by rw [hot])⟩
            · intro q mq hq hmq
              omega
            · intro q mq hq hmq
              have hqlen := (List.getElem?_eq_some.mp hmq).1
              exact hL2 q mq (by omega) hqlen hmq
          · -- interior pivot: boundary at the pivot is below the target, step back one
            have hllt : l < s.maxes.length := by omega
            have hme : s.maxes[l]? = some s.maxes[l] := List.getElem?_eq_getElem hllt
            have hlt : ordLt s.order_type v s.maxes[l] := hL2 l _ (by omega) hllt hme
            rw [hot] at hlt
            have hicmp : icmp s.maxes[l] v = .lt := icmp_lt.mpr hlt
            have hlm : s.maxes[l - 1]? = some s.maxes[l - 1] :=
              List.getElem?_eq_getElem (by omega)
            have hgt2 : ordLt s.order_type s.maxes[l - 1] v :=
              hL1 (l - 1) _ (by omega) hlm
            have hbis : s.bisect s.maxes v true = some (.inl (l - 1)) := by
              rw [SortedContainers.bisect, hloop, hot]
              simp [hdl, hme, hicmp, show 0 < l from by omega]
            refine ⟨l - 1, by rw [if_pos hml]; exact hbis, ?_⟩
            rw [if_neg (by omega)]
            refine ⟨by omega, ?_, ?_, Or.inr ?_⟩
            · intro q mq hq hmq
              exact hL1 q mq (by omega) hmq
            · intro q mq hq hmq
              have hqlen := (List.getElem?_eq_some.mp hmq).1
              exact hL2 q mq (by omega) hqlen hmq
            · refine ⟨s.maxes[l - 1], hlm, ?_⟩
              rw [hot] at hgt2
              exact Int.le_of_lt hgt2
  · refine ⟨0, by rw [if_neg hml], ?_⟩
    rw [if_neg (by omega)]
    have hm1 : s.maxes.length = 1 := by omega
    have hdl1 : s.data.length = 1 := by omega
    refine ⟨by omega, ?_, ?_, Or.inl ?_⟩
    · intro q mq hq hmq
      omega
    · intro q mq hq hmq
      have hqlen := (List.getElem?_eq_some.mp hmq).1
      omega
    · cases hot : s.order_type with
      | Asc => omega
      | Desc => rfl

/-- Outcome of search_element when the target is found: the returned coordinates hold
an element equal to the target. -/
def searchFound (s : SortedContainers) (v : Int) (p i : Nat) : Prop :=
  ∃ b, s.data[p]? = some b ∧ b[i]? = some v

/-- Outcome of search_element when the target is absent: routed bucket plus the
in-bucket insertion offset facts. -/
def searchIns (s : SortedContainers) (v : Int) (p i : Nat) : Prop :=
  routed s v p ∧
  ∃ b, s.data[p]? = some b ∧ i ≤ b.length ∧
    (∀ j x, j < i → b[j]? = some x → ordLt s.order_type x v) ∧
    (∀ j x, i ≤ j → j < b.length → b[j]? = some x → ordLt s.order_type v x)

/-- Full case analysis of search_element on a well-formed state. -/
theorem search_element_spec (s : SortedContainers) (v : Int)
    (hlen : s.len ≠ 0) (hsi : SInv s) (hsort : sortedFlat s) (hwb : weakBound s) :
    (∃ p i, s.search_element v = some (.inl (p, i)) ∧ searchFound s v p i) ∨
    (∃ p i, s.search_element v = some (.inr (p, i)) ∧ searchIns s v p i) := by
  have hmd := hsi.mlen hlen
  have hd1 := data_ne_of_len hsi hlen
  have hms := maxes_sorted hsi hwb hlen
  rcases route_spec s v hmd hd1 hms with ⟨p0, hr, hrouted⟩
  have hplt : (if s.data.length = p0 then p0 - 1 else p0) < s.data.length := hrouted.1
  have hb : s.data[if s.data.length = p0 then p0 - 1 else p0]? =
      some s.data[if s.data.length = p0 then p0 - 1 else p0] :=
    List.getElem?_eq_getElem hplt
  have hbs : (s.data[if s.data.length = p0 then p0 - 1 else p0]).Pairwise
      (ordLt s.order_type) := bucket_sorted hsort hb
  have heq : s.search_element v =
      (match s.bisect s.data[if s.data.length = p0 then p0 - 1 else p0] v false with
       | none => none
       | some (.inl idx) => some (.inl (if s.data.length = p0 then p0 - 1 else p0, idx))
       | some (.inr idx) =>
          some (.inr (if s.data.length = p0 then p0 - 1 else p0, idx))) := by
    rw [SortedContainers.search_element, hr]
    simp only [hb]
  rcases inBucket_cases s (s.data[if s.data.length = p0 then p0 - 1 else p0]) v hbs with
    ⟨i, hi, hi2⟩ | ⟨i, hi, hi2, hi3, hi4⟩
  · refine Or.inl ⟨_, i, ?_, ⟨_, hb, hi2⟩⟩
    rw [heq, hi]
  · refine Or.inr ⟨_, i, ?_, hrouted, ⟨_, hb, hi2, hi3, hi4⟩⟩
    rw [heq, hi]

/-- Bracketing: the insertion point returned by search_element splits the flattened
contents into a strict lower part and a strict upper part around the target. -/
theorem searchIns_bracket {s : SortedContainers} {v : Int} {p i : Nat}
    (hlen : s.len ≠ 0) (hsi : SInv s) (hsort : sortedFlat s) (hwb : weakBound s)
    (h : searchIns s v p i) :
    ∀ j x, s.data.flatten[j]? = some x →
      (j < pfxLen s.data p + i → ordLt s.order_type x v) ∧
      (pfxLen s.data p + i ≤ j → ordLt s.order_type v x) := by
  obtain ⟨⟨hplt, hM1, hM2, hM3⟩, b, hbp, hile, hlo, hhi⟩ := h
  have hmd := hsi.mlen hlen
  intro j x hx
  rw [flatten_decomp hbp, List.append_assoc] at hx
  rw [List.getElem?_append] at hx
  simp only [length_flatten_take] at hx
  by_cases hjA : j < pfxLen s.data p
  · -- the position lies in an earlier bucket
    rw [if_pos hjA] at hx
    have hjlen : j < (s.data.take p).flatten.length := by
      rw [length_flatten_take]; exact hjA
    rcases rank_decomp (s.data.take p) j hjlen with ⟨q, bq, k, hq, hk, hjeq⟩
    have hqp : q < p := by
      rw [List.getElem?_take] at hq
      by_contra hcon
      rw [if_neg hcon] at hq
      exact Option.noConfusion hq
    have hdataq : s.data[q]? = some bq := by
      rw [List.getElem?_take, if_pos hqp] at hq
      exact hq
    have hxk : bq[k]? = some x := by
      rw [← flatten_pos hq hk, ← hjeq]
      exact hx
    have hxmem : x ∈ bq := List.mem_iff_getElem?.mpr ⟨k, hxk⟩
    have hqm : s.maxes[q]? = some s.maxes[q] :=
      List.getElem?_eq_getElem (by omega)
    refine ⟨fun _ => ?_, fun hcon => by omega⟩
    cases hot : s.order_type with
    | Asc =>
      have hub := (hwb q bq s.maxes[q] hdataq hqm).1 x hxmem
      have hm1 := hM1 q s.maxes[q] hqp hqm
      rw [hot] at hm1
      have hm1b : s.maxes[q] < v := hm1
      simp only [ordLt, hot]
      omega
    | Desc =>
      rcases hM3 with hM3l | ⟨mp, hmp, hvle⟩
      · rw [hot] at hM3l
        omega
      · have hp1 : p - 1 < s.data.length := by omega
        have hbp1 : s.data[p - 1]? = some s.data[p - 1] := List.getElem?_eq_getElem hp1
        have hb1ne : s.data[p - 1] ≠ [] := hsi.ne hlen _ (List.getElem_mem hp1)
        have hsep := (hwb p b mp hbp hmp).2
        rw [hot] at hsep
        rcases List.exists_mem_of_ne_nil _ hb1ne with ⟨y, hy⟩
        have hmpy : mp < y := hsep _ y hbp1 (by omega) hy
        simp only [ordLt, hot]
        rcases Nat.lt_or_ge q (p - 1) with hq2 | hq2
        · have := cross_bucket hsort hdataq hbp1 hq2 hxmem hy
          rw [hot] at this
          have hyx : y < x := this
          omega
        · have hqeq : q = p - 1 := by omega
          subst hqeq
          rw [hbp1] at hdataq
          injection hdataq with hdq
          have hmx : mp < x := hsep _ x hbp1 (by omega) (by rw [hdq]; exact hxmem)
          omega
  · -- the position lies in the selected bucket or a later one
    rw [if_neg hjA] at hx
    rw [List.getElem?_append] at hx
    by_cases hjb : j - pfxLen s.data p < b.length
    · rw [if_pos hjb] at hx
      constructor
      · intro hlt
        exact hlo (j - pfxLen s.data p) x (by omega) hx
      · intro hge
        exact hhi (j - pfxLen s.data p) x (by omega) hjb hx
    · rw [if_neg hjb] at hx
      have hige : pfxLen s.data p + i ≤ j := by omega
      refine ⟨fun hcon => by omega, fun _ => ?_⟩
      have hjlen2 : j - pfxLen s.data p - b.length < (s.data.drop (p + 1)).flatten.length := by
        have := (List.getElem?_eq_some.mp hx).1
        exact this
      rcases rank_decomp (s.data.drop (p + 1)) _ hjlen2 with ⟨q', bq, k, hq, hk, hjeq⟩
      have hdataq : s.data[p + 1 + q']? = some bq := by
        rw [List.getElem?_drop] at hq
        exact hq
      have hxk : bq[k]? = some x := by
        rw [← flatten_pos hq hk, ← hjeq]
        exact hx
      have hxmem : x ∈ bq := List.mem_iff_getElem?.mpr ⟨k, hxk⟩
      have hqlen : p + 1 + q' < s.data.length := (List.getElem?_eq_some.mp hdataq).1
      have hqm : s.maxes[p + 1 + q']? = some s.maxes[p + 1 + q'] :=
        List.getElem?_eq_getElem (by omega)
      cases hot : s.order_type with
      | Desc =>
        have hub := (hwb (p + 1 + q') bq s.maxes[p + 1 + q'] hdataq hqm).1 x hxmem
        have hm2 := hM2 (p + 1 + q') s.maxes[p + 1 + q'] (by omega) hqm
        rw [hot] at hm2
        have hm2b : s.maxes[p + 1 + q'] < v := hm2
        simp only [ordLt, hot]
        omega
      | Asc =>
        rcases hM3 with hM3l | ⟨mp, hmp, hvle⟩
        · rw [hot] at hM3l
          omega
        · have hbp1 : s.data[p + 1]? = some s.data[p + 1] :=
            List.getElem?_eq_getElem (by omega)
          have hb1ne : s.data[p + 1] ≠ [] := hsi.ne hlen _ (List.getElem_mem (by omega))
          have hsep := (hwb p b mp hbp hmp).2
          rw [hot] at hsep
          rcases List.exists_mem_of_ne_nil _ hb1ne with ⟨y, hy⟩
          have hmpy : mp < y := hsep _ y hbp1 hy
          simp only [ordLt, hot]
          rcases Nat.lt_or_ge (p + 1) (p + 1 + q') with hq2 | hq2
          · have := cross_bucket hsort hbp1 hdataq hq2 hy hxmem
            rw [hot] at this
            have hyx : y < x := this
            omega
          · have hqeq : q' = 0 := by omega
            subst hqeq
            simp only [Nat.add_zero] at hdataq
            rw [hbp1] at hdataq
            injection hdataq with hdq
            have hmx : mp < x := hsep _ x hbp1 (by rw [hdq]; exact hxmem)
            omega

theorem searchIns_not_mem {s : SortedContainers} {v : Int} {p i : Nat}
    (hlen : s.len ≠ 0) (hsi : SInv s) (hsort : sortedFlat s) (hwb : weakBound s)
    (h : searchIns s v p i) : v ∉ s.data.flatten := by
  intro hmem
  rcases List.mem_iff_getElem?.mp hmem with ⟨j, hj⟩
  have hbr := searchIns_bracket hlen hsi hsort hwb h j v hj
  rcases Nat.lt_or_ge j (pfxLen s.data p + i) with hlt | hge
  · exact ordLt_irrefl (hbr.1 hlt)
  · exact ordLt_irrefl (hbr.2 hge)

/-- Completeness of search_element: a stored element is found at its exact bucket
coordinates, hence at its global rank. -/
theorem search_found_rank {s : SortedContainers} {v : Int} {r : Nat}
    (hlen : s.len ≠ 0) (hsi : SInv s) (hsort : sortedFlat s) (hwb : weakBound s)
    (hr : s.data.flatten[r]? = some v) :
    ∃ p i b, s.search_element v = some (.inl (p, i)) ∧ s.data[p]? = some b ∧
      b[i]? = some v ∧ pfxLen s.data p + i = r := by
  rcases search_element_spec s v hlen hsi hsort hwb with
    ⟨p, i, hse, b, hbp, hbi⟩ | ⟨p, i, hse, hins⟩
  · refine ⟨p, i, b, hse, hbp, hbi, ?_⟩
    have hk : i < b.length := (List.getElem?_eq_some.mp hbi).1
    have := flatten_pos hbp hk
    rw [hbi] at this
    exact sorted_getElem?_unique hsort this hr
  · exact absurd (List.mem_iff_getElem?.mpr ⟨r, hr⟩)
      (searchIns_not_mem hlen hsi hsort hwb hins)

theorem nat_sorted_getElem?_lt {l : List Nat} {i j : Nat} {x y : Nat}
    (hs : l.Pairwise (· < ·)) (hi : l[i]? = some x) (hj : l[j]? = some y)
    (hij : i < j) : x < y := by
  rcases List.getElem?_eq_some.mp hi with ⟨hi1, hi2⟩
  rcases List.getElem?_eq_some.mp hj with ⟨hj1, hj2⟩
  have := List.pairwise_iff_getElem.mp hs i j hi1 hj1 hij
  rw [hi2, hj2] at this
  exact this

/-- Specification of the positional_search while-loop, mirroring bisectLoop_spec for
the cumulative rank table (always ascending). -/
theorem posLoop_spec {idxs : List Nat} {position : Nat} (hs : idxs.Pairwise (· < ·)) :
    ∀ (fuel low high : Nat), high ≤ idxs.length → low ≤ high → high - low < fuel →
    (∃ m, SortedContainers.posLoop idxs position fuel low high = some (.inl (m + 1)) ∧
        low ≤ m ∧ m < high ∧ idxs[m]? = some position) ∨
    (∃ l, SortedContainers.posLoop idxs position fuel low high = some (.inr l) ∧
        low ≤ l ∧ l ≤ high ∧
        (∀ i x, low ≤ i → i < l → idxs[i]? = some x → x < position) ∧
        (∀ i x, l ≤ i → i < high → idxs[i]? = some x → position < x)) := by
  intro fuel
  induction fuel with
  | zero => intro low high _ _ hf; omega
  | succ f ih =>
    intro low high hhi hlh hf
    by_cases hcmp : low < high
    · have hmid2 : (high + low) / 2 < high := by omega
      have hmidlen : (high + low) / 2 < idxs.length := by omega
      have hx : idxs[(high + low) / 2]? = some idxs[(high + low) / 2] :=
        List.getElem?_eq_getElem hmidlen
      set x := idxs[(high + low) / 2] with hxdef
      rcases hc : ncmp x position with _ | _ | _
      · have hxv : x < position := ncmp_lt.mp hc
        have hstep : SortedContainers.posLoop idxs position (f + 1) low high =
            SortedContainers.posLoop idxs position f ((high + low) / 2 + 1) high := by
          rw [SortedContainers.posLoop]
          simp only [if_pos hcmp, hx, hc]
        rcases ih ((high + low) / 2 + 1) high hhi (by omega) (by omega) with
          ⟨m, hm, hm1, hm2, hm3⟩ | ⟨l, hl, hl1, hl2, hl3, hl4⟩
        · exact Or.inl ⟨m, by rw [hstep]; exact hm, by omega, hm2, hm3⟩
        · refine Or.inr ⟨l, by rw [hstep]; exact hl, by omega, hl2, ?_, hl4⟩
          intro i y hi1 hi2 hy
          rcases Nat.lt_or_ge i ((high + low) / 2 + 1) with hile | hile
          · rcases Nat.lt_or_ge i ((high + low) / 2) with h5 | h5
            · have := nat_sorted_getElem?_lt hs hy hx h5
              omega
            · have h6 : i = (high + low) / 2 := by omega
              subst h6
              rw [hy] at hx
              injection hx with hx2
              omega
          · exact hl3 i y hile hi2 hy
      · have hxv : x = position := ncmp_eq.mp hc
        refine Or.inl ⟨(high + low) / 2, ?_, by omega, hmid2, by rw [hx, hxv]⟩
        rw [SortedContainers.posLoop]
        simp only [if_pos hcmp, hx, hc]
      · have hxv : position < x := ncmp_gt.mp hc
        have hstep : SortedContainers.posLoop idxs position (f + 1) low high =
            SortedContainers.posLoop idxs position f low ((high + low) / 2) := by
          rw [SortedContainers.posLoop]
          simp only [if_pos hcmp, hx, hc]
        rcases ih low ((high + low) / 2) (by omega) (by omega) (by omega) with
          ⟨m, hm, hm1, hm2, hm3⟩ | ⟨l, hl, hl1, hl2, hl3, hl4⟩
        · exact Or.inl ⟨m, by rw [hstep]; exact hm, hm1, by omega, hm3⟩
        · refine Or.inr ⟨l, by rw [hstep]; exact hl, hl1, by omega, hl3, ?_⟩
          intro i y hi1 hi2 hy
          rcases Nat.lt_or_ge i ((high + low) / 2) with h5 | h5
          · exact hl4 i y hi1 h5 hy
          · rcases Nat.eq_or_lt_of_le h5 with h6 | h6
            · rw [← h6] at hy
              rw [hy] at hx
              injection hx with hx2
              omega
            · have := nat_sorted_getElem?_lt hs hx hy h6
              omega
    · have hle : low = high := by omega
      refine Or.inr ⟨low, ?_, by omega, by omega, by omega, by omega⟩
      rw [SortedContainers.posLoop]
      simp only [if_neg hcmp]

theorem pfxLen_lt {data : List (List Int)} {i j : Nat}
    (hne : ∀ b ∈ data, b ≠ []) (hij : i < j) (hj : j ≤ data.length) :
    pfxLen data i < pfxLen data j := by
  have hi : i < data.length := by omega
  have hb : data[i]? = some data[i] := List.getElem?_eq_getElem hi
  have hbne : data[i] ≠ [] := hne _ (List.getElem_mem hi)
  have h1 : pfxLen data (i + 1) = pfxLen data i + (data[i]).length := pfxLen_succ hb
  have h2 : 0 < (data[i]).length := List.length_pos.mpr hbne
  have h3 : pfxLen data (i + 1) ≤ pfxLen data j := pfxLen_le (by omega)
  omega

theorem cumIdx_sorted {data : List (List Int)} (hne : ∀ b ∈ data, b ≠ []) :
    (SortedContainers.cumIdx data).Pairwise (· < ·) := by
  rw [List.pairwise_iff_getElem]
  intro i j hi hj hij
  rw [SortedContainers.cumIdx_length] at hi hj
  have hgi : (SortedContainers.cumIdx data)[i]? = some (pfxLen data i) := by
    rw [SortedContainers.cumIdx_getElem?, if_pos (by omega)]
  have hgj : (SortedContainers.cumIdx data)[j]? = some (pfxLen data j) := by
    rw [SortedContainers.cumIdx_getElem?, if_pos (by omega)]
  rcases List.getElem?_eq_some.mp hgi with ⟨_, hgi2⟩
  rcases List.getElem?_eq_some.mp hgj with ⟨_, hgj2⟩
  rw [hgi2, hgj2]
  exact pfxLen_lt hne hij (by omega)

/-- Specification of tuple_from_index on a well-formed state: a valid global rank is
mapped to valid bucket coordinates whose prefix sum recovers the rank. -/
theorem tuple_from_index_spec {s : SortedContainers} {r : Nat}
    (hsi : SInv s) (hlen : s.len ≠ 0) (hr : r < s.len) :
    ∃ p k b, s.tuple_from_index r = some (p, k) ∧ s.data[p]? = some b ∧
      k < b.length ∧ r = pfxLen s.data p + k := by
  have hd1 := data_ne_of_len hsi hlen
  have hne := hsi.ne hlen
  have hb0 : s.data[0]? = some s.data[0] := List.getElem?_eq_getElem (by omega)
  have hflat : r < s.data.flatten.length := by rw [← hsi.lenEq]; exact hr
  by_cases hr0 : r < (s.data[0]).length
  · refine ⟨0, r, s.data[0], ?_, hb0, hr0, by simp [pfxLen_zero]⟩
    rw [SortedContainers.tuple_from_index, hb0]
    simp only [if_pos hr0]
  · -- at least two buckets, the rank table is consulted
    have hd2 : 2 ≤ s.data.length := by
      by_contra hcon
      have hd1' : s.data.length = 1 := by omega
      have h1 : pfxLen s.data 1 = s.data.flatten.length := pfxLen_all (by omega)
      have h2 : pfxLen s.data 1 = pfxLen s.data 0 + (s.data[0]).length := pfxLen_succ hb0
      rw [pfxLen_zero] at h2
      omega
    have hmd := hsi.mlen hlen
    have hidx : s.index = SortedContainers.cumIdx s.data := by
      rw [hsi.idxEq, if_neg (by omega)]
    have hisort : s.index.Pairwise (· < ·) := by
      rw [hidx]; exact cumIdx_sorted hne
    have hilen : s.index.length = s.data.length + 1 := by
      rw [hidx, SortedContainers.cumIdx_length]
    rcases posLoop_spec hisort (s.index.length + 1) 0 s.index.length (Nat.le_refl _)
        (Nat.zero_le _) (by omega) with
      ⟨m, hm, _, hm2, hm3⟩ | ⟨l, hl, _, hl2, hl3, hl4⟩
    · -- Ok(m + 1): the rank sits exactly at a bucket start
      have hps : s.positional_search r = some (.inl (m + 1)) := hm
      have hmval : s.index[m]? = some (pfxLen s.data m) := by
        rw [hidx, SortedContainers.cumIdx_getElem?, if_pos (by omega)]
      rw [hmval] at hm3
      injection hm3 with hm3
      have hmlt : m < s.data.length := by
        by_contra hcon
        have hmeq : m = s.data.length := by omega
        rw [hmeq, pfxLen_all (Nat.le_refl _)] at hm3
        omega
      have hbm : s.data[m]? = some s.data[m] := List.getElem?_eq_getElem hmlt
      have hbmne : s.data[m] ≠ [] := hne _ (List.getElem_mem hmlt)
      refine ⟨m, r - pfxLen s.data m, s.data[m], ?_, hbm, ?_, by omega⟩
      · rw [SortedContainers.tuple_from_index, hb0]
        simp only [if_neg hr0, hps, Nat.add_sub_cancel, hmval]
      · have : pfxLen s.data (m + 1) = pfxLen s.data m + (s.data[m]).length :=
          pfxLen_succ hbm
        have hlt : r < pfxLen s.data (m + 1) := by
          rw [hm3] at this
          have h0 : 0 < (s.data[m]).length := List.length_pos.mpr hbmne
          omega
        omega
    · -- Err(l): the greatest table entry at or below the rank is at l - 1
      have hps : s.positional_search r = some (.inr l) := hl
      have hi0 : s.index[0]? = some 0 := by
        rw [hidx, SortedContainers.cumIdx_getElem?, if_pos (by omega), pfxLen_zero]
      have hl1 : 1 ≤ l := by
        by_contra hcon
        have : l = 0 := by omega
        subst this
        have := hl4 0 0 (by omega) (by omega) hi0
        have hrpos : 1 ≤ r := by
          have h0 : 0 < (s.data[0]).length :=
            List.length_pos.mpr (hne _ (List.getElem_mem (by omega)))
          omega
        omega
      have hlval : s.index[l - 1]? = some (pfxLen s.data (l - 1)) := by
        rw [hidx, SortedContainers.cumIdx_getElem?, if_pos (by omega)]
      have hlow : pfxLen s.data (l - 1) < r ∨ (l - 1 = 0 ∧ pfxLen s.data (l - 1) ≤ r) := by
        rcases Nat.eq_or_lt_of_le hl1 with h1 | h1
        · right
          constructor
          · omega
          · rw [show l - 1 = 0 from by omega, pfxLen_zero]
            omega
        · left
          exact hl3 (l - 1) _ (by omega) (by omega) hlval
      have hlle : l ≤ s.data.length := by
        by_contra hcon
        have hleq : l = s.data.length + 1 := by omega
        have hlast : s.index[s.data.length]? = some (pfxLen s.data s.data.length) := by
          rw [hidx, SortedContainers.cumIdx_getElem?, if_pos (Nat.le_refl _)]
        have := hl3 s.data.length _ (by omega) (by omega) hlast
        rw [pfxLen_all (Nat.le_refl _)] at this
        omega
      have hup : r < pfxLen s.data l := by
        have hlv : s.index[l]? = some (pfxLen s.data l) := by
          rw [hidx, SortedContainers.cumIdx_getElem?, if_pos (by omega)]
        have := hl4 l _ (by omega) (by omega) hlv
        exact this
      have hplt : l - 1 < s.data.length := by omega
      have hbl : s.data[l - 1]? = some s.data[l - 1] := List.getElem?_eq_getElem hplt
      refine ⟨l - 1, r - pfxLen s.data (l - 1), s.data[l - 1], ?_, hbl, ?_, ?_⟩
      · rw [SortedContainers.tuple_from_index, hb0]
        simp only [if_neg hr0, hps, hlval]
      · have hsucc : pfxLen s.data (l - 1 + 1) = pfxLen s.data (l - 1) +
            (s.data[l - 1]).length := pfxLen_succ hbl
        rw [show l - 1 + 1 = l from by omega] at hsucc
        omega
      · omega

/-- Specification of index_from_tuple: valid bucket coordinates are mapped to the
global rank given by the prefix sum plus the offset. -/
theorem index_from_tuple_spec {s : SortedContainers} (hsi : SInv s) (hlen : s.len ≠ 0)
    {p k : Nat} (hp : p < s.data.length) :
    s.index_from_tuple (p, k) = some (pfxLen s.data p + k) := by
  rw [SortedContainers.index_from_tuple]
  by_cases hd : 1 < s.data.length
  · rw [if_pos hd]
    have hmd := hsi.mlen hlen
    have hidx : s.index = SortedContainers.cumIdx s.data := by
      rw [hsi.idxEq, if_neg (by omega)]
    have hval : s.index[p]? = some (pfxLen s.data p) := by
      rw [hidx, SortedContainers.cumIdx_getElem?, if_pos (by omega)]
    simp only [hval]
  · rw [if_neg hd]
    have hp0 : p = 0 := by omega
    subst hp0
    simp [pfxLen_zero]

/-- Indexed access at a valid rank returns the element at that position of the
flattened contents. -/
theorem elementAt_spec {s : SortedContainers} (hsi : SInv s) {r : Nat} (hr : r < s.len) :
    s.elementAt r = s.data.flatten[r]? := by
  have hlen : s.len ≠ 0 := by omega
  rcases tuple_from_index_spec hsi hlen hr with ⟨p, k, b, ht, hb, hk, hreq⟩
  rw [SortedContainers.elementAt, if_pos hr]
  simp only [ht, Option.bind_eq_bind, Option.some_bind, hb]
  rw [hreq, flatten_pos hb hk]

theorem rangeGo_spec {s : SortedContainers} (hsi : SInv s) (hlen : s.len ≠ 0) :
    ∀ (count i : Nat), i + count ≤ s.len →
      s.rangeGo i count = some ((s.data.flatten.drop i).take count) := by
  intro count
  induction count with
  | zero => intro i _; simp [SortedContainers.rangeGo]
  | succ n ih =>
    intro i hi
    rcases tuple_from_index_spec hsi hlen (show i < s.len by omega) with
      ⟨p, k, b, ht, hb, hk, hreq⟩
    rw [SortedContainers.rangeGo]
    have hx : b[k]? = s.data.flatten[i]? := by
      rw [hreq, flatten_pos hb hk]
    have hflat : i < s.data.flatten.length := by rw [← hsi.lenEq]; omega
    simp only [ht, Option.bind_eq_bind, Option.some_bind, hb, ih (i + 1) (by omega)]
    rw [hx, List.getElem?_eq_getElem hflat]
    simp only [Option.some_bind]
    congr 1
    conv_rhs => rw [List.drop_eq_getElem_cons hflat]
    rw [List.take_succ_cons]

/-- range panics exactly on the documented invalid bounds. -/
theorem range_panic {s : SortedContainers} {a b : Nat}
    (h : a > b ∨ s.len ≤ a ∨ s.len ≤ b) : s.range a b = none := by
  rw [SortedContainers.range]
  by_cases h1 : a > b
  · rw [if_pos h1]
  · rw [if_neg h1]
    by_cases h2 : a ≥ s.len
    · rw [if_pos h2]
    · rw [if_neg h2]
      have h3 : b ≥ s.len := by omega
      rw [if_pos h3]

/-- range on valid bounds returns exactly the elements with global rank in the
half-open window, as a contiguous slice of the flattened contents, with the empty
result reported as none. -/
theorem range_ok {s : SortedContainers} (hsi : SInv s) {a b : Nat}
    (hab : a ≤ b) (ha : a < s.len) (hb : b < s.len) :
    s.range a b = some (if a = b then none
      else some ((s.data.flatten.drop a).take (b - a))) := by
  have hlen : s.len ≠ 0 := by omega
  rw [SortedContainers.range, if_neg (by omega), if_neg (by omega), if_neg (by omega)]
  rw [rangeGo_spec hsi hlen (b - a) a (by omega)]
  simp only [Option.bind_eq_bind, Option.some_bind]
  congr 1
  have hdlen : (s.data.flatten.drop a).length = s.data.flatten.length - a := by simp
  have hflen : s.data.flatten.length = s.len := (hsi.lenEq).symm
  by_cases heq : a = b
  · rw [if_pos heq]
    have : b - a = 0 := by omega
    simp [this]
  · rw [if_neg heq]
    have hne2 : ((s.data.flatten.drop a).take (b - a)).length = b - a := by
      rw [List.length_take]
      omega
    have : ¬ ((s.data.flatten.drop a).take (b - a)).isEmpty = true := by
      rw [List.isEmpty_iff_length_eq_zero, hne2]
      omega
    simp only [this]
    rw [if_neg (by simpa using this)]

theorem eraseIdx_eq_take_drop {α : Type} : ∀ (l : List α) (n : Nat),
    l.eraseIdx n = l.take n ++ l.drop (n + 1)
  | [], _ => by simp
  | x :: l, 0 => by simp [List.eraseIdx]
  | x :: l, n + 1 => by
    simp only [List.eraseIdx_cons_succ, List.take_succ_cons, List.drop_succ_cons,
      List.cons_append]
    rw [eraseIdx_eq_take_drop l n]

theorem splice_getElem? {α : Type} (A : List α) (x : α) (C : List α) (q : Nat) :
    (A ++ x :: C)[q]? =
      if q < A.length then A[q]?
      else if q = A.length then some x
      else C[q - A.length - 1]? := by
  rw [List.getElem?_append]
  by_cases h1 : q < A.length
  · rw [if_pos h1, if_pos h1]
  · rw [if_neg h1, if_neg h1]
    by_cases h2 : q = A.length
    · rw [if_pos h2]
      have : q - A.length = 0 := by omega
      rw [this]
      simp
    · rw [if_neg h2]
      have : q - A.length = (q - A.length - 1) + 1 := by omega
      rw [this]
      simp

/-- Inserting an element at a bracketed position keeps the list pairwise sorted. -/
theorem pairwise_insert_at {ot : OrderType} {l : List Int} {r : Nat} {v : Int}
    (hs : l.Pairwise (ordLt ot)) (hr : r ≤ l.length)
    (hlo : ∀ j x, j < r → l[j]? = some x → ordLt ot x v)
    (hhi : ∀ j x, r ≤ j → l[j]? = some x → ordLt ot v x) :
    (l.take r ++ v :: l.drop r).Pairwise (ordLt ot) := by
  rw [List.pairwise_append]
  refine ⟨hs.sublist (List.take_sublist r l), ?_, ?_⟩
  · rw [List.pairwise_cons]
    constructor
    · intro y hy
      rcases List.mem_iff_getElem?.mp hy with ⟨j, hj⟩
      rw [List.getElem?_drop] at hj
      exact hhi (r + j) y (by omega) hj
    · exact hs.sublist (List.drop_sublist r l)
  · intro a ha y hy
    rcases List.mem_iff_getElem?.mp ha with ⟨j, hj⟩
    rw [List.getElem?_take] at hj
    by_cases hjr : j < r
    · rw [if_pos hjr] at hj
      have hav : ordLt ot a v := hlo j a hjr hj
      rcases List.mem_cons.mp hy with rfl | hy2
      · exact hav
      · rcases List.mem_iff_getElem?.mp hy2 with ⟨j2, hj2⟩
        rw [List.getElem?_drop] at hj2
        exact ordLt_trans hav (hhi (r + j2) y (by omega) hj2)
    · rw [if_neg hjr] at hj
      exact Option.noConfusion hj

theorem pfxLen_set_le {data : List (List Int)} {p i : Nat} {b1 : List Int}
    (hi : i ≤ p) : pfxLen (data.set p b1) i = pfxLen data i := by
  have hteq : (data.set p b1).take i = data.take i := by
    apply List.ext_getElem?
    intro n
    rw [List.getElem?_take, List.getElem?_take]
    by_cases hn : n < i
    · rw [if_pos hn, if_pos hn, List.getElem?_set]
      rw [if_neg (by omega)]
    · rw [if_neg hn, if_neg hn]
  simp only [pfxLen, hteq]

theorem pfxLen_set_gt : ∀ {data : List (List Int)} {p : Nat} {b b1 : List Int} {i : Nat},
    data[p]? = some b → p < i →
    pfxLen (data.set p b1) i + b.length = pfxLen data i + b1.length := by
  intro data
  induction data with
  | nil => intro p b b1 i hp; simp at hp
  | cons d rest ih =>
    intro p b b1 i hp hi
    cases p with
    | zero =>
      simp only [List.getElem?_cons_zero, Option.some_inj] at hp
      subst hp
      cases i with
      | zero => omega
      | succ n =>
        simp only [List.set_cons_zero, pfxLen_cons]
        omega
    | succ p2 =>
      simp only [List.getElem?_cons_succ] at hp
      cases i with
      | zero => omega
      | succ n =>
        simp only [List.set_cons_succ, pfxLen_cons]
        have := @ih _ _ b1 _ hp (show p2 < n by omega)
        omega

theorem flatten_set {data : List (List Int)} {p : Nat} {b b1 : List Int}
    (hp : data[p]? = some b) :
    (data.set p b1).flatten =
      (data.take p).flatten ++ b1 ++ (data.drop (p + 1)).flatten := by
  have hplt : p < data.length := (List.getElem?_eq_some.mp hp).1
  rw [List.set_eq_take_cons_drop _ hplt]
  simp

/-! The iterator trace equals the flattened bucket contents on states whose buckets
are all non-empty. -/

theorem iterTrace_go (data : List (List Int)) (hne : ∀ b ∈ data, b ≠ []) :
    ∀ (fuel p i : Nat) (b : List Int), data[p]? = some b → i ≤ b.length →
      (b.length - i) + (data.drop (p + 1)).flatten.length < fuel →
      iterTrace data ⟨p, i⟩ fuel = some (b.drop i ++ (data.drop (p + 1)).flatten) := by
  intro fuel
  induction fuel with
  | zero => intro p i b _ _ hf; omega
  | succ f ih =>
    intro p i b hb hi hf
    have hplt : p < data.length := (List.getElem?_eq_some.mp hb).1
    rcases Nat.lt_or_ge i b.length with hib | hib
    · -- the current bucket still has elements: yield one
      have hxi : b[i]? = some b[i] := List.getElem?_eq_getElem hib
      have hnext : iterNext data ⟨p, i⟩ = some (some (b[i], ⟨p, i + 1⟩)) := by
        rw [iterNext]
        simp only [hb, Option.bind_eq_bind, Option.some_bind, if_neg (by omega : ¬ b.length ≤ i)]
        rw [if_neg (by omega : ¬ data.length ≤ (p, i).fst)]
        simp only [hb, Option.some_bind, hxi]
      rw [iterTrace, hnext]
      simp only [ih p (i + 1) b hb (by omega) (by omega), Option.map_some']
      rw [List.drop_eq_getElem_cons hib, List.cons_append]
    · -- bucket exhausted: skip to the next one
      have hieq : i = b.length := by omega
      rcases Nat.lt_or_ge (p + 1) data.length with hp1 | hp1
      · have hb2 : data[p + 1]? = some data[p + 1] := List.getElem?_eq_getElem hp1
        have hb2ne : data[p + 1] ≠ [] := hne _ (List.getElem_mem hp1)
        have hb2pos : 0 < (data[p + 1]).length := List.length_pos.mpr hb2ne
        have hx0 : (data[p + 1])[0]? = some (data[p + 1])[0] :=
          List.getElem?_eq_getElem hb2pos
        have hnext : iterNext data ⟨p, i⟩ = some (some ((data[p + 1])[0], ⟨p + 1, 1⟩)) := by
          rw [iterNext]
          simp only [hb, Option.bind_eq_bind, Option.some_bind, if_pos (by omega : b.length ≤ i)]
          rw [if_neg (by omega : ¬ data.length ≤ (p + 1, 0).fst)]
          simp only [hb2, Option.some_bind, hx0]
        have hdec : data.drop (p + 1) = data[p + 1] :: data.drop (p + 1 + 1) :=
          List.drop_eq_getElem_cons hp1
        have hlen2 : (data.drop (p + 1)).flatten.length =
            (data[p + 1]).length + (data.drop (p + 1 + 1)).flatten.length := by
          rw [hdec, List.flatten_cons, List.length_append]
        rw [iterTrace, hnext]
        simp only [ih (p + 1) 1 (data[p + 1]) hb2 (by omega) (by omega), Option.map_some']
        subst hieq
        rw [List.drop_of_length_le (Nat.le_refl b.length), hdec]
        have hsplit : data[p + 1] = (data[p + 1])[0] :: (data[p + 1]).drop 1 := by
          conv_lhs => rw [← List.drop_zero (data[p + 1])]
          rw [List.drop_eq_getElem_cons hb2pos]
        rw [List.nil_append, List.flatten_cons]
        conv_rhs => rw [hsplit]
        rw [List.cons_append]
      · have hnext : iterNext data ⟨p, i⟩ = some none := by
          rw [iterNext]
          simp only [hb, Option.bind_eq_bind, Option.some_bind, if_pos (by omega : b.length ≤ i)]
          rw [if_pos (by omega : data.length ≤ (p + 1, 0).fst)]
        have htr : iterTrace data ⟨p, i⟩ (f + 1) = some [] := by
          rw [iterTrace, hnext]
        subst hieq
        rw [htr, List.drop_of_length_le (Nat.le_refl b.length),
          List.drop_of_length_le (show data.length ≤ p + 1 by omega)]
        simp

theorem take_set_of_le {α : Type} (l : List α) (p i : Nat) (a : α) (hi : i ≤ p) :
    (l.set p a).take i = l.take i := by
  apply List.ext_getElem?
  intro n
  rw [List.getElem?_take, List.getElem?_take]
  by_cases hn : n < i
  · rw [if_pos hn, if_pos hn, List.getElem?_set, if_neg (by omega)]
  · rw [if_neg hn, if_neg hn]

theorem drop_set_of_lt {α : Type} (l : List α) (p n : Nat) (a : α) (h : p < n) :
    (l.set p a).drop n = l.drop n := by
  apply List.ext_getElem?
  intro m
  rw [List.getElem?_drop, List.getElem?_drop, List.getElem?_set, if_neg (by omega)]

/-- Canonical form of a set followed by an insert one place later: the bucket at p is
replaced by two consecutive buckets. -/
theorem set_insert_canon {α : Type} {l : List α} {p : Nat} {old lo hi : α}
    (hp : l[p]? = some old) :
    ∃ l2, vecSet p lo l = some (l.set p lo) ∧
      vecInsert (p + 1) hi (l.set p lo) = some l2 ∧
      l2 = l.take p ++ lo :: hi :: l.drop (p + 1) := by
  have hplt : p < l.length := (List.getElem?_eq_some.mp hp).1
  refine ⟨_, vecSet_some lo hplt, vecInsert_some hi (p + 1) (l.set p lo) (by
    rw [List.length_set]; omega), ?_⟩
  have h1 : (l.set p lo).take (p + 1) = l.take p ++ [lo] := by
    rw [List.take_succ, take_set_of_le l p p lo (Nat.le_refl p)]
    rw [List.getElem?_set, if_pos rfl, if_pos hplt]
    rfl
  have h2 : (l.set p lo).drop (p + 1) = l.drop (p + 1) :=
    drop_set_of_lt l p (p + 1) lo (by omega)
  rw [h1, h2]
  simp

theorem flatten_splice2 {data : List (List Int)} {p : Nat} {bt lo hi : List Int}
    (hp : data[p]? = some bt) (hsum : lo ++ hi = bt) :
    (data.take p ++ lo :: hi :: data.drop (p + 1)).flatten = data.flatten := by
  rw [flatten_decomp hp]
  simp only [List.flatten_append, List.flatten_cons]
  rw [← hsum]
  simp

theorem length_take_of_le {α : Type} {l : List α} {p : Nat} (h : p ≤ l.length) :
    (l.take p).length = p := by
  simp [List.length_take]
  omega

theorem insert_set_canon {α : Type} {l : List α} {p : Nat} {old lo hi : α}
    (hp : l[p]? = some old) :
    vecInsert (p + 1) hi l = some (l.take (p + 1) ++ hi :: l.drop (p + 1)) ∧
      vecSet p lo (l.take (p + 1) ++ hi :: l.drop (p + 1)) =
        some (l.take p ++ lo :: hi :: l.drop (p + 1)) := by
  have hplt : p < l.length := (List.getElem?_eq_some.mp hp).1
  constructor
  · exact vecInsert_some hi (p + 1) l (by omega)
  · have hlen1 : p < (l.take (p + 1) ++ hi :: l.drop (p + 1)).length := by
      rw [List.length_append, length_take_of_le (by omega)]
      omega
    rw [vecSet_some lo hlen1]
    congr 1
    rw [List.set_append, if_pos (by rw [length_take_of_le (by omega)]; omega)]
    rw [List.take_succ, hp]
    have : (l.take p ++ [old]).set p lo = l.take p ++ [lo] := by
      rw [List.set_append, if_neg (by rw [length_take_of_le (by omega)]; omega)]
      rw [length_take_of_le (by omega)]
      simp
    rw [show (l.take p ++ (some old).toList) = l.take p ++ [old] from rfl, this]
    simp

/-- Preservation of all invariants by the expand (split) step, which also leaves the
flattened contents, the length and the configuration untouched. -/
theorem expand_pres {t : SortedContainers} {p : Nat} {bt : List Int}
    (hsi : SInv t) (hsort : sortedFlat t) (hwb : weakBound t) (hlen : t.len ≠ 0)
    (hb : t.data[p]? = some bt) (hbt2 : 2 ≤ bt.length) :
    ∃ t', t.expand p = some t' ∧ SInv t' ∧ sortedFlat t' ∧ weakBound t' ∧
      (tightM t → tightM t') ∧ t'.order_type = t.order_type ∧
      t'.expand_strategy = t.expand_strategy ∧ t'.shrink_strategy = t.shrink_strategy ∧
      t'.len = t.len ∧ t'.data.flatten = t.data.flatten := by
  have hplt : p < t.data.length := (List.getElem?_eq_some.mp hb).1
  have hmd := hsi.mlen hlen
  have hmp : t.maxes[p]? = some t.maxes[p] := List.getElem?_eq_getElem (by omega)
  have hbs : bt.Pairwise (ordLt t.order_type) := bucket_sorted hsort hb
  set sa := bt.length / 2 with hsadef
  have hsa1 : 1 ≤ sa := by omega
  have hsa2 : sa < bt.length := by omega
  set lower := bt.take sa with hlowdef
  set upper := bt.drop sa with hupdef
  have hlowlen : lower.length = sa := length_take_of_le (by omega)
  have huplen : upper.length = bt.length - sa := by simp [hupdef]
  have hlowne : lower ≠ [] := by
    rw [← List.length_pos]
    omega
  have hupne : upper ≠ [] := by
    rw [← List.length_pos]
    omega
  have hlowsort : lower.Pairwise (ordLt t.order_type) :=
    hbs.sublist (List.take_sublist _ _)
  have hupsort : upper.Pairwise (ordLt t.order_type) :=
    hbs.sublist (List.drop_sublist _ _)
  have hcrossb : ∀ x ∈ lower, ∀ y ∈ upper, ordLt t.order_type x y := by
    have := List.pairwise_append.mp (by rw [List.take_append_drop sa bt]; exact hbs :
      (lower ++ upper).Pairwise (ordLt t.order_type))
    exact this.2.2
  -- boundary values of the two halves
  set mUp := (match t.order_type with
    | .Asc => upper.getLastD 0
    | .Desc => upper.headD 0) with hmUpdef
  set mLow := (match t.order_type with
    | .Asc => lower.getLastD 0
    | .Desc => lower.headD 0) with hmLowdef
  have hmUpget : (match t.order_type with
      | OrderType.Asc => upper[upper.length - 1]?
      | OrderType.Desc => upper[0]?) = some mUp := by
    cases hot : t.order_type
    · simp only [hmUpdef, hot]
      exact getLastD_getElem? hupne
    · simp only [hmUpdef, hot]
      exact headD_getElem? hupne
  have hmLowget : (match t.order_type with
      | OrderType.Asc => lower[lower.length - 1]?
      | OrderType.Desc => lower[0]?) = some mLow := by
    cases hot : t.order_type
    · simp only [hmLowdef, hot]
      exact getLastD_getElem? hlowne
    · simp only [hmLowdef, hot]
      exact headD_getElem? hlowne
  -- canonical forms for the updated sequences
  have hmc := @insert_set_canon _ _ _ _ mLow mUp hmp
  have hdc := @set_insert_canon _ _ _ _ lower upper hb
  rcases hdc with ⟨data2, hdset, hdins, hdeq⟩
  set maxes2 := t.maxes.take p ++ mLow :: mUp :: t.maxes.drop (p + 1) with hm2def
  have hexp : t.expand p = some (SortedContainers.build_index
      { t with data := data2, maxes := maxes2 }) := by
    have hmU := hmUpget
    have hmL := hmLowget
    rw [SortedContainers.expand]
    cases hot : t.order_type <;>
      · simp only [hot] at hmU hmL
        simp only [hb, Option.bind_eq_bind, Option.some_bind, ← hsadef, ← hlowdef,
          ← hupdef, hot, hmU, hmL, hmc.1, hmc.2, hdset, hdins]
  have hm2len : maxes2.length = t.maxes.length + 1 := by
    rw [hm2def]
    simp only [List.length_append, List.length_cons]
    rw [length_take_of_le (by omega), List.length_drop]
    omega
  have hd2len : data2.length = t.data.length + 1 := by
    rw [hdeq]
    simp only [List.length_append, List.length_cons]
    rw [length_take_of_le (by omega), List.length_drop]
    omega
  have hflat2 : data2.flatten = t.data.flatten := by
    rw [hdeq]
    exact flatten_splice2 hb (List.take_append_drop sa bt)
  have hcond : ¬ (t.len = 0 ∨ maxes2.length < 2) := by
    push_neg
    exact ⟨hlen, by omega⟩
  have hbidx : SortedContainers.build_index { t with data := data2, maxes := maxes2 } =
      { t with
        data := data2,
        maxes := maxes2,
        index := SortedContainers.cumIdx data2 } := by
    rw [SortedContainers.build_index, if_neg hcond]
  -- getElem? characterizations of the two new sequences
  have hd2get : ∀ q, data2[q]? =
      if q < p then t.data[q]?
      else if q = p then some lower
      else if q = p + 1 then some upper
      else t.data[q - 1]? := by
    intro q
    rw [hdeq, splice_getElem? (t.data.take p) lower (upper :: t.data.drop (p + 1)) q]
    rw [length_take_of_le (by omega)]
    by_cases h1 : q < p
    · rw [if_pos h1, if_pos h1, List.getElem?_take, if_pos h1]
    · rw [if_neg h1, if_neg h1]
      by_cases h2 : q = p
      · rw [if_pos h2, if_pos h2]
      · rw [if_neg h2, if_neg h2]
        rw [show (upper :: t.data.drop (p + 1)) = [] ++ upper :: t.data.drop (p + 1)
          from rfl, splice_getElem? [] upper (t.data.drop (p + 1)) (q - p - 1)]
        simp only [List.length_nil]
        rw [if_neg (by omega)]
        by_cases h3 : q = p + 1
        · rw [if_pos (by omega), if_pos h3]
        · rw [if_neg (by omega), if_neg h3, List.getElem?_drop]
          congr 1
          omega
  have hm2get : ∀ q, maxes2[q]? =
      if q < p then t.maxes[q]?
      else if q = p then some mLow
      else if q = p + 1 then some mUp
      else t.maxes[q - 1]? := by
    intro q
    rw [hm2def, splice_getElem? (t.maxes.take p) mLow (mUp :: t.maxes.drop (p + 1)) q]
    rw [length_take_of_le (by omega)]
    by_cases h1 : q < p
    · rw [if_pos h1, if_pos h1, List.getElem?_take, if_pos h1]
    · rw [if_neg h1, if_neg h1]
      by_cases h2 : q = p
      · rw [if_pos h2, if_pos h2]
      · rw [if_neg h2, if_neg h2]
        rw [show (mUp :: t.maxes.drop (p + 1)) = [] ++ mUp :: t.maxes.drop (p + 1)
          from rfl, splice_getElem? [] mUp (t.maxes.drop (p + 1)) (q - p - 1)]
        simp only [List.length_nil]
        rw [if_neg (by omega)]
        by_cases h3 : q = p + 1
        · rw [if_pos (by omega), if_pos h3]
        · rw [if_neg (by omega), if_neg h3, List.getElem?_drop]
          congr 1
          omega
  have hlowsub : ∀ x ∈ lower, x ∈ bt := fun x hx => (List.take_sublist sa bt).subset hx
  have hupsub : ∀ x ∈ upper, x ∈ bt := fun x hx => (List.drop_sublist sa bt).subset hx
  refine ⟨_, hexp, ?_⟩
  rw [hbidx]
  refine ⟨?_, ?_, ?_, ?_, rfl, rfl, rfl, rfl, hflat2⟩
  · -- structural invariant
    refine ⟨fun h => absurd h hlen, ?_, fun _ => by
      show maxes2.length = data2.length
      omega, ?_, ?_, hsi.shrink0⟩
    · intro _ b hbmem
      have hbm2 : b ∈ data2 := hbmem
      rw [hdeq] at hbm2
      rcases List.mem_append.mp hbm2 with h1 | h1
      · exact hsi.ne hlen b ((List.take_sublist p t.data).subset h1)
      · rcases List.mem_cons.mp h1 with rfl | h2
        · exact hlowne
        · rcases List.mem_cons.mp h2 with rfl | h3
          · exact hupne
          · exact hsi.ne hlen b ((List.drop_sublist (p + 1) t.data).subset h3)
    · show t.len = data2.flatten.length
      rw [hflat2]
      exact hsi.lenEq
    · show SortedContainers.cumIdx data2 =
        if maxes2.length < 2 then [] else SortedContainers.cumIdx data2
      rw [if_neg (by omega)]
  · -- order invariant
    show data2.flatten.Pairwise (ordLt t.order_type)
    rw [hflat2]
    exact hsort
  · -- weak boundary soundness
    intro q b m hq hm
    have hq2 : data2[q]? = (if q < p then t.data[q]?
      else if q = p then some lower
      else if q = p + 1 then some upper
      else t.data[q - 1]?) := hd2get q
    have hm2 : maxes2[q]? = (if q < p then t.maxes[q]?
      else if q = p then some mLow
      else if q = p + 1 then some mUp
      else t.maxes[q - 1]?) := hm2get q
    have hqv : data2[q]? = some b := hq
    have hmv : maxes2[q]? = some m := hm
    rw [hq2] at hqv
    rw [hm2] at hmv
    constructor
    · -- each boundary bounds its own bucket
      intro x hx
      by_cases h1 : q < p
      · rw [if_pos h1] at hqv hmv
        exact (hwb q b m hqv hmv).1 x hx
      · by_cases h2 : q = p
        · rw [if_neg h1, if_pos h2] at hqv hmv
          injection hqv with hqv
          injection hmv with hmv
          subst hqv
          cases hot : t.order_type
          · rw [← hmv, hmLowdef, hot]
            exact getLastD_greatest (by rw [← hot]; exact hlowsort) hx rfl
          · rw [← hmv, hmLowdef, hot]
            exact headD_greatest (by rw [← hot]; exact hlowsort) hx rfl
        · by_cases h3 : q = p + 1
          · rw [if_neg h1, if_neg h2, if_pos h3] at hqv hmv
            injection hqv with hqv
            injection hmv with hmv
            subst hqv
            cases hot : t.order_type
            · rw [← hmv, hmUpdef, hot]
              exact getLastD_greatest (by rw [← hot]; exact hupsort) hx rfl
            · rw [← hmv, hmUpdef, hot]
              exact headD_greatest (by rw [← hot]; exact hupsort) hx rfl
          · rw [if_neg h1, if_neg h2, if_neg h3] at hqv hmv
            exact (hwb (q - 1) b m hqv hmv).1 x hx
    · -- separation from the neighbor in the search direction
      have hOT : ({ t with
          data := data2,
          maxes := maxes2,
          index := SortedContainers.cumIdx data2 } : SortedContainers).order_type
          = t.order_type := rfl
      rw [hOT]
      cases hot : t.order_type with
      | Asc =>
        intro b2 y hb2q hy
        have hb2v : data2[q + 1]? = some b2 := hb2q
        rw [hd2get (q + 1)] at hb2v
        by_cases h1 : q + 1 < p
        · rw [if_pos h1] at hb2v
          rw [if_pos (by omega)] at hqv hmv
          have := (hwb q b m hqv hmv).2
          rw [hot] at this
          exact this b2 y hb2v hy
        · by_cases h2 : q + 1 = p
          · -- the neighbor is the lower half; the old separation applies
            rw [if_neg h1, if_pos h2] at hb2v
            injection hb2v with hb2v
            rw [if_pos (by omega)] at hqv hmv
            have := (hwb q b m hqv hmv).2
            rw [hot] at this
            have hyb : y ∈ bt := hlowsub y (by rw [hb2v]; exact hy)
            have hbq : t.data[q + 1]? = some bt := by rw [h2]; exact hb
            exact this bt y hbq hyb
          · by_cases h3 : q + 1 = p + 1
            · -- boundary of the lower half against the upper half
              rw [if_neg h1, if_neg h2, if_pos h3] at hb2v
              injection hb2v with hb2v
              rw [if_neg (by omega), if_pos (by omega)] at hmv
              injection hmv with hmv
              have hmem : m ∈ lower := by
                rw [← hmv, hmLowdef, hot]
                exact getLastD_mem hlowne
              have := hcrossb m hmem y (by rw [hb2v]; exact hy)
              rw [hot] at this
              exact this
            · by_cases h4 : q = p + 1
              · -- boundary of the upper half against the old next bucket
                rw [if_neg h1, if_neg h2, if_neg h3] at hb2v
                rw [if_neg (by omega), if_neg (by omega), if_pos h4] at hmv
                injection hmv with hmv
                have hmem : m ∈ bt := by
                  rw [← hmv, hmUpdef, hot]
                  exact hupsub _ (getLastD_mem hupne)
                have hb2v2 : t.data[q]? = some b2 := by
                  rw [show q + 1 - 1 = q from by omega] at hb2v
                  exact hb2v
                have := cross_bucket hsort hb hb2v2 (by omega) hmem hy
                rw [hot] at this
                exact this
              · -- both sides beyond the split: the old separation shifted by one
                rw [if_neg h1, if_neg h2, if_neg h3] at hb2v
                rw [if_neg (by omega), if_neg (by omega), if_neg h4] at hqv hmv
                have := (hwb (q - 1) b m hqv hmv).2
                rw [hot] at this
                have hb2v2 : t.data[(q - 1) + 1]? = some b2 := by
                  rw [show (q - 1) + 1 = q + 1 - 1 from by omega]
                  exact hb2v
                exact this b2 y hb2v2 hy
      | Desc =>
        intro b0 y hb0q hq0 hy
        have hb0v : data2[q - 1]? = some b0 := hb0q
        rw [hd2get (q - 1)] at hb0v
        by_cases h1 : q < p
        · rw [if_pos (by omega)] at hb0v
          rw [if_pos h1] at hqv hmv
          have := (hwb q b m hqv hmv).2
          rw [hot] at this
          exact this b0 y hb0v hq0 hy
        · by_cases h2 : q = p
          · -- boundary of the lower half against the old previous bucket
            rw [if_neg h1, if_pos h2] at hqv hmv
            injection hmv with hmv
            injection hqv with hqv
            rw [if_pos (by omega)] at hb0v
            have hmem : m ∈ bt := by
              rw [← hmv, hmLowdef, hot]
              exact hlowsub _ (headD_mem hlowne)
            have hb0v2 : t.data[q - 1]? = some b0 := hb0v
            have := cross_bucket hsort hb0v2 hb (by omega) hy hmem
            rw [hot] at this
            exact this
          · by_cases h3 : q = p + 1
            · -- boundary of the upper half against the lower half
              rw [if_neg h1, if_neg h2, if_pos h3] at hmv
              injection hmv with hmv
              rw [show q - 1 = p from by omega, if_neg (by omega), if_pos rfl] at hb0v
              injection hb0v with hb0v
              have hmem : m ∈ upper := by
                rw [← hmv, hmUpdef, hot]
                exact headD_mem hupne
              have := hcrossb y (by rw [hb0v]; exact hy) m hmem
              rw [hot] at this
              exact this
            · by_cases h4 : q = p + 2
              · -- boundary after the split against the upper half
                rw [if_neg h1, if_neg h2, if_neg h3] at hmv
                rw [show q - 1 = p + 1 from by omega, if_neg (by omega),
                  if_neg (by omega), if_pos rfl] at hb0v
                injection hb0v with hb0v
                have hmvold : t.maxes[p + 1]? = some m := by
                  rw [show q - 1 = p + 1 from by omega] at hmv
                  exact hmv
                have hbm : ∃ bm, t.data[p + 1]? = some bm := by
                  have hql : q < data2.length := (List.getElem?_eq_some.mp hq).1
                  have : p + 1 < t.data.length := by omega
                  exact ⟨t.data[p + 1], List.getElem?_eq_getElem this⟩
                rcases hbm with ⟨bm, hbm⟩
                have := (hwb (p + 1) bm m hbm hmvold).2
                rw [hot] at this
                have hyb : y ∈ bt := hupsub y (by rw [hb0v]; exact hy)
                exact this bt y (by simpa using hb) (by omega) hyb
              · -- both sides beyond the split: the old separation shifted by one
                rw [if_neg h1, if_neg h2, if_neg h3] at hqv hmv
                rw [if_neg (by omega), if_neg (by omega), if_neg (by omega)] at hb0v
                have := (hwb (q - 1) b m hqv hmv).2
                rw [hot] at this
                exact this b0 y hb0v (by omega) hy
  · -- tight boundaries are preserved
    intro ht _ q b hq
    have hqv : data2[q]? = some b := hq
    rw [hd2get q] at hqv
    show maxes2[q]? = some _
    rw [hm2get q]
    by_cases h1 : q < p
    · rw [if_pos h1] at hqv
      rw [if_pos h1]
      exact ht hlen q b hqv
    · by_cases h2 : q = p
      · rw [if_neg h1, if_pos h2] at hqv
        injection hqv with hqv
        rw [if_neg h1, if_pos h2, ← hqv, hmLowdef]
      · by_cases h3 : q = p + 1
        · rw [if_neg h1, if_neg h2, if_pos h3] at hqv
          injection hqv with hqv
          rw [if_neg h1, if_neg h2, if_pos h3, ← hqv, hmUpdef]
        · rw [if_neg h1, if_neg h2, if_neg h3] at hqv
          rw [if_neg h1, if_neg h2, if_neg h3]
          exact ht hlen (q - 1) b hqv

theorem set_self {α : Type} {l : List α} {i : Nat} {a : α} (h : l[i]? = some a) :
    l.set i a = l := by
  apply List.ext_getElem?
  intro n
  rw [List.getElem?_set]
  by_cases hn : i = n
  · subst hn
    rw [if_pos rfl, if_pos (List.getElem?_eq_some.mp h).1, h]
  · rw [if_neg hn]

theorem cumIdx_mapIdx_add {data : List (List Int)} {p : Nat} {b b1 : List Int}
    (hp : data[p]? = some b) (hlen : b1.length = b.length + 1) :
    (SortedContainers.cumIdx data).mapIdx
        (fun i v => if p + 1 ≤ i then Int.toNat (Int.ofNat v + 1) else v) =
      SortedContainers.cumIdx (data.set p b1) := by
  have hplt : p < data.length := (List.getElem?_eq_some.mp hp).1
  apply List.ext_getElem?
  intro n
  rw [List.getElem?_mapIdx, SortedContainers.cumIdx_getElem?,
    SortedContainers.cumIdx_getElem?, List.length_set]
  by_cases hn : n ≤ data.length
  · rw [if_pos hn, if_pos hn]
    simp only [Option.map_some']
    congr 1
    by_cases hnp : p + 1 ≤ n
    · rw [if_pos hnp]
      have := @pfxLen_set_gt _ _ _ b1 _ hp (show p < n by omega)
      simp only [Int.ofNat_eq_coe]
      omega
    · rw [if_neg hnp, pfxLen_set_le (show n ≤ p by omega)]
  · rw [if_neg hn, if_neg hn]
    simp

theorem cumIdx_mapIdx_sub {data : List (List Int)} {p : Nat} {b b1 : List Int}
    (hp : data[p]? = some b) (hlen : b.length = b1.length + 1) :
    (SortedContainers.cumIdx data).mapIdx
        (fun i v => if p + 1 ≤ i then Int.toNat (Int.ofNat v + (-1)) else v) =
      SortedContainers.cumIdx (data.set p b1) := by
  have hplt : p < data.length := (List.getElem?_eq_some.mp hp).1
  apply List.ext_getElem?
  intro n
  rw [List.getElem?_mapIdx, SortedContainers.cumIdx_getElem?,
    SortedContainers.cumIdx_getElem?, List.length_set]
  by_cases hn : n ≤ data.length
  · rw [if_pos hn, if_pos hn]
    simp only [Option.map_some']
    congr 1
    by_cases hnp : p + 1 ≤ n
    · rw [if_pos hnp]
      have h1 := @pfxLen_set_gt _ _ _ b1 _ hp (show p < n by omega)
      have h2 : pfxLen data (p + 1) ≤ pfxLen data n := pfxLen_le (by omega)
      have h3 : pfxLen data (p + 1) = pfxLen data p + b.length := pfxLen_succ hp
      simp only [Int.ofNat_eq_coe]
      omega
    · rw [if_neg hnp, pfxLen_set_le (show n ≤ p by omega)]
  · rw [if_neg hn, if_neg hn]
    simp

theorem getLastD_append_right {l1 l2 : List Int} (h : l2 ≠ []) :
    (l1 ++ l2).getLastD 0 = l2.getLastD 0 := by
  rw [List.getLastD_eq_getLast?, List.getLastD_eq_getLast?, List.getLast?_append_of_ne_nil _ h]

theorem headD_append_left {l1 l2 : List Int} (h : l1 ≠ []) :
    (l1 ++ l2).headD 0 = l1.headD 0 := by
  cases l1 with
  | nil => exact absurd rfl h
  | cons x l => simp

theorem getLastD_drop_ne {b : List Int} {i : Nat} (h : i < b.length) :
    (b.drop i).getLastD 0 = b.getLastD 0 := by
  rw [List.getLastD_eq_getLast?, List.getLastD_eq_getLast?]
  rw [← List.take_append_drop i b, List.getLast?_append_of_ne_nil _ (by
    rw [← List.length_pos]
    simp only [List.length_drop]
    omega)]
  simp

theorem headD_take_ne {b : List Int} {i : Nat} (h : 0 < i) (h2 : b ≠ []) :
    (b.take i).headD 0 = b.headD 0 := by
  cases b with
  | nil => exact absurd rfl h2
  | cons x l =>
    cases i with
    | zero => omega
    | succ n => simp

theorem getLastD_irrel {l : List Int} (h : l ≠ []) (a : Int) :
    l.getLastD a = l.getLastD 0 := by
  rw [List.getLastD_eq_getLast?, List.getLastD_eq_getLast?]
  cases hgl : l.getLast? with
  | none => exact absurd (List.getLast?_eq_none_iff.mp hgl) h
  | some y => rfl

theorem maxes_ne_of_len {s : SortedContainers} (hsi : SInv s) (h : s.len ≠ 0) :
    s.maxes.isEmpty = false := by
  have h1 := hsi.mlen h
  have h2 := data_ne_of_len hsi h
  cases hM : s.maxes with
  | nil =>
    rw [hM] at h1
    simp at h1
    omega
  | cons x t => rfl

/-- The found branch of process_element for Update and InsertOrUpdate: the stored
element equal to the target is overwritten in place (leaving the state unchanged,
since equal integers are identical) and its global rank is returned. -/
theorem process_found_pres {s : SortedContainers} {v : Int} {p i : Nat} {pt : ProcessType}
    (hsi : SInv s) (hlen : s.len ≠ 0)
    (hse : s.search_element v = some (.inl (p, i)))
    (hf : searchFound s v p i)
    (hpt : pt = .Update ∨ pt = .InsertOrUpdate) :
    s.process_element v pt = some (.ok (pfxLen s.data p + i), s) ∧
      s.data.flatten[pfxLen s.data p + i]? = some v := by
  obtain ⟨b, hb, hbi⟩ := hf
  have hplt : p < s.data.length := (List.getElem?_eq_some.mp hb).1
  have hilt : i < b.length := (List.getElem?_eq_some.mp hbi).1
  have hie : s.maxes.isEmpty = false := maxes_ne_of_len hsi hlen
  have hset : b.set i v = b := set_self hbi
  have hsetd : s.data.set p b = s.data := set_self hb
  constructor
  · rw [SortedContainers.process_element]
    rw [if_neg (by simp [hie]), if_neg (by simp [hie])]
    simp only [hse]
    rw [if_pos hpt]
    simp only [Option.bind_eq_bind, hb, Option.some_bind, vecSet_some v hilt, hset,
      vecSet_some b hplt, hsetd]
    have hs1 : ({ s with data := s.data } : SortedContainers) = s := rfl
    rw [hs1, index_from_tuple_spec hsi hlen hplt]
    simp only [Option.some_bind]
  · rw [flatten_pos hb hilt, hbi]

/-- The insertion branch of process_element for Insert and InsertOrUpdate: the new
element is spliced into the flattened contents at the bracketed rank, all invariants
are preserved, the length grows by one and the rank is returned. -/
theorem process_ins_pres {s : SortedContainers} {v : Int} {p i : Nat} {pt : ProcessType}
    (hsi : SInv s) (hsort : sortedFlat s) (hwb : weakBound s) (hlen : s.len ≠ 0)
    (hse : s.search_element v = some (.inr (p, i)))
    (hins : searchIns s v p i)
    (hpt : pt = .Insert ∨ pt = .InsertOrUpdate) :
    ∃ s', s.process_element v pt = some (.ok (pfxLen s.data p + i), s') ∧
      SInv s' ∧ sortedFlat s' ∧ weakBound s' ∧ (tightM s → tightM s') ∧
      s'.order_type = s.order_type ∧ s'.expand_strategy = s.expand_strategy ∧
      s'.shrink_strategy = s.shrink_strategy ∧ s'.len = s.len + 1 ∧
      s'.data.flatten = s.data.flatten.take (pfxLen s.data p + i) ++
        v :: s.data.flatten.drop (pfxLen s.data p + i) ∧
      pfxLen s.data p + i ≤ s.len := by
  have hbr := searchIns_bracket hlen hsi hsort hwb hins
  obtain ⟨⟨hplt, hM1, hM2, _hM3⟩, b, hb, hile, hlo, hhi⟩ := hins
  have hmd := hsi.mlen hlen
  have hie : s.maxes.isEmpty = false := maxes_ne_of_len hsi hlen
  have hbne : b ≠ [] := hsi.ne hlen b (List.getElem?_mem hb)
  have hbpos : 0 < b.length := List.length_pos.mpr hbne
  set mOld := s.maxes[p] with hmOdef
  have hmp : s.maxes[p]? = some mOld := List.getElem?_eq_getElem (by omega)
  set bucket1 := b.take i ++ v :: b.drop i with hb1def
  have hb1len : bucket1.length = b.length + 1 := by
    rw [hb1def]
    simp [List.length_take, List.length_drop]
    omega
  set data1 := s.data.set p bucket1 with hd1def
  set maxes1 := if mOld < v then s.maxes.set p v else s.maxes with hm1def
  have hm1len : maxes1.length = s.maxes.length := by
    rw [hm1def]
    by_cases hc : mOld < v
    · rw [if_pos hc, List.length_set]
    · rw [if_neg hc]
  have hd1len : data1.length = s.data.length := by rw [hd1def, List.length_set]
  have hd1p : data1[p]? = some bucket1 := by
    rw [hd1def, List.getElem?_set, if_pos rfl, if_pos hplt]
  have hd1q : ∀ q, q ≠ p → data1[q]? = s.data[q]? := by
    intro q hq
    rw [hd1def, List.getElem?_set, if_neg (fun h => hq h.symm)]
  have hm1p : maxes1[p]? = some (if mOld < v then v else mOld) := by
    rw [hm1def]
    by_cases hc : mOld < v
    · rw [if_pos hc, if_pos hc, List.getElem?_set, if_pos rfl, if_pos (by omega)]
    · rw [if_neg hc, if_neg hc]
      exact hmp
  have hm1q : ∀ q, q ≠ p → maxes1[q]? = s.maxes[q]? := by
    intro q hq
    rw [hm1def]
    by_cases hc : mOld < v
    · rw [if_pos hc, List.getElem?_set, if_neg (fun h => hq h.symm)]
    · rw [if_neg hc]
  have hrle : pfxLen s.data p + i ≤ s.data.flatten.length := by
    have h1 := pfxLen_succ hb
    have h2 : pfxLen s.data (p + 1) ≤ pfxLen s.data s.data.length := pfxLen_le (by omega)
    have h3 : pfxLen s.data s.data.length = s.data.flatten.length :=
      pfxLen_all (Nat.le_refl _)
    omega
  have hflat1 : data1.flatten =
      s.data.flatten.take (pfxLen s.data p + i) ++
        v :: s.data.flatten.drop (pfxLen s.data p + i) := by
    have hr2 : pfxLen s.data p + i = (s.data.take p).flatten.length + i := by
      rw [length_flatten_take]
    conv_rhs => rw [flatten_decomp hb, List.append_assoc, hr2, List.take_append,
      List.drop_append, List.take_append_of_le_length hile,
      List.drop_append_of_le_length hile]
    rw [hd1def, flatten_set hb, hb1def]
    simp [List.append_assoc]
  set s1 := SortedContainers.update_index
      { s with data := data1, maxes := maxes1, len := s.len + 1 } p 1 with hs1def
  have hs1data : s1.data = data1 := by
    rw [hs1def, SortedContainers.update_index]
    split <;> rfl
  have hs1maxes : s1.maxes = maxes1 := by
    rw [hs1def, SortedContainers.update_index]
    split <;> rfl
  have hs1len : s1.len = s.len + 1 := by
    rw [hs1def, SortedContainers.update_index]
    split <;> rfl
  have hs1ot : s1.order_type = s.order_type := by
    rw [hs1def, SortedContainers.update_index]
    split <;> rfl
  have hs1es : s1.expand_strategy = s.expand_strategy := by
    rw [hs1def, SortedContainers.update_index]
    split <;> rfl
  have hs1ss : s1.shrink_strategy = s.shrink_strategy := by
    rw [hs1def, SortedContainers.update_index]
    split <;> rfl
  have hs1idx : s1.index =
      if maxes1.length < 2 then [] else SortedContainers.cumIdx data1 := by
    rw [hs1def, SortedContainers.update_index]
    by_cases hml : 1 < maxes1.length
    · rw [if_pos (show 1 < ({ s with data := data1, maxes := maxes1, len := s.len + 1 }
          : SortedContainers).maxes.length from hml)]
      rw [if_neg (by omega)]
      show s.index.mapIdx _ = SortedContainers.cumIdx data1
      have hIdx : s.index = SortedContainers.cumIdx s.data := by
        rw [hsi.idxEq, if_neg (by omega)]
      rw [hIdx, hd1def]
      exact cumIdx_mapIdx_add hb hb1len
    · rw [if_neg hml, if_pos (by omega)]
      show s.index = []
      rw [hsi.idxEq, if_pos (by omega)]
  have hsi1 : SInv s1 := by
    refine ⟨?_, ?_, ?_, ?_, ?_, ?_⟩
    · intro h
      rw [hs1len] at h
      exact absurd h (Nat.succ_ne_zero s.len)
    · intro _ b' hb'
      rcases List.mem_iff_getElem?.mp hb' with ⟨k, hk⟩
      rw [hs1data] at hk
      by_cases hkp : k = p
      · subst k
        rw [hd1p] at hk
        injection hk with hk
        subst hk
        intro hcon
        rw [hcon] at hb1len
        simp at hb1len
      · rw [hd1q k hkp] at hk
        exact hsi.ne hlen b' (List.getElem?_mem hk)
    · intro _
      rw [hs1maxes, hs1data, hm1len, hd1len, hmd]
    · rw [hs1len, hs1data, hflat1]
      have hL := hsi.lenEq
      rw [List.length_append, List.length_cons, List.length_take, List.length_drop]
      omega
    · rw [hs1idx, hs1maxes, hs1data]
    · intro q'
      rw [hs1ss]
      exact hsi.shrink0 q'
  have hsort1 : sortedFlat s1 := by
    show s1.data.flatten.Pairwise (ordLt s1.order_type)
    rw [hs1data, hs1ot, hflat1]
    exact pairwise_insert_at hsort hrle
      (fun j x hj hx => (hbr j x hx).1 hj)
      (fun j x hj hx => (hbr j x hx).2 hj)
  have hwb1 : weakBound s1 := by
    intro q b' m' hq hm'
    rw [hs1data] at hq
    rw [hs1maxes] at hm'
    constructor
    · intro x hx
      by_cases hqp : q = p
      · subst q
        rw [hd1p] at hq
        injection hq with hq
        subst hq
        rw [hm1p] at hm'
        injection hm' with hm'
        rw [hb1def, List.mem_append, List.mem_cons] at hx
        have hown := (hwb p b mOld hb hmp).1
        by_cases hc : mOld < v
        · rw [← hm', if_pos hc]
          rcases hx with h1 | h2 | h3
          · have := hown x (List.mem_of_mem_take h1)
            omega
          · omega
          · have := hown x (List.mem_of_mem_drop h3)
            omega
        · rw [← hm', if_neg hc]
          rcases hx with h1 | h2 | h3
          · exact hown x (List.mem_of_mem_take h1)
          · omega
          · exact hown x (List.mem_of_mem_drop h3)
      · rw [hd1q q hqp] at hq
        rw [hm1q q hqp] at hm'
        exact (hwb q b' m' hq hm').1 x hx
    · rw [hs1ot]
      cases hot : s.order_type with
      | Asc =>
        intro b2 y hb2 hy
        rw [hs1data] at hb2
        by_cases hqp : q = p
        · subst q
          rw [hd1p] at hq
          injection hq with hq
          rw [hm1p] at hm'
          injection hm' with hm'
          rw [hd1q (p + 1) (by omega)] at hb2
          by_cases hc : mOld < v
          · rw [← hm', if_pos hc]
            rcases List.mem_iff_getElem?.mp hy with ⟨k, hk⟩
            have hklen : k < b2.length := (List.getElem?_eq_some.mp hk).1
            have hfp := flatten_pos hb2 hklen
            rw [hk] at hfp
            have hple := pfxLen_succ hb
            have := (hbr _ y hfp).2 (by omega)
            simp only [hot, ordLt] at this
            exact this
          · rw [← hm', if_neg hc]
            have hsep := (hwb p b mOld hb hmp).2
            rw [hot] at hsep
            exact hsep b2 y hb2 hy
        · rw [hd1q q hqp] at hq
          rw [hm1q q hqp] at hm'
          by_cases hq1p : q + 1 = p
          · rw [hq1p, hd1p] at hb2
            injection hb2 with hb2
            have hsep := (hwb q b' m' hq hm').2
            rw [hot] at hsep
            rw [← hb2, hb1def, List.mem_append, List.mem_cons] at hy
            have hbq1 : s.data[q + 1]? = some b := by
              rw [hq1p]
              exact hb
            rcases hy with h1 | h2 | h3
            · exact hsep b y hbq1 (List.mem_of_mem_take h1)
            · subst h2
              have := hM1 q m' (by omega) hm'
              simp only [hot, ordLt] at this
              exact this
            · exact hsep b y hbq1 (List.mem_of_mem_drop h3)
          · rw [hd1q (q + 1) hq1p] at hb2
            have hsep := (hwb q b' m' hq hm').2
            rw [hot] at hsep
            exact hsep b2 y hb2 hy
      | Desc =>
        intro b0 y hb0 hq0 hy
        rw [hs1data] at hb0
        by_cases hqp : q = p
        · subst q
          rw [hd1p] at hq
          injection hq with hq
          rw [hm1p] at hm'
          injection hm' with hm'
          rw [hd1q (p - 1) (by omega)] at hb0
          by_cases hc : mOld < v
          · rw [← hm', if_pos hc]
            rcases List.mem_iff_getElem?.mp hy with ⟨k, hk⟩
            have hklen : k < b0.length := (List.getElem?_eq_some.mp hk).1
            have hfp := flatten_pos hb0 hklen
            rw [hk] at hfp
            have hple : pfxLen s.data ((p - 1) + 1) =
                pfxLen s.data (p - 1) + b0.length := pfxLen_succ hb0
            have hpm : (p - 1) + 1 = p := by omega
            rw [hpm] at hple
            have := (hbr _ y hfp).1 (by omega)
            simp only [hot, ordLt] at this
            exact this
          · rw [← hm', if_neg hc]
            have hsep := (hwb p b mOld hb hmp).2
            rw [hot] at hsep
            exact hsep b0 y hb0 hq0 hy
        · rw [hd1q q hqp] at hq
          rw [hm1q q hqp] at hm'
          by_cases hq1p : q - 1 = p
          · rw [hq1p, hd1p] at hb0
            injection hb0 with hb0
            have hsep := (hwb q b' m' hq hm').2
            rw [hot] at hsep
            rw [← hb0, hb1def, List.mem_append, List.mem_cons] at hy
            have hbq1 : s.data[q - 1]? = some b := by
              rw [hq1p]
              exact hb
            rcases hy with h1 | h2 | h3
            · exact hsep b y hbq1 hq0 (List.mem_of_mem_take h1)
            · subst h2
              have := hM2 q m' (by omega) hm'
              simp only [hot, ordLt] at this
              exact this
            · exact hsep b y hbq1 hq0 (List.mem_of_mem_drop h3)
          · rw [hd1q (q - 1) hq1p] at hb0
            have hsep := (hwb q b' m' hq hm').2
            rw [hot] at hsep
            exact hsep b0 y hb0 hq0 hy
  have htight1 : tightM s → tightM s1 := by
    intro ht _ q b' hq
    rw [hs1data] at hq
    rw [hs1maxes, hs1ot]
    by_cases hqp : q = p
    · subst q
      rw [hd1p] at hq
      injection hq with hq
      subst hq
      have hmt := ht hlen p b hb
      rw [hmp] at hmt
      injection hmt with hmt
      cases hot : s.order_type with
      | Asc =>
        simp only [hot] at hmt
        show maxes1[p]? = some (bucket1.getLastD 0)
        by_cases hieq : i = b.length
        · have hlast : bucket1.getLastD 0 = v := by
            rw [hb1def, hieq, List.drop_length]
            rw [getLastD_append_right (by simp)]
            rfl
          have hc : mOld < v := by
            have hj : b[b.length - 1]? = some (b.getLastD 0) := getLastD_getElem? hbne
            have := hlo (b.length - 1) _ (by omega) hj
            simp only [hot, ordLt] at this
            omega
          rw [hlast, hm1p, if_pos hc]
        · have hilt : i < b.length := by omega
          have hlast : bucket1.getLastD 0 = b.getLastD 0 := by
            rw [hb1def, getLastD_append_right (by simp)]
            rw [List.getLastD_cons]
            rw [getLastD_irrel (by
              rw [← List.length_pos, List.length_drop]
              omega) v]
            exact getLastD_drop_ne hilt
          have hnc : ¬ (mOld < v) := by
            have hj : b[b.length - 1]? = some (b.getLastD 0) := getLastD_getElem? hbne
            have := hhi (b.length - 1) _ (by omega) (by omega) hj
            simp only [hot, ordLt] at this
            omega
          rw [hlast, hm1p, if_neg hnc, hmt]
      | Desc =>
        simp only [hot] at hmt
        show maxes1[p]? = some (bucket1.headD 0)
        by_cases hieq : i = 0
        · have hhead : bucket1.headD 0 = v := by
            rw [hb1def, hieq, List.take_zero]
            rfl
          have hc : mOld < v := by
            have hj : b[0]? = some (b.headD 0) := headD_getElem? hbne
            have := hhi 0 _ (by omega) (by omega) hj
            simp only [hot, ordLt] at this
            omega
          rw [hhead, hm1p, if_pos hc]
        · have hipos : 0 < i := by omega
          have hhead : bucket1.headD 0 = b.headD 0 := by
            rw [hb1def, headD_append_left (by
              rw [← List.length_pos, List.length_take]
              omega)]
            exact headD_take_ne hipos hbne
          have hnc : ¬ (mOld < v) := by
            have hj : b[0]? = some (b.headD 0) := headD_getElem? hbne
            have := hlo 0 _ (by omega) hj
            simp only [hot, ordLt] at this
            omega
          rw [hhead, hm1p, if_neg hnc, hmt]
    · rw [hd1q q hqp] at hq
      rw [hm1q q hqp]
      exact ht hlen q b' hq
  have hs1len0 : s1.len ≠ 0 := by
    rw [hs1len]
    omega
  have hp1 : p < s1.data.length := by
    rw [hs1data, hd1len]
    omega
  have hift : s1.index_from_tuple (p, i) = some (pfxLen s.data p + i) := by
    rw [index_from_tuple_spec hsi1 hs1len0 hp1, hs1data, hd1def,
      pfxLen_set_le (Nat.le_refl p)]
  have hb1ge2 : 2 ≤ bucket1.length := by
    rw [hb1len]
    omega
  have hd1pb : s1.data[p]? = some bucket1 := by
    rw [hs1data]
    exact hd1p
  have hvi : vecInsert i v b = some bucket1 := by
    rw [hb1def]
    exact vecInsert_some v i b hile
  have hvs : vecSet p bucket1 s.data = some data1 := by
    rw [hd1def]
    exact vecSet_some bucket1 hplt
  have hlen1 : pfxLen s.data p + i ≤ s.len := by
    rw [hsi.lenEq]
    exact hrle
  rw [SortedContainers.process_element]
  rw [if_neg (by simp [hie]), if_neg (by simp [hie])]
  simp only [hse]
  rw [if_pos hpt]
  simp only [Option.bind_eq_bind, hmp, Option.some_bind, hb, hvi, hvs]
  rw [← hm1def, ← hs1def, hift]
  simp only [Option.some_bind]
  by_cases hexp : s1.expand_strategy bucket1.length i = true
  · rw [if_pos hexp]
    rcases expand_pres hsi1 hsort1 hwb1 hs1len0 hd1pb hb1ge2 with
      ⟨t', hex, hsit', hsortt', hwbt', htightt', hot', hes', hss', hlent', hflatt'⟩
    rw [hex]
    simp only [Option.some_bind]
    refine ⟨t', rfl, hsit', hsortt', hwbt', fun ht => htightt' (htight1 ht),
      hot'.trans hs1ot, hes'.trans hs1es, hss'.trans hs1ss, ?_, ?_, hlen1⟩
    · rw [hlent', hs1len]
    · rw [hflatt', hs1data, hflat1]
  · rw [if_neg hexp]
    refine ⟨s1, rfl, hsi1, hsort1, hwb1, htight1, hs1ot, hs1es, hs1ss, hs1len, ?_, hlen1⟩
    rw [hs1data, hflat1]

/-- Inserting into an empty collection: a fresh single bucket holding the value is
created, the boundary list becomes that value and rank 0 is returned. -/
theorem process_empty_ins {s : SortedContainers} {v : Int} {pt : ProcessType}
    (hsi : SInv s) (hlen : s.len = 0)
    (hpt : pt = .Insert ∨ pt = .InsertOrUpdate) :
    ∃ s', s.process_element v pt = some (.ok 0, s') ∧
      SInv s' ∧ sortedFlat s' ∧ weakBound s' ∧ tightM s' ∧
      s'.order_type = s.order_type ∧ s'.expand_strategy = s.expand_strategy ∧
      s'.shrink_strategy = s.shrink_strategy ∧ s'.len = 1 ∧
      s'.data.flatten = [v] := by
  obtain ⟨hshape, hM, hI⟩ := hsi.shape0 hlen
  have hie : s.maxes.isEmpty = true := by rw [hM]; rfl
  have hred : s.process_element v pt = some (.ok 0,
      { s with data := [[v]], maxes := [v], len := s.len + 1 }) := by
    rw [SortedContainers.process_element, if_pos ⟨hie, hpt⟩]
    rcases hshape with hD | hD
    · simp [hD, hM, vecSet]
    · simp [hD, hM, vecSet]
  refine ⟨_, hred, ?_, ?_, ?_, ?_, rfl, rfl, rfl, by rw [hlen], by simp⟩
  · refine ⟨?_, ?_, ?_, ?_, ?_, ?_⟩
    · intro h
      rw [hlen] at h
      simp at h
    · intro _ b hb
      simp at hb
      rw [hb]
      simp
    · intro _
      rfl
    · show s.len + 1 = ([[v]] : List (List Int)).flatten.length
      rw [hlen]
      simp
    · show s.index = if _ < 2 then _ else _
      rw [hI, if_pos (by simp)]
    · exact hsi.shrink0
  · show ([[v]] : List (List Int)).flatten.Pairwise _
    simp
  · intro q b m hq hm
    cases q with
    | succ n => simp at hq
    | zero =>
      simp only [List.getElem?_cons_zero, Option.some_inj] at hq hm
      constructor
      · intro x hx
        rw [← hq] at hx
        rw [← hm]
        simp at hx
        omega
      · show match s.order_type with
          | OrderType.Asc => ∀ b2 y, ([[v]] : List (List Int))[0 + 1]? = some b2 → y ∈ b2 → m < y
          | OrderType.Desc => ∀ b0 y, ([[v]] : List (List Int))[0 - 1]? = some b0 → 0 ≠ 0 → y ∈ b0 → m < y
        cases s.order_type with
        | Asc =>
          intro b2 y hb2 hy
          simp at hb2
        | Desc =>
          intro b0 y hb0 h0 hy
          exact absurd rfl h0
  · intro _ q b hq
    cases q with
    | succ n => simp at hq
    | zero =>
      simp only [List.getElem?_cons_zero, Option.some_inj] at hq
      rw [← hq]
      cases s.order_type <;> rfl

/-- Updating an empty collection reports ElementNotFound and leaves the state alone. -/
theorem process_empty_update {s : SortedContainers} {v : Int}
    (hsi : SInv s) (hlen : s.len = 0) :
    s.process_element v .Update = some (.error (.ElementNotFound v), s) := by
  obtain ⟨_, hM, _⟩ := hsi.shape0 hlen
  have hie : s.maxes.isEmpty = true := by rw [hM]; rfl
  rw [SortedContainers.process_element]
  rw [if_neg (by simp), if_pos ⟨hie, rfl⟩]

/-- Insert on a stored element reports ElementAlreadyExist and leaves the state alone. -/
theorem process_found_insert_err {s : SortedContainers} {v : Int} {p i : Nat}
    (hsi : SInv s) (hlen : s.len ≠ 0)
    (hse : s.search_element v = some (.inl (p, i))) :
    s.process_element v .Insert = some (.error (.ElementAlreadyExist v), s) := by
  have hie := maxes_ne_of_len hsi hlen
  rw [SortedContainers.process_element]
  rw [if_neg (by simp [hie]), if_neg (by simp [hie])]
  simp only [hse]
  rw [if_neg (by simp)]

/-- Update on an absent element reports ElementNotFound and leaves the state alone. -/
theorem process_ins_update_err {s : SortedContainers} {v : Int} {p i : Nat}
    (hsi : SInv s) (hlen : s.len ≠ 0)
    (hse : s.search_element v = some (.inr (p, i))) :
    s.process_element v .Update = some (.error (.ElementNotFound v), s) := by
  have hie := maxes_ne_of_len hsi hlen
  rw [SortedContainers.process_element]
  rw [if_neg (by simp [hie]), if_neg (by simp [hie])]
  simp only [hse]
  rw [if_neg (by simp)]

/-- Membership of a stored coordinate pair in the flattened contents. -/
theorem mem_flatten_of_found {data : List (List Int)} {p i : Nat} {b : List Int} {v : Int}
    (hb : data[p]? = some b) (hbi : b[i]? = some v) : v ∈ data.flatten :=
  List.mem_flatten.mpr ⟨b, List.getElem?_mem hb, List.getElem?_mem hbi⟩

/-- Full behavior of insert on a well-formed state: it never panics, reports a
duplicate without touching the state, and otherwise splices the value into the
flattened contents at the returned rank. -/
theorem insert_wpres {s : SortedContainers} (v : Int)
    (hsi : SInv s) (hsort : sortedFlat s) (hwb : weakBound s) :
    ∃ res s', s.insert v = some (res, s') ∧
      SInv s' ∧ sortedFlat s' ∧ weakBound s' ∧ (tightM s → tightM s') ∧
      s'.order_type = s.order_type ∧ s'.expand_strategy = s.expand_strategy ∧
      s'.shrink_strategy = s.shrink_strategy ∧
      ((v ∈ s.data.flatten ∧ res = .error (.ElementAlreadyExist v) ∧ s' = s) ∨
       (v ∉ s.data.flatten ∧ ∃ r, res = .ok r ∧ r ≤ s.len ∧ s'.len = s.len + 1 ∧
        s'.data.flatten = s.data.flatten.take r ++ v :: s.data.flatten.drop r)) := by
  by_cases hlen : s.len = 0
  · have hf0 : s.data.flatten = [] := by
      have h1 := hsi.lenEq
      rw [hlen] at h1
      exact List.length_eq_zero.mp h1.symm
    rcases @process_empty_ins _ v _ hsi hlen (Or.inl rfl) with
      ⟨s', hpe, hsi', hsort', hwb', htight', hot', hes', hss', hlen', hfl'⟩
    refine ⟨.ok 0, s', hpe, hsi', hsort', hwb', fun _ => htight', hot', hes', hss',
      Or.inr ⟨by rw [hf0]; simp, 0, rfl, by omega, by omega, ?_⟩⟩
    rw [hfl', hf0]
    rfl
  · rcases search_element_spec s v hlen hsi hsort hwb with
      ⟨p, i, hse, hf⟩ | ⟨p, i, hse, hins⟩
    · obtain ⟨b, hb, hbi⟩ := hf
      exact ⟨_, s, process_found_insert_err hsi hlen hse, hsi, hsort, hwb, fun h => h,
        rfl, rfl, rfl, Or.inl ⟨mem_flatten_of_found hb hbi, rfl, rfl⟩⟩
    · have hnm := searchIns_not_mem hlen hsi hsort hwb hins
      rcases process_ins_pres hsi hsort hwb hlen hse hins (Or.inl rfl) with
        ⟨s', hpe, hsi', hsort', hwb', htight', hot', hes', hss', hlen', hfl', hrle⟩
      exact ⟨_, s', hpe, hsi', hsort', hwb', htight', hot', hes', hss',
        Or.inr ⟨hnm, _, rfl, hrle, hlen', hfl'⟩⟩

/-- All three process types keep the tight invariant (structure, order and exact
boundaries) and the configuration, and never panic. -/
theorem process_tpres {s : SortedContainers} (v : Int) (pt : ProcessType)
    (h : TInv s) :
    ∃ res s', s.process_element v pt = some (res, s') ∧ TInv s' ∧
      s'.order_type = s.order_type ∧ s'.expand_strategy = s.expand_strategy ∧
      s'.shrink_strategy = s.shrink_strategy ∧
      (s' = s ∨ s'.len = s.len + 1) := by
  have hwb := tight_imp_weak h.si h.sorted h.tight
  by_cases hlen : s.len = 0
  · cases pt with
    | Update => exact ⟨_, s, process_empty_update h.si hlen, h, rfl, rfl, rfl, Or.inl rfl⟩
    | Insert =>
      rcases @process_empty_ins _ v _ h.si hlen (Or.inl rfl) with
        ⟨s', hpe, hsi', hsort', _, htight', hot', hes', hss', hlen1, _⟩
      exact ⟨_, s', hpe, ⟨hsi', hsort', htight'⟩, hot', hes', hss',
        Or.inr (by rw [hlen1, hlen])⟩
    | InsertOrUpdate =>
      rcases @process_empty_ins _ v _ h.si hlen (Or.inr rfl) with
        ⟨s', hpe, hsi', hsort', _, htight', hot', hes', hss', hlen1, _⟩
      exact ⟨_, s', hpe, ⟨hsi', hsort', htight'⟩, hot', hes', hss',
        Or.inr (by rw [hlen1, hlen])⟩
  · rcases search_element_spec s v hlen h.si h.sorted hwb with
      ⟨p, i, hse, hf⟩ | ⟨p, i, hse, hins⟩
    · cases pt with
      | Insert =>
        exact ⟨_, s, process_found_insert_err h.si hlen hse, h, rfl, rfl, rfl, Or.inl rfl⟩
      | Update =>
        exact ⟨_, s, (process_found_pres h.si hlen hse hf (Or.inl rfl)).1, h, rfl, rfl, rfl,
          Or.inl rfl⟩
      | InsertOrUpdate =>
        exact ⟨_, s, (process_found_pres h.si hlen hse hf (Or.inr rfl)).1, h, rfl, rfl, rfl,
          Or.inl rfl⟩
    · cases pt with
      | Update =>
        exact ⟨_, s, process_ins_update_err h.si hlen hse, h, rfl, rfl, rfl, Or.inl rfl⟩
      | Insert =>
        rcases process_ins_pres h.si h.sorted hwb hlen hse hins (Or.inl rfl) with
          ⟨s', hpe, hsi', hsort', _, htight', hot', hes', hss', hlen1, _, _⟩
        exact ⟨_, s', hpe, ⟨hsi', hsort', htight' h.tight⟩, hot', hes', hss',
          Or.inr hlen1⟩
      | InsertOrUpdate =>
        rcases process_ins_pres h.si h.sorted hwb hlen hse hins (Or.inr rfl) with
          ⟨s', hpe, hsi', hsort', _, htight', hot', hes', hss', hlen1, _, _⟩
        exact ⟨_, s', hpe, ⟨hsi', hsort', htight' h.tight⟩, hot', hes', hss',
          Or.inr hlen1⟩

theorem getElem?_eraseIdx_lt {α : Type} {l : List α} {n k : Nat} (h : k < n) :
    (l.eraseIdx n)[k]? = l[k]? := by
  rw [eraseIdx_eq_take_drop, List.getElem?_append]
  by_cases hk : k < (l.take n).length
  · rw [if_pos hk, List.getElem?_take, if_pos h]
  · rw [if_neg hk]
    rw [List.length_take] at hk
    have hlk : l.length ≤ k := by omega
    have hd : (l.drop (n + 1)).length = 0 := by
      rw [List.length_drop]
      omega
    rw [List.getElem?_eq_none (by omega), List.getElem?_eq_none (by omega)]

theorem getElem?_eraseIdx_ge {α : Type} {l : List α} {n k : Nat} (h : n ≤ k) :
    (l.eraseIdx n)[k]? = l[k + 1]? := by
  rw [eraseIdx_eq_take_drop, List.getElem?_append]
  by_cases hn : n < l.length
  · have hlt : (l.take n).length = n := by
      rw [List.length_take]
      omega
    rw [if_neg (by omega), hlt, List.getElem?_drop]
    congr 1
    omega
  · have hlt : (l.take n).length = l.length := by
      rw [List.length_take]
      omega
    by_cases hk : k < l.length
    · rw [if_pos (by omega), List.getElem?_take, if_pos (by omega)]
      rw [List.getElem?_eq_none (by omega)]
      rw [List.getElem?_eq_none (by omega)]
    · rw [if_neg (by omega), List.getElem?_eq_none (by
        rw [List.length_drop]
        omega), List.getElem?_eq_none (by omega)]

/-- Removing the bucket after mn and overwriting position mn is the canonical
two-for-one splice. -/
theorem merge_canon {α : Type} {l : List α} {mn : Nat} (z : α)
    (hmx : mn + 1 < l.length) :
    (l.eraseIdx (mn + 1)).set mn z = l.take mn ++ z :: l.drop (mn + 1 + 1) := by
  apply List.ext_getElem?
  intro k
  have htl : (l.take mn).length = mn := by
    rw [List.length_take]
    omega
  rw [List.getElem?_set, splice_getElem?, htl]
  by_cases h1 : k < mn
  · rw [if_neg (by omega), if_pos h1, getElem?_eraseIdx_lt (by omega),
      List.getElem?_take, if_pos h1]
  · by_cases h2 : k = mn
    · have hel : (l.eraseIdx (mn + 1)).length = l.length - 1 := by
        rw [List.length_eraseIdx, if_pos hmx]
      rw [if_pos h2.symm, if_pos (by rw [hel]; omega), if_neg h1, if_pos h2]
    · rw [if_neg (fun hh => h2 hh.symm), if_neg h1, if_neg h2,
        getElem?_eraseIdx_ge (by omega), List.getElem?_drop]
      congr 1
      omega

/-- Merging two adjacent buckets preserves the flattened contents. -/
theorem merge_flatten {data : List (List Int)} {mn : Nat} {bmn bmx : List Int}
    (h1 : data[mn]? = some bmn) (h2 : data[mn + 1]? = some bmx) :
    (data.take mn ++ (bmn ++ bmx) :: data.drop (mn + 1 + 1)).flatten =
      data.flatten := by
  rcases List.getElem?_eq_some.mp h1 with ⟨hmn, hb1⟩
  rcases List.getElem?_eq_some.mp h2 with ⟨hmx, hb2⟩
  have hdec : data = data.take mn ++ bmn :: bmx :: data.drop (mn + 1 + 1) := by
    conv_lhs => rw [← List.take_append_drop mn data]
    congr 1
    rw [List.drop_eq_getElem_cons hmn, hb1]
    congr 1
    rw [List.drop_eq_getElem_cons hmx, hb2]
  conv_rhs => rw [hdec]
  simp


/-- Full structural specification of the shrink (merge) step: the merge-partner
choice, the concatenation of the two adjacent buckets, the surviving boundary value,
the rebuilt index, preservation of the flattened contents and of the configuration,
and the one-bucket decrease of both sequences. -/
theorem shrink_spec {s : SortedContainers} {pos : Nat}
    (hml : s.maxes.length = s.data.length) (h2 : 2 ≤ s.data.length)
    (hpos : pos < s.data.length) :
    ∃ vte mn bmn bmx mmx t,
      ((vte = pos + 1 ∧ mn = pos) ∨ (pos ≠ 0 ∧ vte = pos - 1 ∧ mn = pos - 1)) ∧
      (pos = 0 → vte = 1) ∧
      (pos ≠ 0 → pos = s.data.length - 1 → vte = s.data.length - 2) ∧
      (pos ≠ 0 → pos ≠ s.data.length - 1 →
        ∀ L R, s.data[pos - 1]? = some L → s.data[pos + 1]? = some R →
          vte = if L.length < R.length then pos - 1 else pos + 1) ∧
      mn + 1 < s.data.length ∧
      s.data[mn]? = some bmn ∧ s.data[mn + 1]? = some bmx ∧
      s.maxes[mn + 1]? = some mmx ∧
      s.shrink pos = some t ∧
      t.data = s.data.take mn ++ (bmn ++ bmx) :: s.data.drop (mn + 1 + 1) ∧
      t.maxes = s.maxes.take mn ++ mmx :: s.maxes.drop (mn + 1 + 1) ∧
      t.index = (if s.len = 0 ∨ t.maxes.length < 2 then []
        else SortedContainers.cumIdx t.data) ∧
      t.len = s.len ∧ t.order_type = s.order_type ∧
      t.expand_strategy = s.expand_strategy ∧ t.shrink_strategy = s.shrink_strategy ∧
      t.data.flatten = s.data.flatten ∧
      t.data.length + 1 = s.data.length ∧ t.maxes.length + 1 = s.maxes.length := by
  suffices main : ∀ vte0 : Nat,
      ((vte0 = pos + 1 ∧ pos + 1 < s.data.length) ∨ (pos ≠ 0 ∧ vte0 = pos - 1)) →
      ∃ mn bmn bmx mmx t,
        ((vte0 = pos + 1 ∧ mn = pos) ∨ (pos ≠ 0 ∧ vte0 = pos - 1 ∧ mn = pos - 1)) ∧
        mn + 1 < s.data.length ∧
        s.data[mn]? = some bmn ∧ s.data[mn + 1]? = some bmx ∧
        s.maxes[mn + 1]? = some mmx ∧
        (if pos < vte0 then do
            let pr ← vecRemove vte0 s.data
            let bucket ← pr.snd[pos]?
            let data2 ← vecSet pos (bucket ++ pr.fst) pr.snd
            let mr ← vecRemove vte0 s.maxes
            let maxes2 ← vecSet pos mr.fst mr.snd
            some (SortedContainers.build_index { s with data := data2, maxes := maxes2 })
          else do
            let pr ← vecRemove pos s.data
            let bucket ← pr.snd[vte0]?
            let data2 ← vecSet vte0 (bucket ++ pr.fst) pr.snd
            let mr ← vecRemove pos s.maxes
            let maxes2 ← vecSet vte0 mr.fst mr.snd
            some (SortedContainers.build_index { s with data := data2, maxes := maxes2 }))
          = some t ∧
        t.data = s.data.take mn ++ (bmn ++ bmx) :: s.data.drop (mn + 1 + 1) ∧
        t.maxes = s.maxes.take mn ++ mmx :: s.maxes.drop (mn + 1 + 1) ∧
        t.index = (if s.len = 0 ∨ t.maxes.length < 2 then []
          else SortedContainers.cumIdx t.data) ∧
        t.len = s.len ∧ t.order_type = s.order_type ∧
        t.expand_strategy = s.expand_strategy ∧ t.shrink_strategy = s.shrink_strategy ∧
        t.data.flatten = s.data.flatten ∧
        t.data.length + 1 = s.data.length ∧ t.maxes.length + 1 = s.maxes.length by
    by_cases h0 : pos = 0
    · subst h0
      rcases main 1 (Or.inl ⟨rfl, by omega⟩) with
        ⟨mn, bmn, bmx, mmx, t, hdir, hb1, hb2, hb3, hb4, hIf, htail⟩
      refine ⟨1, mn, bmn, bmx, mmx, t, hdir, fun _ => rfl,
        fun h _ => absurd rfl h, fun h _ => absurd rfl h, hb1, hb2, hb3, hb4, ?_, htail⟩
      rw [SortedContainers.shrink, if_pos rfl]
      simp only [Option.bind_eq_bind, Option.some_bind]
      exact hIf
    · by_cases hlast : pos = s.data.length - 1
      · rcases main (s.data.length - 2) (Or.inr ⟨h0, by omega⟩) with
          ⟨mn, bmn, bmx, mmx, t, hdir, hb1, hb2, hb3, hb4, hIf, htail⟩
        refine ⟨s.data.length - 2, mn, bmn, bmx, mmx, t, hdir,
          fun h => absurd h h0, fun _ _ => rfl, fun _ h => absurd hlast h,
          hb1, hb2, hb3, hb4, ?_, htail⟩
        rw [SortedContainers.shrink, if_neg h0, if_pos hlast]
        simp only [Option.bind_eq_bind, Option.some_bind]
        exact hIf
      · have hp1 : pos + 1 < s.data.length := by omega
        have hpm1 : pos - 1 < s.data.length := by omega
        have hL : s.data[pos - 1]? = some s.data[pos - 1] :=
          List.getElem?_eq_getElem hpm1
        have hR : s.data[pos + 1]? = some s.data[pos + 1] :=
          List.getElem?_eq_getElem hp1
        by_cases hlr : (s.data[pos - 1]).length < (s.data[pos + 1]).length
        · rcases main (pos - 1) (Or.inr ⟨h0, rfl⟩) with
            ⟨mn, bmn, bmx, mmx, t, hdir, hb1, hb2, hb3, hb4, hIf, htail⟩
          refine ⟨pos - 1, mn, bmn, bmx, mmx, t, hdir, fun h => absurd h h0,
            fun _ h => absurd h hlast, ?_, hb1, hb2, hb3, hb4, ?_, htail⟩
          · intro _ _ L R hL2 hR2
            rw [hL] at hL2
            rw [hR] at hR2
            injection hL2 with hL2
            injection hR2 with hR2
            rw [← hL2, ← hR2, if_pos hlr]
          · rw [SortedContainers.shrink, if_neg h0, if_neg hlast]
            simp only [hL, hR, Option.bind_eq_bind, Option.some_bind]
            rw [if_pos hlr]
            exact hIf
        · rcases main (pos + 1) (Or.inl ⟨rfl, hp1⟩) with
            ⟨mn, bmn, bmx, mmx, t, hdir, hb1, hb2, hb3, hb4, hIf, htail⟩
          refine ⟨pos + 1, mn, bmn, bmx, mmx, t, hdir, fun h => absurd h h0,
            fun _ h => absurd h hlast, ?_, hb1, hb2, hb3, hb4, ?_, htail⟩
          · intro _ _ L R hL2 hR2
            rw [hL] at hL2
            rw [hR] at hR2
            injection hL2 with hL2
            injection hR2 with hR2
            rw [← hL2, ← hR2, if_neg hlr]
          · rw [SortedContainers.shrink, if_neg h0, if_neg hlast]
            simp only [hL, hR, Option.bind_eq_bind, Option.some_bind]
            rw [if_neg hlr]
            exact hIf
  intro vte0 hdir
  rcases hdir with ⟨hveq, hv1⟩ | ⟨hpne, hveq⟩
  · -- merge with the right neighbor: the donor bucket pos + 1 is removed
    subst hveq
    have hbmn : s.data[pos]? = some s.data[pos] := List.getElem?_eq_getElem hpos
    have hbmx : s.data[pos + 1]? = some s.data[pos + 1] :=
      List.getElem?_eq_getElem hv1
    have hmmx : s.maxes[pos + 1]? = some s.maxes[pos + 1] :=
      List.getElem?_eq_getElem (by omega)
    have helen : (s.data.eraseIdx (pos + 1)).length = s.data.length - 1 := by
      rw [List.length_eraseIdx, if_pos hv1]
    have hmelen : (s.maxes.eraseIdx (pos + 1)).length = s.maxes.length - 1 := by
      rw [List.length_eraseIdx, if_pos (by omega)]
    have hsh : (if pos < pos + 1 then do
          let pr ← vecRemove (pos + 1) s.data
          let bucket ← pr.snd[pos]?
          let data2 ← vecSet pos (bucket ++ pr.fst) pr.snd
          let mr ← vecRemove (pos + 1) s.maxes
          let maxes2 ← vecSet pos mr.fst mr.snd
          some (SortedContainers.build_index { s with data := data2, maxes := maxes2 })
        else do
          let pr ← vecRemove pos s.data
          let bucket ← pr.snd[pos + 1]?
          let data2 ← vecSet (pos + 1) (bucket ++ pr.fst) pr.snd
          let mr ← vecRemove pos s.maxes
          let maxes2 ← vecSet (pos + 1) mr.fst mr.snd
          some (SortedContainers.build_index { s with data := data2, maxes := maxes2 }))
        = some (SortedContainers.build_index { s with
          data := (s.data.eraseIdx (pos + 1)).set pos (s.data[pos] ++ s.data[pos + 1]),
          maxes := (s.maxes.eraseIdx (pos + 1)).set pos s.maxes[pos + 1] }) := by
      rw [if_pos (show pos < pos + 1 by omega)]
      rw [vecRemove_some (pos + 1) s.data _ hbmx]
      simp only [Option.bind_eq_bind, Option.some_bind]
      rw [getElem?_eraseIdx_lt (show pos < pos + 1 by omega), hbmn]
      simp only [Option.some_bind]
      rw [vecSet_some _ (show pos < (s.data.eraseIdx (pos + 1)).length by omega)]
      simp only [Option.some_bind]
      rw [vecRemove_some (pos + 1) s.maxes _ hmmx]
      simp only [Option.bind_eq_bind, Option.some_bind]
      rw [vecSet_some _ (show pos < (s.maxes.eraseIdx (pos + 1)).length by omega)]
      simp only [Option.some_bind]
    have hdproj : (SortedContainers.build_index { s with
        data := (s.data.eraseIdx (pos + 1)).set pos (s.data[pos] ++ s.data[pos + 1]),
        maxes := (s.maxes.eraseIdx (pos + 1)).set pos s.maxes[pos + 1] }).data =
        (s.data.eraseIdx (pos + 1)).set pos (s.data[pos] ++ s.data[pos + 1]) := by
      rw [SortedContainers.build_index]
      split <;> rfl
    have hmproj : (SortedContainers.build_index { s with
        data := (s.data.eraseIdx (pos + 1)).set pos (s.data[pos] ++ s.data[pos + 1]),
        maxes := (s.maxes.eraseIdx (pos + 1)).set pos s.maxes[pos + 1] }).maxes =
        (s.maxes.eraseIdx (pos + 1)).set pos s.maxes[pos + 1] := by
      rw [SortedContainers.build_index]
      split <;> rfl
    have hdc : (s.data.eraseIdx (pos + 1)).set pos (s.data[pos] ++ s.data[pos + 1]) =
        s.data.take pos ++ (s.data[pos] ++ s.data[pos + 1]) ::
          s.data.drop (pos + 1 + 1) := merge_canon _ hv1
    have hmc : (s.maxes.eraseIdx (pos + 1)).set pos s.maxes[pos + 1] =
        s.maxes.take pos ++ s.maxes[pos + 1] :: s.maxes.drop (pos + 1 + 1) :=
      merge_canon _ (by omega)
    refine ⟨pos, s.data[pos], s.data[pos + 1], s.maxes[pos + 1], _,
      Or.inl ⟨rfl, rfl⟩, hv1, hbmn, hbmx, hmmx, hsh, ?_, ?_, ?_, ?_, ?_, ?_, ?_, ?_,
      ?_, ?_⟩
    · rw [hdproj, hdc]
    · rw [hmproj, hmc]
    · rw [hdproj, hmproj, SortedContainers.build_index]
      by_cases hc : s.len = 0 ∨
          ((s.maxes.eraseIdx (pos + 1)).set pos s.maxes[pos + 1]).length < 2
      · rw [if_pos hc, if_pos hc]
      · rw [if_neg hc, if_neg hc]
    · rw [SortedContainers.build_index]
      split <;> rfl
    · rw [SortedContainers.build_index]
      split <;> rfl
    · rw [SortedContainers.build_index]
      split <;> rfl
    · rw [SortedContainers.build_index]
      split <;> rfl
    · rw [hdproj, hdc]
      exact merge_flatten hbmn hbmx
    · rw [hdproj, List.length_set, helen]
      omega
    · rw [hmproj, List.length_set, hmelen]
      omega
  · -- merge with the left neighbor: the donor bucket pos is removed
    obtain ⟨mn, rfl⟩ : ∃ mn, pos = mn + 1 := ⟨pos - 1, by omega⟩
    have hveq2 : vte0 = mn := by omega
    clear hveq
    subst vte0
    have hbmn : s.data[mn]? = some s.data[mn] := List.getElem?_eq_getElem (by omega)
    have hbmx : s.data[mn + 1]? = some s.data[mn + 1] :=
      List.getElem?_eq_getElem hpos
    have hmmx : s.maxes[mn + 1]? = some s.maxes[mn + 1] :=
      List.getElem?_eq_getElem (by omega)
    have helen : (s.data.eraseIdx (mn + 1)).length = s.data.length - 1 := by
      rw [List.length_eraseIdx, if_pos hpos]
    have hmelen : (s.maxes.eraseIdx (mn + 1)).length = s.maxes.length - 1 := by
      rw [List.length_eraseIdx, if_pos (by omega)]
    have hsh : (if mn + 1 < mn then do
          let pr ← vecRemove mn s.data
          let bucket ← pr.snd[mn + 1]?
          let data2 ← vecSet (mn + 1) (bucket ++ pr.fst) pr.snd
          let mr ← vecRemove mn s.maxes
          let maxes2 ← vecSet (mn + 1) mr.fst mr.snd
          some (SortedContainers.build_index { s with data := data2, maxes := maxes2 })
        else do
          let pr ← vecRemove (mn + 1) s.data
          let bucket ← pr.snd[mn]?
          let data2 ← vecSet mn (bucket ++ pr.fst) pr.snd
          let mr ← vecRemove (mn + 1) s.maxes
          let maxes2 ← vecSet mn mr.fst mr.snd
          some (SortedContainers.build_index { s with data := data2, maxes := maxes2 }))
        = some (SortedContainers.build_index { s with
          data := (s.data.eraseIdx (mn + 1)).set mn (s.data[mn] ++ s.data[mn + 1]),
          maxes := (s.maxes.eraseIdx (mn + 1)).set mn s.maxes[mn + 1] }) := by
      rw [if_neg (show ¬ mn + 1 < mn by omega)]
      rw [vecRemove_some (mn + 1) s.data _ hbmx]
      simp only [Option.bind_eq_bind, Option.some_bind]
      rw [getElem?_eraseIdx_lt (show mn < mn + 1 by omega), hbmn]
      simp only [Option.some_bind]
      rw [vecSet_some _ (show mn < (s.data.eraseIdx (mn + 1)).length by omega)]
      simp only [Option.some_bind]
      rw [vecRemove_some (mn + 1) s.maxes _ hmmx]
      simp only [Option.bind_eq_bind, Option.some_bind]
      rw [vecSet_some _ (show mn < (s.maxes.eraseIdx (mn + 1)).length by omega)]
      simp only [Option.some_bind]
    have hdproj : (SortedContainers.build_index { s with
        data := (s.data.eraseIdx (mn + 1)).set mn (s.data[mn] ++ s.data[mn + 1]),
        maxes := (s.maxes.eraseIdx (mn + 1)).set mn s.maxes[mn + 1] }).data =
        (s.data.eraseIdx (mn + 1)).set mn (s.data[mn] ++ s.data[mn + 1]) := by
      rw [SortedContainers.build_index]
      split <;> rfl
    have hmproj : (SortedContainers.build_index { s with
        data := (s.data.eraseIdx (mn + 1)).set mn (s.data[mn] ++ s.data[mn + 1]),
        maxes := (s.maxes.eraseIdx (mn + 1)).set mn s.maxes[mn + 1] }).maxes =
        (s.maxes.eraseIdx (mn + 1)).set mn s.maxes[mn + 1] := by
      rw [SortedContainers.build_index]
      split <;> rfl
    have hdc : (s.data.eraseIdx (mn + 1)).set mn (s.data[mn] ++ s.data[mn + 1]) =
        s.data.take mn ++ (s.data[mn] ++ s.data[mn + 1]) ::
          s.data.drop (mn + 1 + 1) := merge_canon _ hpos
    have hmc : (s.maxes.eraseIdx (mn + 1)).set mn s.maxes[mn + 1] =
        s.maxes.take mn ++ s.maxes[mn + 1] :: s.maxes.drop (mn + 1 + 1) :=
      merge_canon _ (by omega)
    refine ⟨mn, s.data[mn], s.data[mn + 1], s.maxes[mn + 1], _,
      Or.inr ⟨hpne, by omega, by omega⟩, hpos, hbmn, hbmx, hmmx, hsh, ?_, ?_, ?_, ?_,
      ?_, ?_, ?_, ?_, ?_, ?_⟩
    · rw [hdproj, hdc]
    · rw [hmproj, hmc]
    · rw [hdproj, hmproj, SortedContainers.build_index]
      by_cases hc : s.len = 0 ∨
          ((s.maxes.eraseIdx (mn + 1)).set mn s.maxes[mn + 1]).length < 2
      · rw [if_pos hc, if_pos hc]
      · rw [if_neg hc, if_neg hc]
    · rw [SortedContainers.build_index]
      split <;> rfl
    · rw [SortedContainers.build_index]
      split <;> rfl
    · rw [SortedContainers.build_index]
      split <;> rfl
    · rw [SortedContainers.build_index]
      split <;> rfl
    · rw [hdproj, hdc]
      exact merge_flatten hbmn hbmx
    · rw [hdproj, List.length_set, helen]
      omega
    · rw [hmproj, List.length_set, hmelen]
      omega

set_option maxHeartbeats 1000000 in
/-- In ascending mode, the shrink step restores full well-formedness: starting from a
state whose buckets are all non-empty except possibly the shrink position, with
sorted contents, sound boundaries and strictly increasing boundary values, it
produces a well-formed state with the same contents. -/
theorem shrink_pres {u : SortedContainers} {pos : Nat}
    (hot : u.order_type = .Asc)
    (hml : u.maxes.length = u.data.length)
    (h2 : 2 ≤ u.data.length) (hpos : pos < u.data.length)
    (hulen : u.len ≠ 0)
    (hlenEq : u.len = u.data.flatten.length)
    (hsort : u.data.flatten.Pairwise (ordLt u.order_type))
    (hwb : weakBound u)
    (hne : ∀ q b, u.data[q]? = some b → q ≠ pos → b ≠ [])
    (hms : u.maxes.Pairwise (ordLt OrderType.Asc))
    (hss : ∀ p, u.shrink_strategy 0 p = true) :
    ∃ t, u.shrink pos = some t ∧ SInv t ∧ sortedFlat t ∧ weakBound t ∧
      t.len = u.len ∧ t.order_type = u.order_type ∧
      t.expand_strategy = u.expand_strategy ∧
      t.shrink_strategy = u.shrink_strategy ∧
      t.data.flatten = u.data.flatten := by
  rcases shrink_spec hml h2 hpos with
    ⟨vte, mn, bmn, bmx, mmx, t, hdir, _, _, _, hmx1, hbmn, hbmx, hmmx, hsh,
     hdata, hmaxes, hidx, hlen, hto, hes, hss2, hflat, hdl, hmll⟩
  have hAlen : (u.data.take mn).length = mn := length_take_of_le (by omega)
  have hAmlen : (u.maxes.take mn).length = mn := length_take_of_le (by omega)
  have htd : ∀ q, t.data[q]? =
      (if q < mn then u.data[q]? else if q = mn then some (bmn ++ bmx)
       else u.data[q + 1]?) := by
    intro q
    rw [hdata, splice_getElem?, hAlen]
    by_cases h1 : q < mn
    · rw [if_pos h1, if_pos h1, List.getElem?_take, if_pos h1]
    · rw [if_neg h1, if_neg h1]
      by_cases hq2 : q = mn
      · rw [if_pos hq2, if_pos hq2]
      · rw [if_neg hq2, if_neg hq2, List.getElem?_drop]
        congr 1
        omega
  have htm : ∀ q, t.maxes[q]? =
      (if q < mn then u.maxes[q]? else if q = mn then some mmx
       else u.maxes[q + 1]?) := by
    intro q
    rw [hmaxes, splice_getElem?, hAmlen]
    by_cases h1 : q < mn
    · rw [if_pos h1, if_pos h1, List.getElem?_take, if_pos h1]
    · rw [if_neg h1, if_neg h1]
      by_cases hq2 : q = mn
      · rw [if_pos hq2, if_pos hq2]
      · rw [if_neg hq2, if_neg hq2, List.getElem?_drop]
        congr 1
        omega
  have hposmn : pos = mn ∨ pos = mn + 1 := by
    rcases hdir with ⟨ha, hb⟩ | ⟨ha, hb, hc⟩ <;> omega
  have hmerged_ne : (bmn ++ bmx) ≠ [] := by
    rcases hdir with ⟨ha, hb⟩ | ⟨ha, hb, hc⟩
    · have := hne (mn + 1) bmx hbmx (by omega)
      intro hcon
      rcases List.append_eq_nil.mp hcon with ⟨_, hx⟩
      exact this hx
    · have := hne mn bmn hbmn (by omega)
      intro hcon
      rcases List.append_eq_nil.mp hcon with ⟨hx, _⟩
      exact this hx
  have hm_mn : u.maxes[mn]? = some u.maxes[mn] := List.getElem?_eq_getElem (by omega)
  have hmsort : u.maxes[mn] < mmx := by
    have := sorted_getElem?_lt hms hm_mn hmmx (by omega)
    simpa [ordLt] using this
  refine ⟨t, hsh, ⟨?_, ?_, ?_, ?_, ?_, ?_⟩, ?_, ?_, hlen, hto, hes, hss2, hflat⟩
  · intro h
    rw [hlen] at h
    exact absurd h hulen
  · intro _ b hb
    rcases List.mem_iff_getElem?.mp hb with ⟨k, hk⟩
    rw [htd k] at hk
    by_cases h1 : k < mn
    · rw [if_pos h1] at hk
      exact hne k b hk (by omega)
    · by_cases hq2 : k = mn
      · rw [if_neg h1, if_pos hq2] at hk
        injection hk with hk
        rw [← hk]
        exact hmerged_ne
      · rw [if_neg h1, if_neg hq2] at hk
        exact hne (k + 1) b hk (by omega)
  · intro _
    omega
  · rw [hlen, hflat]
    exact hlenEq
  · rw [hidx]
    by_cases hc : t.maxes.length < 2
    · rw [if_pos (Or.inr hc), if_pos hc]
    · rw [if_neg (fun h => h.elim hulen hc), if_neg hc]
  · intro p'
    rw [hss2]
    exact hss p'
  · show t.data.flatten.Pairwise (ordLt t.order_type)
    rw [hflat, hto]
    exact hsort
  · intro q b m hq hm
    rw [htd q] at hq
    rw [htm q] at hm
    constructor
    · by_cases h1 : q < mn
      · rw [if_pos h1] at hq hm
        exact (hwb q b m hq hm).1
      · by_cases hq2 : q = mn
        · rw [if_neg h1, if_pos hq2] at hq hm
          injection hq with hq
          injection hm with hm
          intro x hx
          rw [← hq] at hx
          rw [← hm]
          rcases List.mem_append.mp hx with hx1 | hx2
          · have hown := (hwb mn bmn u.maxes[mn] hbmn hm_mn).1 x hx1
            omega
          · exact (hwb (mn + 1) bmx mmx hbmx hmmx).1 x hx2
        · rw [if_neg h1, if_neg hq2] at hq hm
          exact (hwb (q + 1) b m hq hm).1
    · have htoA : t.order_type = OrderType.Asc := by rw [hto, hot]
      rw [htoA]
      intro b2 y hb2 hy
      rw [htd (q + 1)] at hb2
      by_cases h1 : q + 1 < mn
      · rw [if_pos h1] at hb2
        rw [if_pos (by omega)] at hq hm
        have hsep := (hwb q b m hq hm).2
        rw [hot] at hsep
        exact hsep b2 y hb2 hy
      · by_cases hq2 : q + 1 = mn
        · rw [if_neg h1, if_pos hq2] at hb2
          injection hb2 with hb2
          rw [if_pos (by omega)] at hq hm
          rw [← hb2] at hy
          rcases List.mem_append.mp hy with hy1 | hy2
          · have hsep := (hwb q b m hq hm).2
            rw [hot] at hsep
            have hbmn2 : u.data[q + 1]? = some bmn := by
              rw [hq2]
              exact hbmn
            exact hsep bmn y hbmn2 hy1
          · have hlt1 : m < u.maxes[mn] := by
              have := sorted_getElem?_lt hms hm hm_mn (by omega)
              simpa [ordLt] using this
            have hsep := (hwb mn bmn u.maxes[mn] hbmn hm_mn).2
            rw [hot] at hsep
            have := hsep bmx y hbmx hy2
            omega
        · by_cases hq3 : q = mn
          · rw [if_neg h1, if_neg hq2] at hb2
            rw [if_neg (by omega), if_pos hq3] at hq hm
            injection hm with hm
            have hsep := (hwb (mn + 1) bmx mmx hbmx hmmx).2
            rw [hot] at hsep
            rw [← hm]
            have hb2b : u.data[mn + 1 + 1]? = some b2 := by
              rw [show mn + 1 + 1 = q + 1 + 1 from by omega]
              exact hb2
            exact hsep b2 y hb2b hy
          · rw [if_neg h1, if_neg hq2] at hb2
            rw [if_neg (by omega), if_neg hq3] at hq hm
            have hsep := (hwb (q + 1) b m hq hm).2
            rw [hot] at hsep
            exact hsep b2 y hb2 hy

/-- Searching the freshly constructed state (one empty bucket): always the insertion
point (0, 0). -/
theorem search_element_emptyfresh {s : SortedContainers} (hd : s.data = [[]])
    (hm : s.maxes = []) (v : Int) : s.search_element v = some (.inr (0, 0)) := by
  rw [SortedContainers.search_element]
  rw [if_neg (by rw [hm]; simp)]
  cases hot : s.order_type <;>
    simp [hd, SortedContainers.bisect, SortedContainers.bisectLoop, hot]

/-- Searching a state with zero buckets (after clear or a remove that emptied the
collection) panics: the unchecked bucket access is out of bounds. -/
theorem search_element_nodata {s : SortedContainers} (hd : s.data = [])
    (hm : s.maxes = []) (v : Int) : s.search_element v = none := by
  rw [SortedContainers.search_element]
  rw [if_neg (by rw [hm]; simp)]
  simp [hd]

/-- Behavior and invariant preservation of remove in ascending mode: a missing
element is reported with the state untouched; a stored element is deleted from its
rank, the state stays well-formed (possibly after the reset-to-empty or the shrink
rebalancing), and the configuration is kept. -/
theorem remove_wpres {s : SortedContainers} {v : Int} {res : Option Int}
    {s' : SortedContainers}
    (hsi : SInv s) (hsort : sortedFlat s) (hwb : weakBound s)
    (hot : s.order_type = .Asc)
    (hrem : s.remove v = some (res, s')) :
    SInv s' ∧ sortedFlat s' ∧ weakBound s' ∧
    s'.order_type = s.order_type ∧ s'.expand_strategy = s.expand_strategy ∧
    s'.shrink_strategy = s.shrink_strategy ∧
    ((res = none ∧ s' = s ∧ v ∉ s.data.flatten) ∨
     (res = some v ∧ v ∈ s.data.flatten ∧ s'.len + 1 = s.len ∧
       (s'.len = 0 → s'.data = [] ∧ s'.maxes = [] ∧ s'.index = []) ∧
       ∃ r, s.data.flatten[r]? = some v ∧
         s'.data.flatten = s.data.flatten.take r ++ s.data.flatten.drop (r + 1))) := by
  by_cases hlen : s.len = 0
  · obtain ⟨hshape, hM, hI⟩ := hsi.shape0 hlen
    rcases hshape with hD | hD
    · have hse := search_element_emptyfresh hD hM v
      rw [SortedContainers.remove, hse] at hrem
      injection hrem with hrem
      rw [Prod.mk.injEq] at hrem
      obtain ⟨h1, h2⟩ := hrem
      subst h1
      subst h2
      refine ⟨hsi, hsort, hwb, rfl, rfl, rfl, Or.inl ⟨rfl, rfl, ?_⟩⟩
      rw [hD]
      simp
    · have hse := search_element_nodata hD hM v
      rw [SortedContainers.remove, hse] at hrem
      exact absurd hrem (by simp)
  · rcases search_element_spec s v hlen hsi hsort hwb with
      ⟨p, i, hse, hf⟩ | ⟨p, i, hse, hins⟩
    · -- found: the element is deleted
      obtain ⟨b, hb, hbi⟩ := hf
      have hplt : p < s.data.length := (List.getElem?_eq_some.mp hb).1
      have hilt : i < b.length := (List.getElem?_eq_some.mp hbi).1
      have hmd := hsi.mlen hlen
      have hbne : b ≠ [] := hsi.ne hlen b (List.getElem?_mem hb)
      have hmem : v ∈ s.data.flatten := mem_flatten_of_found hb hbi
      have hrpos : s.data.flatten[pfxLen s.data p + i]? = some v := by
        rw [flatten_pos hb hilt]
        exact hbi
      set b1 := b.eraseIdx i with hb1def
      have hb1len : b1.length + 1 = b.length := by
        rw [hb1def, List.length_eraseIdx, if_pos hilt]
        omega
      set data1 := s.data.set p b1 with hd1def
      have hd1len : data1.length = s.data.length := by rw [hd1def, List.length_set]
      have hd1p : data1[p]? = some b1 := by
        rw [hd1def, List.getElem?_set, if_pos rfl, if_pos hplt]
      have hd1q : ∀ q, q ≠ p → data1[q]? = s.data[q]? := by
        intro q hq
        rw [hd1def, List.getElem?_set, if_neg (fun h => hq h.symm)]
      have hrlt : pfxLen s.data p + i < s.data.flatten.length := by
        have h1 := pfxLen_succ hb
        have h2 : pfxLen s.data (p + 1) ≤ pfxLen s.data s.data.length :=
          pfxLen_le (by omega)
        have h3 : pfxLen s.data s.data.length = s.data.flatten.length :=
          pfxLen_all (Nat.le_refl _)
        omega
      have hflat1 : data1.flatten =
          s.data.flatten.take (pfxLen s.data p + i) ++
            s.data.flatten.drop (pfxLen s.data p + i + 1) := by
        have hr2 : pfxLen s.data p + i = (s.data.take p).flatten.length + i := by
          rw [length_flatten_take]
        have hr3 : pfxLen s.data p + i + 1 =
            (s.data.take p).flatten.length + (i + 1) := by
          rw [length_flatten_take]
          omega
        conv_rhs => rw [flatten_decomp hb, List.append_assoc, hr3, hr2,
          List.take_append, List.drop_append,
          List.take_append_of_le_length (Nat.le_of_lt hilt),
          List.drop_append_of_le_length (show i + 1 ≤ b.length by omega)]
        rw [hd1def, flatten_set hb, hb1def, eraseIdx_eq_take_drop]
        simp [List.append_assoc]
      set s1 := SortedContainers.update_index { s with data := data1 } p (-1)
        with hs1def
      have hs1data : s1.data = data1 := by
        rw [hs1def, SortedContainers.update_index]
        split <;> rfl
      have hs1maxes : s1.maxes = s.maxes := by
        rw [hs1def, SortedContainers.update_index]
        split <;> rfl
      have hs1len : s1.len = s.len := by
        rw [hs1def, SortedContainers.update_index]
        split <;> rfl
      have hs1idx : s1.index =
          if s.maxes.length < 2 then [] else SortedContainers.cumIdx data1 := by
        rw [hs1def, SortedContainers.update_index]
        by_cases hml : 1 < s.maxes.length
        · rw [if_pos (show 1 < ({ s with data := data1 } : SortedContainers).maxes.length
              from hml)]
          rw [if_neg (by omega)]
          show s.index.mapIdx _ = SortedContainers.cumIdx data1
          have hIdx : s.index = SortedContainers.cumIdx s.data := by
            rw [hsi.idxEq, if_neg (by omega)]
          rw [hIdx, hd1def]
          exact cumIdx_mapIdx_sub hb hb1len.symm
        · rw [if_neg hml, if_pos (by omega)]
          show s.index = []
          rw [hsi.idxEq, if_pos (by omega)]
      set s2 : SortedContainers := { s1 with len := s1.len - 1 } with hs2def
      have hs2data : s2.data = data1 := hs1data
      have hs2maxes : s2.maxes = s.maxes := hs1maxes
      have hs2len : s2.len = s.len - 1 := by
        show s1.len - 1 = s.len - 1
        rw [hs1len]
      have hs2ot : s2.order_type = s.order_type := by
        show s1.order_type = s.order_type
        rw [hs1def, SortedContainers.update_index]
        split <;> rfl
      have hs2es : s2.expand_strategy = s.expand_strategy := by
        show s1.expand_strategy = s.expand_strategy
        rw [hs1def, SortedContainers.update_index]
        split <;> rfl
      have hs2ss : s2.shrink_strategy = s.shrink_strategy := by
        show s1.shrink_strategy = s.shrink_strategy
        rw [hs1def, SortedContainers.update_index]
        split <;> rfl
      have hs2idx : s2.index =
          if s.maxes.length < 2 then [] else SortedContainers.cumIdx data1 := hs1idx
      have hlenEq2 : s2.len = data1.flatten.length := by
        rw [hs2len, hflat1, List.length_append, List.length_take, List.length_drop]
        have := hsi.lenEq
        omega
      have hsort2 : data1.flatten.Pairwise (ordLt s.order_type) := by
        rw [hflat1, ← eraseIdx_eq_take_drop]
        exact hsort.sublist (List.eraseIdx_sublist _ _)
      have hsub1 : ∀ x, x ∈ b1 → x ∈ b := by
        intro x hx
        rw [hb1def, eraseIdx_eq_take_drop, List.mem_append] at hx
        rcases hx with hx | hx
        · exact List.mem_of_mem_take hx
        · exact List.mem_of_mem_drop hx
      have hwb2 : weakBound s2 := by
        intro q b' m' hq hm'
        rw [hs2data] at hq
        rw [hs2maxes] at hm'
        constructor
        · by_cases hqp : q = p
          · subst q
            rw [hd1p] at hq
            injection hq with hq
            intro x hx
            rw [← hq] at hx
            exact (hwb p b m' hb hm').1 x (hsub1 x hx)
          · rw [hd1q q hqp] at hq
            exact (hwb q b' m' hq hm').1
        · have hs2A : s2.order_type = OrderType.Asc := by rw [hs2ot, hot]
          rw [hs2A]
          intro b2 y hb2 hy
          rw [hs2data] at hb2
          by_cases hq1p : q + 1 = p
          · rw [hq1p, hd1p] at hb2
            injection hb2 with hb2
            have hq2 : s.data[q]? = some b' := by
              rw [← hq, hd1q q (by omega)]
            have hsep := (hwb q b' m' hq2 hm').2
            rw [hot] at hsep
            have hbq1 : s.data[q + 1]? = some b := by
              rw [hq1p]
              exact hb
            exact hsep b y hbq1 (hsub1 y (by rw [hb2]; exact hy))
          · rw [hd1q (q + 1) hq1p] at hb2
            by_cases hqp : q = p
            · subst q
              have hsep := (hwb p b m' hb hm').2
              rw [hot] at hsep
              exact hsep b2 y hb2 hy
            · have hq2 : s.data[q]? = some b' := by
                rw [← hq, hd1q q hqp]
              have hsep := (hwb q b' m' hq2 hm').2
              rw [hot] at hsep
              exact hsep b2 y hb2 hy
      have hne2 : ∀ q b', data1[q]? = some b' → q ≠ p → b' ≠ [] := by
        intro q b' hq hqp
        rw [hd1q q hqp] at hq
        exact hsi.ne hlen b' (List.getElem?_mem hq)
      have hms2 : s.maxes.Pairwise (ordLt OrderType.Asc) := by
        have := maxes_sorted hsi hwb hlen
        rw [hot] at this
        exact this
      have hvr : vecRemove i b = some (v, b1) := by
        rw [hb1def]
        exact vecRemove_some i b v hbi
      have hvs : vecSet p b1 s.data = some data1 := by
        rw [hd1def]
        exact vecSet_some b1 hplt
      have hred : s.remove v = (if s2.len = 0 then
            some (some v, { s2 with maxes := [], data := [], index := [] })
          else if 1 < s2.maxes.length ∧ s2.shrink_strategy b1.length p = true then do
            let s3 ← s2.shrink p
            some (some v, s3)
          else
            some (some v, s2)) := by
        rw [SortedContainers.remove, hse]
        simp only [Option.bind_eq_bind, hb, Option.some_bind, hvr, hvs]
      rw [hred] at hrem
      by_cases hz : s2.len = 0
      · rw [if_pos hz] at hrem
        injection hrem with hrem
        rw [Prod.mk.injEq] at hrem
        obtain ⟨h1, h2⟩ := hrem
        subst h1
        subst h2
        refine ⟨⟨?_, ?_, ?_, ?_, ?_, ?_⟩, ?_, ?_, hs2ot, hs2es, hs2ss,
          Or.inr ⟨rfl, hmem, ?_, fun _ => ⟨rfl, rfl, rfl⟩, pfxLen s.data p + i,
            hrpos, ?_⟩⟩
        · intro _
          exact ⟨Or.inr rfl, rfl, rfl⟩
        · intro h
          exact absurd hz h
        · intro h
          exact absurd hz h
        · show s2.len = ([] : List (List Int)).flatten.length
          rw [hz]
          rfl
        · simp
        · intro p'
          show s2.shrink_strategy 0 p' = true
          rw [hs2ss]
          exact hsi.shrink0 p'
        · show (([] : List (List Int)).flatten).Pairwise _
          exact List.Pairwise.nil
        · intro q b' m' hq _
          simp at hq
        · show s2.len + 1 = s.len
          rw [hs2len]
          omega
        · have hlen1 : s.data.flatten.length = 1 := by
            have := hsi.lenEq
            rw [hs2len] at hz
            omega
          have hr0 : pfxLen s.data p + i = 0 := by omega
          rw [hr0, List.take_zero, List.drop_of_length_le (by omega)]
          rfl
      · rw [if_neg hz] at hrem
        by_cases hcond : 1 < s2.maxes.length ∧ s2.shrink_strategy b1.length p = true
        · rw [if_pos hcond] at hrem
          have h2d : 2 ≤ s2.data.length := by
            rw [hs2data, hd1len]
            rw [hs2maxes] at hcond
            omega
          rcases @shrink_pres s2 p
              (by rw [hs2ot, hot])
              (by rw [hs2maxes, hs2data, hd1len, hmd])
              h2d
              (by rw [hs2data, hd1len]; omega)
              hz
              (by rw [hs2data]; exact hlenEq2)
              (by rw [hs2data, hs2ot]; exact hsort2)
              hwb2
              (by rw [hs2data]; exact hne2)
              (by rw [hs2maxes]; exact hms2)
              (by intro p'; rw [hs2ss]; exact hsi.shrink0 p') with
            ⟨t, hsh3, hsit, hsortt, hwbt, htlen, htot, htes, htss, htflat⟩
          rw [hsh3] at hrem
          simp only [Option.bind_eq_bind, Option.some_bind] at hrem
          injection hrem with hrem
          rw [Prod.mk.injEq] at hrem
          obtain ⟨h1, h2⟩ := hrem
          subst h1
          subst h2
          refine ⟨hsit, hsortt, hwbt, htot.trans hs2ot, htes.trans hs2es,
            htss.trans hs2ss, Or.inr ⟨rfl, hmem, ?_, ?_, pfxLen s.data p + i,
              hrpos, ?_⟩⟩
          · rw [htlen, hs2len]
            omega
          · intro h
            rw [htlen] at h
            exact absurd h hz
          · rw [htflat, hs2data, hflat1]
        · rw [if_neg hcond] at hrem
          injection hrem with hrem
          rw [Prod.mk.injEq] at hrem
          obtain ⟨h1, h2⟩ := hrem
          subst h1
          subst h2
          have hb1ne : ∀ (q : Nat) (b' : List Int), data1[q]? = some b' → b' ≠ [] := by
            intro q b' hq
            by_cases hqp : q = p
            · subst q
              rw [hd1p] at hq
              injection hq with hq
              rw [← hq]
              by_cases hml : 1 < s.maxes.length
              · have hstr : ¬ s2.shrink_strategy b1.length p = true := by
                  intro hstr
                  exact hcond ⟨by rw [hs2maxes]; omega, hstr⟩
                intro hcon
                apply hstr
                rw [hs2ss]
                have : b1.length = 0 := by rw [hcon]; rfl
                rw [this]
                exact hsi.shrink0 p
              · have hd1 : s.data.length = 1 := by omega
                have hp0 : p = 0 := by omega
                have hfl : data1.flatten = b1 := by
                  rw [hd1def, hp0]
                  have : s.data.set 0 b1 = [b1] := by
                    cases hD : s.data with
                    | nil =>
                      rw [hD] at hd1
                      simp at hd1
                    | cons x rest =>
                      rw [hD] at hd1
                      cases rest with
                      | nil => rfl
                      | cons y t => simp at hd1
                  rw [this]
                  simp
                intro hcon
                rw [hcon] at hfl
                rw [hfl] at hlenEq2
                simp at hlenEq2
                exact hz hlenEq2
            · exact hne2 q b' hq hqp
          refine ⟨⟨?_, ?_, ?_, ?_, ?_, ?_⟩, ?_, hwb2, hs2ot, hs2es, hs2ss,
            Or.inr ⟨rfl, hmem, ?_, fun h => absurd h hz, pfxLen s.data p + i,
              hrpos, ?_⟩⟩
          · intro h
            exact absurd h hz
          · intro _ b' hb'
            rcases List.mem_iff_getElem?.mp hb' with ⟨k, hk⟩
            rw [hs2data] at hk
            exact hb1ne k b' hk
          · intro _
            rw [hs2maxes, hs2data, hd1len, hmd]
          · rw [hs2data]
            exact hlenEq2
          · rw [hs2idx, hs2maxes, hs2data]
          · intro p'
            rw [hs2ss]
            exact hsi.shrink0 p'
          · show s2.data.flatten.Pairwise (ordLt s2.order_type)
            rw [hs2data, hs2ot]
            exact hsort2
          · rw [hs2len]
            omega
          · rw [hs2data]
            exact hflat1
    · rw [SortedContainers.remove, hse] at hrem
      injection hrem with hrem
      rw [Prod.mk.injEq] at hrem
      obtain ⟨h1, h2⟩ := hrem
      subst h1
      subst h2
      exact ⟨hsi, hsort, hwb, rfl, rfl, rfl,
        Or.inl ⟨rfl, rfl, searchIns_not_mem hlen hsi hsort hwb hins⟩⟩

/-- update_index never touches the order or the strategies. -/
theorem update_index_config (s : SortedContainers) (p : Nat) (n : Int) :
    (s.update_index p n).order_type = s.order_type ∧
    (s.update_index p n).expand_strategy = s.expand_strategy ∧
    (s.update_index p n).shrink_strategy = s.shrink_strategy := by
  rw [SortedContainers.update_index]
  split <;> exact ⟨rfl, rfl, rfl⟩

/-- expand never touches the order or the strategies, whatever state it runs on. -/
theorem expand_config {s : SortedContainers} {p : Nat} {t : SortedContainers}
    (h : s.expand p = some t) :
    t.order_type = s.order_type ∧ t.expand_strategy = s.expand_strategy ∧
    t.shrink_strategy = s.shrink_strategy := by
  rw [SortedContainers.expand] at h
  cases hot : s.order_type with
  | Asc =>
    simp only [hot, Option.bind_eq_bind] at h
    rcases Option.bind_eq_some.mp h with ⟨b0, _, h⟩
    rcases Option.bind_eq_some.mp h with ⟨mU, _, h⟩
    rcases Option.bind_eq_some.mp h with ⟨mL, _, h⟩
    rcases Option.bind_eq_some.mp h with ⟨m1, _, h⟩
    rcases Option.bind_eq_some.mp h with ⟨m2, _, h⟩
    rcases Option.bind_eq_some.mp h with ⟨d1, _, h⟩
    rcases Option.bind_eq_some.mp h with ⟨d2, _, h⟩
    injection h with h
    rw [← h, SortedContainers.build_index]
    split <;> exact ⟨rfl, rfl, rfl⟩
  | Desc =>
    simp only [hot, Option.bind_eq_bind] at h
    rcases Option.bind_eq_some.mp h with ⟨b0, _, h⟩
    rcases Option.bind_eq_some.mp h with ⟨mU, _, h⟩
    rcases Option.bind_eq_some.mp h with ⟨mL, _, h⟩
    rcases Option.bind_eq_some.mp h with ⟨m1, _, h⟩
    rcases Option.bind_eq_some.mp h with ⟨m2, _, h⟩
    rcases Option.bind_eq_some.mp h with ⟨d1, _, h⟩
    rcases Option.bind_eq_some.mp h with ⟨d2, _, h⟩
    injection h with h
    rw [← h, SortedContainers.build_index]
    split <;> exact ⟨rfl, rfl, rfl⟩

/-- shrink never touches the order or the strategies, whatever state it runs on. -/
theorem shrink_config {s : SortedContainers} {p : Nat} {t : SortedContainers}
    (h : s.shrink p = some t) :
    t.order_type = s.order_type ∧ t.expand_strategy = s.expand_strategy ∧
    t.shrink_strategy = s.shrink_strategy := by
  have key : ∀ (n m : Nat),
      (do
        let pr ← vecRemove n s.data
        let bucket ← pr.snd[m]?
        let data2 ← vecSet m (bucket ++ pr.fst) pr.snd
        let mr ← vecRemove n s.maxes
        let maxes2 ← vecSet m mr.fst mr.snd
        some (SortedContainers.build_index { s with data := data2, maxes := maxes2 }))
        = some t →
      t.order_type = s.order_type ∧ t.expand_strategy = s.expand_strategy ∧
      t.shrink_strategy = s.shrink_strategy := by
    intro n m hh
    simp only [Option.bind_eq_bind] at hh
    rcases Option.bind_eq_some.mp hh with ⟨pr, _, hh⟩
    rcases Option.bind_eq_some.mp hh with ⟨bk, _, hh⟩
    rcases Option.bind_eq_some.mp hh with ⟨d2, _, hh⟩
    rcases Option.bind_eq_some.mp hh with ⟨mr, _, hh⟩
    rcases Option.bind_eq_some.mp hh with ⟨m2, _, hh⟩
    injection hh with hh
    rw [← hh, SortedContainers.build_index]
    split <;> exact ⟨rfl, rfl, rfl⟩
  rw [SortedContainers.shrink] at h
  split at h
  · simp only [Option.bind_eq_bind, Option.some_bind] at h
    split at h
    · exact key _ _ h
    · exact key _ _ h
  · split at h
    · simp only [Option.bind_eq_bind, Option.some_bind] at h
      split at h
      · exact key _ _ h
      · exact key _ _ h
    · simp only [Option.bind_eq_bind] at h
      rcases Option.bind_eq_some.mp h with ⟨L, _, h⟩
      rcases Option.bind_eq_some.mp h with ⟨R, _, h⟩
      simp only [Option.some_bind] at h
      split at h
      · split at h
        · exact key _ _ h
        · exact key _ _ h
      · split at h
        · exact key _ _ h
        · exact key _ _ h

/-- The optional expand step after an insertion never touches the order or the
strategies. -/
theorem expand_step_config {s1 s2 : SortedContainers} {c : Bool} {q : Nat}
    (h : (if c then s1.expand q else some s1) = some s2) :
    s2.order_type = s1.order_type ∧ s2.expand_strategy = s1.expand_strategy ∧
    s2.shrink_strategy = s1.shrink_strategy := by
  split at h
  · exact expand_config h
  · injection h with h
    rw [← h]
    exact ⟨rfl, rfl, rfl⟩

/-- process_element never touches the order or the strategies, whatever happens. -/
theorem process_element_config {s : SortedContainers} {v : Int} {pt : ProcessType}
    {res : Except SortedContainersError Nat} {s' : SortedContainers}
    (h : s.process_element v pt = some (res, s')) :
    s'.order_type = s.order_type ∧ s'.expand_strategy = s.expand_strategy ∧
    s'.shrink_strategy = s.shrink_strategy := by
  rw [SortedContainers.process_element] at h
  split at h
  · simp only [Option.bind_eq_bind] at h
    rcases Option.bind_eq_some.mp h with ⟨b0, _, h⟩
    rcases Option.bind_eq_some.mp h with ⟨d1, _, h⟩
    injection h with h
    rw [Prod.mk.injEq] at h
    rw [← h.2]
    exact ⟨rfl, rfl, rfl⟩
  · split at h
    · injection h with h
      rw [Prod.mk.injEq] at h
      rw [← h.2]
      exact ⟨rfl, rfl, rfl⟩
    · split at h
      · exact absurd h (by simp)
      · split at h
        · simp only [Option.bind_eq_bind] at h
          rcases Option.bind_eq_some.mp h with ⟨bk, _, h⟩
          rcases Option.bind_eq_some.mp h with ⟨b1, _, h⟩
          rcases Option.bind_eq_some.mp h with ⟨d1, _, h⟩
          rcases Option.bind_eq_some.mp h with ⟨r, _, h⟩
          injection h with h
          rw [Prod.mk.injEq] at h
          rw [← h.2]
          exact ⟨rfl, rfl, rfl⟩
        · injection h with h
          rw [Prod.mk.injEq] at h
          rw [← h.2]
          exact ⟨rfl, rfl, rfl⟩
      · split at h
        · simp only [Option.bind_eq_bind] at h
          rcases Option.bind_eq_some.mp h with ⟨mO, _, h⟩
          rcases Option.bind_eq_some.mp h with ⟨bk, _, h⟩
          rcases Option.bind_eq_some.mp h with ⟨b1, _, h⟩
          rcases Option.bind_eq_some.mp h with ⟨d1, _, h⟩
          rcases Option.bind_eq_some.mp h with ⟨fp, _, h⟩
          split at h <;> split at h
          all_goals
            rcases Option.bind_eq_some.mp h with ⟨s2, hs2, h⟩
          · injection h with h
            rw [Prod.mk.injEq] at h
            rw [← h.2]
            have hstep := expand_config hs2
            exact ⟨hstep.1.trans (update_index_config _ _ _).1,
              hstep.2.1.trans (update_index_config _ _ _).2.1,
              hstep.2.2.trans (update_index_config _ _ _).2.2⟩
          · injection hs2 with hs2
            injection h with h
            rw [Prod.mk.injEq] at h
            rw [← h.2, ← hs2]
            exact ⟨(update_index_config _ _ _).1, (update_index_config _ _ _).2.1,
              (update_index_config _ _ _).2.2⟩
          · injection h with h
            rw [Prod.mk.injEq] at h
            rw [← h.2]
            have hstep := expand_config hs2
            exact ⟨hstep.1.trans (update_index_config _ _ _).1,
              hstep.2.1.trans (update_index_config _ _ _).2.1,
              hstep.2.2.trans (update_index_config _ _ _).2.2⟩
          · injection hs2 with hs2
            injection h with h
            rw [Prod.mk.injEq] at h
            rw [← h.2, ← hs2]
            exact ⟨(update_index_config _ _ _).1, (update_index_config _ _ _).2.1,
              (update_index_config _ _ _).2.2⟩
        · injection h with h
          rw [Prod.mk.injEq] at h
          rw [← h.2]
          exact ⟨rfl, rfl, rfl⟩

/-- remove never touches the order or the strategies, whatever happens. -/
theorem remove_config {s : SortedContainers} {v : Int} {res : Option Int}
    {s' : SortedContainers} (h : s.remove v = some (res, s')) :
    s'.order_type = s.order_type ∧ s'.expand_strategy = s.expand_strategy ∧
    s'.shrink_strategy = s.shrink_strategy := by
  rw [SortedContainers.remove] at h
  split at h
  · exact absurd h (by simp)
  · injection h with h
    rw [Prod.mk.injEq] at h
    rw [← h.2]
    exact ⟨rfl, rfl, rfl⟩
  · simp only [Option.bind_eq_bind] at h
    rcases Option.bind_eq_some.mp h with ⟨bk, _, h⟩
    rcases Option.bind_eq_some.mp h with ⟨rr, _, h⟩
    rcases Option.bind_eq_some.mp h with ⟨d1, _, h⟩
    split at h
    · injection h with h
      rw [Prod.mk.injEq] at h
      rw [← h.2]
      exact ⟨(update_index_config _ _ _).1, (update_index_config _ _ _).2.1,
        (update_index_config _ _ _).2.2⟩
    · split at h
      · rcases Option.bind_eq_some.mp h with ⟨s3, hs3, h⟩
        injection h with h
        rw [Prod.mk.injEq] at h
        rw [← h.2]
        have hsc := shrink_config hs3
        exact ⟨hsc.1.trans (update_index_config _ _ _).1,
          hsc.2.1.trans (update_index_config _ _ _).2.1,
          hsc.2.2.trans (update_index_config _ _ _).2.2⟩
      · injection h with h
        rw [Prod.mk.injEq] at h
        rw [← h.2]
        exact ⟨(update_index_config _ _ _).1, (update_index_config _ _ _).2.1,
          (update_index_config _ _ _).2.2⟩

/-- All three process types keep the weak invariant (structure, order, sound
boundaries) and the configuration, and never panic. -/
theorem process_wpres {s : SortedContainers} (v : Int) (pt : ProcessType)
    (h : WInv s) :
    ∃ res s', s.process_element v pt = some (res, s') ∧ WInv s' ∧
      s'.order_type = s.order_type ∧ s'.expand_strategy = s.expand_strategy ∧
      s'.shrink_strategy = s.shrink_strategy := by
  by_cases hlen : s.len = 0
  · cases pt with
    | Update => exact ⟨_, s, process_empty_update h.si hlen, h, rfl, rfl, rfl⟩
    | Insert =>
      rcases @process_empty_ins _ v _ h.si hlen (Or.inl rfl) with
        ⟨s', hpe, hsi', hsort', hwb', _, hot', hes', hss', _, _⟩
      exact ⟨_, s', hpe, ⟨hsi', hsort', hwb'⟩, hot', hes', hss'⟩
    | InsertOrUpdate =>
      rcases @process_empty_ins _ v _ h.si hlen (Or.inr rfl) with
        ⟨s', hpe, hsi', hsort', hwb', _, hot', hes', hss', _, _⟩
      exact ⟨_, s', hpe, ⟨hsi', hsort', hwb'⟩, hot', hes', hss'⟩
  · rcases search_element_spec s v hlen h.si h.sorted h.wb with
      ⟨p, i, hse, hf⟩ | ⟨p, i, hse, hins⟩
    · cases pt with
      | Insert =>
        exact ⟨_, s, process_found_insert_err h.si hlen hse, h, rfl, rfl, rfl⟩
      | Update =>
        exact ⟨_, s, (process_found_pres h.si hlen hse hf (Or.inl rfl)).1, h,
          rfl, rfl, rfl⟩
      | InsertOrUpdate =>
        exact ⟨_, s, (process_found_pres h.si hlen hse hf (Or.inr rfl)).1, h,
          rfl, rfl, rfl⟩
    · cases pt with
      | Update =>
        exact ⟨_, s, process_ins_update_err h.si hlen hse, h, rfl, rfl, rfl⟩
      | Insert =>
        rcases process_ins_pres h.si h.sorted h.wb hlen hse hins (Or.inl rfl) with
          ⟨s', hpe, hsi', hsort', hwb', _, hot', hes', hss', _, _, _⟩
        exact ⟨_, s', hpe, ⟨hsi', hsort', hwb'⟩, hot', hes', hss'⟩
      | InsertOrUpdate =>
        rcases process_ins_pres h.si h.sorted h.wb hlen hse hins (Or.inr rfl) with
          ⟨s', hpe, hsi', hsort', hwb', _, hot', hes', hss', _, _, _⟩
        exact ⟨_, s', hpe, ⟨hsi', hsort', hwb'⟩, hot', hes', hss'⟩

/-- The freshly constructed state is well-formed for any order and strategies whose
shrink strategy requests merging empty buckets. -/
theorem new_with_strategies_winv (ot : OrderType) (es ss : Nat → Nat → Bool)
    (hss : ∀ p, ss 0 p = true) :
    WInv (SortedContainers.new_with_strategies ot es ss) := by
  refine ⟨⟨?_, ?_, ?_, ?_, ?_, ?_⟩, ?_, ?_⟩
  · intro _
    exact ⟨Or.inl rfl, rfl, rfl⟩
  · intro h0
    exact absurd rfl h0
  · intro h0
    exact absurd rfl h0
  · rfl
  · rfl
  · exact hss
  · show ([[]] : List (List Int)).flatten.Pairwise _
    simp
  · intro q b m _ hm
    simp [SortedContainers.new_with_strategies] at hm

/-- The cleared state is well-formed whenever the original satisfies the structural
invariant (its strategies keep the empty-bucket condition). -/
theorem clear_winv {s : SortedContainers} (hsi : SInv s) :
    WInv s.clear := by
  refine ⟨⟨?_, ?_, ?_, ?_, ?_, ?_⟩, ?_, ?_⟩
  · intro _
    exact ⟨Or.inr rfl, rfl, rfl⟩
  · intro h0
    exact absurd rfl h0
  · intro h0
    exact absurd rfl h0
  · rfl
  · rfl
  · exact hsi.shrink0
  · show ([] : List (List Int)).flatten.Pairwise _
    exact List.Pairwise.nil
  · intro q b m _ hm
    simp [SortedContainers.clear] at hm

/-- Every state reachable through the public API in ascending mode satisfies the
weak invariant: structure, sorted contents and sound boundaries. -/
theorem reachable_winv {s : SortedContainers} (h : SortedContainers.Reachable s) :
    s.order_type = .Asc → WInv s := by
  induction h with
  | base ot es ss hss =>
    intro _
    exact new_with_strategies_winv ot es ss hss
  | step_process s0 v pt res s1 hs hstep ih =>
    intro hot1
    have hcfg := process_element_config hstep
    have hot0 : s0.order_type = .Asc := by rw [← hcfg.1]; exact hot1
    have hw0 := ih hot0
    rcases process_wpres v pt hw0 with ⟨res2, s2, heq, hw2, _⟩
    rw [hstep] at heq
    injection heq with heq
    rw [Prod.mk.injEq] at heq
    rw [heq.2]
    exact hw2
  | step_remove s0 v res s1 hs hstep ih =>
    intro hot1
    have hcfg := remove_config hstep
    have hot0 : s0.order_type = .Asc := by rw [← hcfg.1]; exact hot1
    have hw0 := ih hot0
    rcases remove_wpres hw0.si hw0.sorted hw0.wb hot0 hstep with
      ⟨hsi1, hsort1, hwb1, _⟩
    exact ⟨hsi1, hsort1, hwb1⟩
  | step_clear s0 hs ih =>
    intro hot1
    have hot0 : s0.order_type = .Asc := hot1
    exact clear_winv (ih hot0).si

/-- The freshly constructed state satisfies the tight invariant. -/
theorem new_with_strategies_tinv (ot : OrderType) (es ss : Nat → Nat → Bool)
    (hss : ∀ p, ss 0 p = true) :
    TInv (SortedContainers.new_with_strategies ot es ss) := by
  refine ⟨(new_with_strategies_winv ot es ss hss).si,
    (new_with_strategies_winv ot es ss hss).sorted, ?_⟩
  intro h0
  exact absurd rfl h0

/-- Folding any sequence of inserts keeps the tight invariant, never panics, keeps
the order, and keeps the fresh single-empty-bucket shape whenever it stays empty. -/
theorem insertAll_tpres {vs : List Int} : ∀ {s : SortedContainers}, TInv s →
    (s.len = 0 → s.data = [[]]) →
    ∃ s', s.insertAll vs = some s' ∧ TInv s' ∧ (s'.len = 0 → s'.data = [[]]) ∧
      s'.order_type = s.order_type := by
  induction vs with
  | nil =>
    intro s h hf
    exact ⟨s, rfl, h, hf, rfl⟩
  | cons v rest ih =>
    intro s h hf
    rcases process_tpres v .Insert h with ⟨res, s1, hpe, h1, hot1, _, _, hlen1⟩
    have hf1 : s1.len = 0 → s1.data = [[]] := by
      rcases hlen1 with he | hl
      · rw [he]
        exact hf
      · intro h0
        rw [hl] at h0
        omega
    rcases ih h1 hf1 with ⟨s', hall, h', hf', hot'⟩
    refine ⟨s', ?_, h', hf', hot'.trans hot1⟩
    show (v :: rest).foldlM _ s = some s'
    rw [List.foldlM_cons]
    have hins : s.insert v = some (res, s1) := hpe
    rw [hins, Option.map_some']
    simp only [Option.bind_eq_bind, Option.some_bind]
    exact hall

/-- Folding any sequence of insert-type mutations keeps the tight invariant and
never panics. -/
theorem applyMuts_tpres {ms : List (ProcessType × Int)} :
    ∀ {s : SortedContainers}, TInv s →
    ∃ s', s.applyMuts ms = some s' ∧ TInv s' ∧ s'.order_type = s.order_type := by
  induction ms with
  | nil =>
    intro s h
    exact ⟨s, rfl, h, rfl⟩
  | cons m rest ih =>
    intro s h
    rcases process_tpres m.snd m.fst h with ⟨res, s1, hpe, h1, hot1, _, _, _⟩
    rcases ih h1 with ⟨s', hall, h', hot'⟩
    refine ⟨s', ?_, h', hot'.trans hot1⟩
    show (m :: rest).foldlM _ s = some s'
    rw [List.foldlM_cons, hpe, Option.map_some']
    simp only [Option.bind_eq_bind, Option.some_bind]
    exact hall

/-- Folding the inserts of pairwise-distinct values that are not yet stored: every
insert succeeds, the length grows accordingly, and the final contents are a
permutation of the inserted values on top of the original contents. -/
theorem insertAll_perm {vs : List Int} : ∀ {s : SortedContainers}, SInv s →
    sortedFlat s → weakBound s → vs.Nodup → (∀ v ∈ vs, v ∉ s.data.flatten) →
    ∃ s', s.insertAll vs = some s' ∧ SInv s' ∧ sortedFlat s' ∧ weakBound s' ∧
      s'.order_type = s.order_type ∧ s'.len = s.len + vs.length ∧
      s'.data.flatten.Perm (vs ++ s.data.flatten) := by
  induction vs with
  | nil =>
    intro s hsi hsort hwb _ _
    exact ⟨s, rfl, hsi, hsort, hwb, rfl, rfl, by simp⟩
  | cons v rest ih =>
    intro s hsi hsort hwb hnd hdisj
    rcases insert_wpres v hsi hsort hwb with
      ⟨res, s1, hpe, hsi1, hsort1, hwb1, _, hot1, _, _, hcase⟩
    rcases hcase with ⟨hmem, _, _⟩ | ⟨_, r, hres, hrle, hlen1, hflat1⟩
    · exact absurd hmem (hdisj v (by simp))
    · have hperm1 : s1.data.flatten.Perm (v :: s.data.flatten) := by
        rw [hflat1]
        have := @List.perm_middle _ v (s.data.flatten.take r)
          (s.data.flatten.drop r)
        refine this.trans ?_
        rw [List.take_append_drop]
      have hdisj1 : ∀ w ∈ rest, w ∉ s1.data.flatten := by
        intro w hw hmem1
        have := hperm1.mem_iff.mp hmem1
        rcases List.mem_cons.mp this with rfl | hmem2
        · exact (List.nodup_cons.mp hnd).1 hw
        · exact hdisj w (by simp [hw]) hmem2
      rcases ih hsi1 hsort1 hwb1 (List.nodup_cons.mp hnd).2 hdisj1 with
        ⟨s', hall, hsi', hsort', hwb', hot', hlen', hperm'⟩
    -- assemble
      refine ⟨s', ?_, hsi', hsort', hwb', hot'.trans hot1, ?_, ?_⟩
      · show (v :: rest).foldlM _ s = some s'
        rw [List.foldlM_cons, hpe, Option.map_some']
        simp only [Option.bind_eq_bind, Option.some_bind]
        exact hall
      · rw [hlen', hlen1, List.length_cons]
        omega
      · refine hperm'.trans ?_
        refine (List.Perm.append_left rest hperm1).trans ?_
        show (rest ++ v :: s.data.flatten).Perm ((v :: rest) ++ s.data.flatten)
        exact List.perm_middle.trans (by rfl)

/-- The iterator over a non-empty well-formed state yields exactly the flattened
contents with fuel len + 1. -/
theorem iterTrace_full {s : SortedContainers} (hsi : SInv s) (hlen : s.len ≠ 0) :
    iterTrace s.data iterStart (s.len + 1) = some s.data.flatten := by
  have hd1 := data_ne_of_len hsi hlen
  have hb0 : s.data[0]? = some s.data[0] := List.getElem?_eq_getElem (by omega)
  have hdecomp : s.data.flatten = s.data[0] ++ (s.data.drop 1).flatten := by
    conv_lhs => rw [flatten_decomp hb0]
    simp
  have hfuel : (s.data[0]).length - 0 + (s.data.drop (0 + 1)).flatten.length
      < s.len + 1 := by
    have h1 := hsi.lenEq
    have h2 := congrArg List.length hdecomp
    rw [List.length_append] at h2
    simp only [Nat.zero_add]
    omega
  have := iterTrace_go s.data (hsi.ne hlen) (s.len + 1) 0 0 s.data[0] hb0
    (by omega) hfuel
  rw [show (⟨0, 0⟩ : SortedContainerIter) = iterStart from rfl] at this
  rw [this, List.drop_zero, hdecomp]

theorem c8slice :
    ((((List.range 10000).map (fun (k : Nat) => -5000 + (k : Int))).drop 2500).take 5000)
      = (List.range 5000).map (fun (k : Nat) => -2500 + (k : Int)) := by
  apply List.ext_getElem?
  intro n
  by_cases hn : n < 5000
  · rw [List.getElem?_take, if_pos hn, List.getElem?_drop, List.getElem?_map,
      List.getElem?_map, List.getElem?_range (by omega : 2500 + n < 10000),
      List.getElem?_range hn]
    simp only [Option.map_some']
    congr 1
    push_cast
    ring
  · rw [List.getElem?_take, if_neg hn, List.getElem?_map,
      List.getElem?_eq_none (by simp [List.length_range]; omega)]
    rfl

/-- C1: every sequence of inserts on a freshly constructed collection succeeds, and
iterating the resulting collection yields a strictly increasing sequence in
ascending mode and a strictly decreasing sequence in descending mode, across any
splits done by the expand strategy. -/
theorem spec2proof_c1 (ot : OrderType) (vs : List Int) :
    ∃ s' tr, (SortedContainers.new ot).insertAll vs = some s' ∧
      iterTrace s'.data iterStart (s'.len + 1) = some tr ∧
      tr.Pairwise (ordLt ot) := by
  rcases @insertAll_tpres vs _
      (new_with_strategies_tinv ot SortedContainers.default_expand
        SortedContainers.default_shrink (fun _ => rfl))
      (fun _ => rfl) with ⟨s', hall, h', hf', hot'⟩
  by_cases hz : s'.len = 0
  · refine ⟨s', [], hall, ?_, List.Pairwise.nil⟩
    rw [hf' hz, hz]
    rfl
  · refine ⟨s', s'.data.flatten, hall, iterTrace_full h'.si hz, ?_⟩
    have hs := h'.sorted
    unfold sortedFlat at hs
    rw [hot'] at hs
    exact hs

/-- C2 counterexample: on a default ascending collection holding 1, 2, 3, removing
the stored maximum 3 leaves the boundary list [3] while the only bucket is [1, 2]:
the stored boundary no longer equals the bucket's last element after the mutation,
so the claimed boundary invariant fails after remove. -/
theorem spec2proof_c2_counterexample :
    Option.map (fun sf => (sf.len, sf.data, sf.maxes))
      (((SortedContainers.new .Asc).insertAll [1, 2, 3]).bind
        (fun sa => (sa.remove 3).map Prod.snd))
      = some (2, [[1, 2]], [3]) ∧ ([1, 2] : List Int).getLastD 0 ≠ 3 := by
  exact ⟨rfl, by decide⟩

/-- C2 (corrected to the insert-type mutations: remove excluded): after any sequence
of insert, update and insert_or_update mutations that leaves the collection
non-empty, every bucket's stored boundary value equals the bucket's true extreme
element: its last element in ascending mode, its first element in descending
mode. -/
theorem spec2proof_c2 (ot : OrderType) (ms : List (ProcessType × Int))
    (s' : SortedContainers)
    (h : (SortedContainers.new ot).applyMuts ms = some s')
    (hlen : s'.len ≠ 0) :
    ∀ (q : Nat) (b : List Int), s'.data[q]? = some b →
      s'.maxes[q]? = some (match s'.order_type with
        | OrderType.Asc => b.getLastD 0
        | OrderType.Desc => b.headD 0) := by
  rcases @applyMuts_tpres ms _
      (new_with_strategies_tinv ot SortedContainers.default_expand
        SortedContainers.default_shrink (fun _ => rfl)) with ⟨s2, hall, h2, _⟩
  have heq : some s2 = some s' := hall.symm.trans h
  injection heq with heq
  subst heq
  exact fun q b hq => h2.tight hlen q b hq

theorem spec2proof_c2_witness :
    (SortedContainers.new .Asc).applyMuts [(ProcessType.Insert, 5)] =
        some ⟨[[5]], [5], [], .Asc, 1, SortedContainers.default_expand,
          SortedContainers.default_shrink⟩ ∧
      (⟨[[5]], [5], [], .Asc, 1, SortedContainers.default_expand,
          SortedContainers.default_shrink⟩ : SortedContainers).maxes[0]? = some 5 :=
  ⟨rfl, by
    have := spec2proof_c2 .Asc [(ProcessType.Insert, 5)]
      ⟨[[5]], [5], [], .Asc, 1, SortedContainers.default_expand,
        SortedContainers.default_shrink⟩ rfl (by decide) 0 [5] rfl
    exact this⟩

/-- C3 counterexample: a descending collection reachable through the public API
(small split and merge thresholds; insert 1..8 then remove 5) has the element 6 at
rank 2, but find 6 reports the element as absent: the rank round-trip fails on this
reachable state, because the shrink step installed the wrong boundary for
descending order. -/
theorem spec2proof_c3_counterexample :
    Option.map (fun sb => (sb.elementAt 2, sb.find 6, decide (2 < sb.len)))
      (((SortedContainers.new_with_strategies .Desc (fun len _ => decide (3 < len))
          (fun len _ => decide (len < 2))).insertAll [1, 2, 3, 4, 5, 6, 7, 8]).bind
        (fun sa => (sa.remove 5).map Prod.snd))
      = some (some 6, some none, true) := rfl

/-- C3 (corrected to ascending mode): for every reachable ascending collection and
every valid rank r, positional indexing at r yields an element x, and find x
returns exactly Some r: the rank-to-coordinates and coordinates-to-rank conversions
are mutually inverse over stored elements. -/
theorem spec2proof_c3 (s : SortedContainers) (r : Nat)
    (hreach : SortedContainers.Reachable s) (hot : s.order_type = .Asc)
    (hr : r < s.len) :
    ∃ x, s.elementAt r = some x ∧ s.find x = some (some r) := by
  have hw := reachable_winv hreach hot
  have hlen : s.len ≠ 0 := by omega
  have hrf : r < s.data.flatten.length := by
    rw [← hw.si.lenEq]
    exact hr
  have hx : s.data.flatten[r]? = some s.data.flatten[r] :=
    List.getElem?_eq_getElem hrf
  refine ⟨s.data.flatten[r], ?_, ?_⟩
  · rw [elementAt_spec hw.si hr]
    exact hx
  · rcases search_found_rank hlen hw.si hw.sorted hw.wb hx with
      ⟨p, i, b, hse, hb, hbi, hpfx⟩
    simp only [SortedContainers.find, hse]
    rw [index_from_tuple_spec hw.si hlen (List.getElem?_eq_some.mp hb).1,
      Option.map_some', hpfx]

theorem spec2proof_c3_witness :
    ∃ x, (⟨[[7]], [7], [], .Asc, 1, SortedContainers.default_expand,
        SortedContainers.default_shrink⟩ : SortedContainers).elementAt 0 = some x ∧
      (⟨[[7]], [7], [], .Asc, 1, SortedContainers.default_expand,
        SortedContainers.default_shrink⟩ : SortedContainers).find x =
        some (some 0) :=
  spec2proof_c3 _ 0
    (SortedContainers.Reachable.step_process (SortedContainers.new .Asc) 7 .Insert
      (.ok 0) _
      (SortedContainers.Reachable.base .Asc SortedContainers.default_expand
        SortedContainers.default_shrink (fun _ => rfl))
      rfl)
    rfl (by decide)

/-- C4 counterexample: on a reachable descending collection (insert 1..8 with small
thresholds, then remove 5) the element 6 is stored, yet insert 6 returns Ok 2
instead of the AlreadyExists error, and the collection changes: it then holds 6
twice.  The error-iff-duplicate characterization fails on descending reachable
states. -/
theorem spec2proof_c4_counterexample :
    Option.map (fun sb => (Option.map (fun pr => (pr.fst, pr.snd.data.flatten))
        (sb.insert 6), decide (6 ∈ sb.data.flatten)))
      (((SortedContainers.new_with_strategies .Desc (fun len _ => decide (3 < len))
          (fun len _ => decide (len < 2))).insertAll [1, 2, 3, 4, 5, 6, 7, 8]).bind
        (fun sa => (sa.remove 5).map Prod.snd))
      = some (some (.ok 2, [8, 7, 6, 6, 4, 3, 2, 1]), true) := rfl

/-- C4 (corrected to ascending mode): on every reachable ascending collection,
insert v returns the AlreadyExists error exactly when v is already stored, and in
that case the state is completely unchanged; inserting 42 into a fresh ascending
collection returns rank 0 and inserting 42 again fails with AlreadyExists 42. -/
theorem spec2proof_c4 :
    (∀ s v, SortedContainers.Reachable s → s.order_type = .Asc →
      ∃ res s', s.insert v = some (res, s') ∧
        (res = .error (.ElementAlreadyExist v) ↔ v ∈ s.data.flatten) ∧
        (v ∈ s.data.flatten → s' = s)) ∧
    (∃ s1, (SortedContainers.new .Asc).insert 42 = some (.ok 0, s1) ∧
      s1.insert 42 = some (.error (.ElementAlreadyExist 42), s1)) := by
  constructor
  · intro s v hreach hot
    have hw := reachable_winv hreach hot
    rcases insert_wpres v hw.si hw.sorted hw.wb with
      ⟨res, s', hins, _, _, _, _, _, _, _, hcase⟩
    refine ⟨res, s', hins, ⟨?_, ?_⟩, ?_⟩
    · intro hres
      rcases hcase with ⟨hm, _, _⟩ | ⟨hnm, r, hok, _⟩
      · exact hm
      · rw [hok] at hres
        exact absurd hres (by simp)
    · intro hmem
      rcases hcase with ⟨_, hres, _⟩ | ⟨hnm, _⟩
      · exact hres
      · exact absurd hmem hnm
    · intro hmem
      rcases hcase with ⟨_, _, hs⟩ | ⟨hnm, _⟩
      · exact hs
      · exact absurd hmem hnm
  · exact ⟨⟨[[42]], [42], [], .Asc, 1, SortedContainers.default_expand,
      SortedContainers.default_shrink⟩, rfl, rfl⟩

theorem spec2proof_c4_witness :
    ∃ res s', (SortedContainers.new .Asc).insert 5 = some (res, s') ∧
      (res = .error (.ElementAlreadyExist 5) ↔
        5 ∈ (SortedContainers.new .Asc).data.flatten) ∧
      (5 ∈ (SortedContainers.new .Asc).data.flatten →
        s' = SortedContainers.new .Asc) :=
  spec2proof_c4.1 (SortedContainers.new .Asc) 5
    (SortedContainers.Reachable.base .Asc SortedContainers.default_expand
      SortedContainers.default_shrink (fun _ => rfl))
    rfl

/-- C5: on any well-formed state (structural invariant, sorted contents, sound
boundaries), inserting an element that is not stored returns Ok r where r is the
global rank the element occupies right after the insertion, before any split:
indexed access at rank r on the resulting collection yields the element, even when
the insertion triggered the expand rebalancing. -/
theorem spec2proof_c5 (s : SortedContainers) (v : Int) (hsi : SInv s)
    (hsort : sortedFlat s) (hwb : weakBound s) (hv : v ∉ s.data.flatten) :
    ∃ r s', s.insert v = some (.ok r, s') ∧ s'.elementAt r = some v := by
  rcases insert_wpres v hsi hsort hwb with
    ⟨res, s', hins, hsi', _, _, _, _, _, _, hcase⟩
  rcases hcase with ⟨hm, _, _⟩ | ⟨_, r, hok, hrle, hlen', hflat'⟩
  · exact absurd hm hv
  · subst hok
    refine ⟨r, s', hins, ?_⟩
    have hrlen : r < s'.len := by
      rw [hlen']
      omega
    rw [elementAt_spec hsi' hrlen, hflat', splice_getElem?]
    have htl : (s.data.flatten.take r).length = r := by
      rw [List.length_take]
      have := hsi.lenEq
      omega
    rw [htl, if_neg (by omega), if_pos rfl]

theorem spec2proof_c5_witness :
    ∃ r s', (SortedContainers.new .Asc).insert 3 = some (.ok r, s') ∧
      s'.elementAt r = some 3 :=
  spec2proof_c5 (SortedContainers.new .Asc) 3
    (new_with_strategies_winv .Asc SortedContainers.default_expand
      SortedContainers.default_shrink (fun _ => rfl)).si
    (new_with_strategies_winv .Asc SortedContainers.default_expand
      SortedContainers.default_shrink (fun _ => rfl)).sorted
    (new_with_strategies_winv .Asc SortedContainers.default_expand
      SortedContainers.default_shrink (fun _ => rfl)).wb
    (by decide)

/-- C6 counterexample: inserting 1 into a fresh ascending collection and then
removing it leaves zero buckets (data = []), not the constructed configuration
with one empty bucket, and the first iterator step on that state is an
out-of-bounds access (none) rather than the end-of-iteration signal. -/
theorem spec2proof_c6_counterexample :
    ((SortedContainers.new .Asc).insert 1).bind
        (fun pr => (pr.snd.remove 1).map
          (fun rr => (rr.snd.data, rr.snd.maxes, rr.snd.index)))
      = some ([], [], []) ∧
    (SortedContainers.new .Asc).data = [[]] ∧
    iterNext ([] : List (List Int)) iterStart = none ∧
    iterNext [([] : List Int)] iterStart = some none := ⟨rfl, rfl, rfl, rfl⟩

/-- C6 (corrected): when remove deletes the last remaining element of a reachable
ascending collection, all three sequences are reset to empty — zero buckets, not
the one-empty-bucket configuration produced by construction — and an iterator on
that state panics on its first step, unlike an iterator on a fresh collection,
which reports end of iteration. -/
theorem spec2proof_c6 (s : SortedContainers) (v x : Int) (s' : SortedContainers)
    (hreach : SortedContainers.Reachable s) (hot : s.order_type = .Asc)
    (hrem : s.remove v = some (some x, s')) (hz : s'.len = 0) :
    s'.data = [] ∧ s'.maxes = [] ∧ s'.index = [] ∧
    iterNext s'.data iterStart = none ∧
    (SortedContainers.new .Asc).data = [[]] ∧
    iterNext (SortedContainers.new .Asc).data iterStart = some none := by
  have hw := reachable_winv hreach hot
  rcases remove_wpres hw.si hw.sorted hw.wb hot hrem with
    ⟨_, _, _, _, _, _, hcase⟩
  rcases hcase with ⟨hres, _, _⟩ | ⟨_, _, _, hreset, _⟩
  · exact Option.noConfusion hres
  · obtain ⟨hd, hm, hi⟩ := hreset hz
    refine ⟨hd, hm, hi, ?_, rfl, rfl⟩
    rw [hd]
    rfl

theorem spec2proof_c6_witness :
    (⟨[], [], [], .Asc, 0, SortedContainers.default_expand,
        SortedContainers.default_shrink⟩ : SortedContainers).data = [] ∧
    (⟨[], [], [], .Asc, 0, SortedContainers.default_expand,
        SortedContainers.default_shrink⟩ : SortedContainers).maxes = [] ∧
    (⟨[], [], [], .Asc, 0, SortedContainers.default_expand,
        SortedContainers.default_shrink⟩ : SortedContainers).index = [] ∧
    iterNext (⟨[], [], [], .Asc, 0, SortedContainers.default_expand,
        SortedContainers.default_shrink⟩ : SortedContainers).data iterStart = none ∧
    (SortedContainers.new .Asc).data = [[]] ∧
    iterNext (SortedContainers.new .Asc).data iterStart = some none :=
  spec2proof_c6
    ⟨[[1]], [1], [], .Asc, 1, SortedContainers.default_expand,
      SortedContainers.default_shrink⟩ 1 1
    ⟨[], [], [], .Asc, 0, SortedContainers.default_expand,
      SortedContainers.default_shrink⟩
    (SortedContainers.Reachable.step_process (SortedContainers.new .Asc) 1 .Insert
      (.ok 0) _
      (SortedContainers.Reachable.base .Asc SortedContainers.default_expand
        SortedContainers.default_shrink (fun _ => rfl))
      rfl)
    rfl rfl rfl

/-- C7: on any structurally well-formed state, range start end aborts (none at the
outer level, modelling the fatal bounds error) exactly when start > end or either
bound is at least the length; on bounds passing the checks it returns exactly the
flattened slice of ranks in the half-open window, with the empty window reported
as an absent result rather than an empty sequence. -/
theorem spec2proof_c7 (s : SortedContainers) (a b : Nat) (hsi : SInv s) :
    (s.range a b = none ↔ (b < a ∨ s.len ≤ a ∨ s.len ≤ b)) ∧
    (a ≤ b → a < s.len → b < s.len →
      s.range a b = some (if a = b then none
        else some ((s.data.flatten.drop a).take (b - a)))) := by
  constructor
  · constructor
    · intro hnone
      by_contra hc
      push_neg at hc
      obtain ⟨h1, h2, h3⟩ := hc
      rw [range_ok hsi (by omega) h2 h3] at hnone
      exact Option.noConfusion hnone
    · intro h
      exact range_panic (by omega)
  · intro h1 h2 h3
    exact range_ok hsi h1 h2 h3

theorem spec2proof_c7_witness :
    (((⟨[[1, 2, 3]], [3], [], .Asc, 3, SortedContainers.default_expand,
          SortedContainers.default_shrink⟩ : SortedContainers).range 1 2 = none ↔
        (2 < 1 ∨
          (⟨[[1, 2, 3]], [3], [], .Asc, 3, SortedContainers.default_expand,
            SortedContainers.default_shrink⟩ : SortedContainers).len ≤ 1 ∨
          (⟨[[1, 2, 3]], [3], [], .Asc, 3, SortedContainers.default_expand,
            SortedContainers.default_shrink⟩ : SortedContainers).len ≤ 2)) ∧
      (1 ≤ 2 →
        1 < (⟨[[1, 2, 3]], [3], [], .Asc, 3, SortedContainers.default_expand,
          SortedContainers.default_shrink⟩ : SortedContainers).len →
        2 < (⟨[[1, 2, 3]], [3], [], .Asc, 3, SortedContainers.default_expand,
          SortedContainers.default_shrink⟩ : SortedContainers).len →
        (⟨[[1, 2, 3]], [3], [], .Asc, 3, SortedContainers.default_expand,
          SortedContainers.default_shrink⟩ : SortedContainers).range 1 2 =
          some (if 1 = 2 then none
            else some (((⟨[[1, 2, 3]], [3], [], .Asc, 3,
              SortedContainers.default_expand,
              SortedContainers.default_shrink⟩ :
                SortedContainers).data.flatten.drop 1).take (2 - 1))))) :=
  spec2proof_c7
    ⟨[[1, 2, 3]], [3], [], .Asc, 3, SortedContainers.default_expand,
      SortedContainers.default_shrink⟩ 1 2
    (by
      refine ⟨fun h => absurd h (by decide), ?_, fun _ => rfl, rfl, rfl,
        fun _ => rfl⟩
      intro _ b hb
      cases hb with
      | head => decide
      | tail _ h => cases h)

/-- C8 counterexample: inserting exactly the 5000 integers -2500..2500 named by the
claim into an ascending collection gives length 5000, so range(2500, 7500) fails
the bounds check (7500 is not below the length) and aborts instead of returning
elements. -/
theorem spec2proof_c8_counterexample :
    ∃ s', (SortedContainers.new .Asc).insertAll
        ((List.range 5000).map (fun (k : Nat) => -2500 + (k : Int))) = some s' ∧
      s'.range 2500 7500 = none := by
  have hw := new_with_strategies_winv .Asc SortedContainers.default_expand
    SortedContainers.default_shrink (fun _ => rfl)
  have hinj : Function.Injective (fun (k : Nat) => -2500 + (k : Int)) := by
    intro a b hab
    simp only [add_right_inj, Nat.cast_inj] at hab
    exact hab
  rcases insertAll_perm hw.si hw.sorted hw.wb
      (List.Nodup.map hinj (List.nodup_range 5000))
      (fun v _ hv => by
        simp [SortedContainers.new, SortedContainers.new_with_strategies] at hv)
      with ⟨s', hall, _, _, _, _, hlen', _⟩
  refine ⟨s', hall, range_panic ?_⟩
  rw [List.length_map, List.length_range] at hlen'
  have h0 : (SortedContainers.new_with_strategies .Asc
      SortedContainers.default_expand SortedContainers.default_shrink).len = 0 := rfl
  right
  right
  omega

/-- C8 (corrected to the repository's scenario: the shuffled range is
-5000..5000, 10000 elements, so the window [2500, 7500) is in bounds): after
inserting any permutation of the integers -5000..5000 into an ascending
collection, range(2500, 7500) returns exactly the 5000 middle elements
-2500..2500 in increasing order. -/
theorem spec2proof_c8 (vs : List Int)
    (hperm : vs.Perm ((List.range 10000).map (fun (k : Nat) => -5000 + (k : Int)))) :
    ∃ s', (SortedContainers.new .Asc).insertAll vs = some s' ∧
      s'.range 2500 7500 = some (some ((List.range 5000).map
        (fun (k : Nat) => -2500 + (k : Int)))) := by
  have hw := new_with_strategies_winv .Asc SortedContainers.default_expand
    SortedContainers.default_shrink (fun _ => rfl)
  have hinj : Function.Injective (fun (k : Nat) => -5000 + (k : Int)) := by
    intro a b hab
    simp only [add_right_inj, Nat.cast_inj] at hab
    exact hab
  have hbasend : ((List.range 10000).map
      (fun (k : Nat) => -5000 + (k : Int))).Nodup :=
    List.Nodup.map hinj (List.nodup_range 10000)
  have hbs : ((List.range 10000).map
      (fun (k : Nat) => -5000 + (k : Int))).Pairwise (fun a b : Int => a < b) :=
    List.Pairwise.map _ (fun a b hab => by omega) (List.pairwise_lt_range 10000)
  rcases insertAll_perm hw.si hw.sorted hw.wb (hperm.nodup_iff.mpr hbasend)
      (fun v _ hv => by
        simp [SortedContainers.new, SortedContainers.new_with_strategies] at hv)
      with ⟨s', hall, hsi', hsort', _, hot', hlen', hpflat⟩
  have h0f : (SortedContainers.new_with_strategies .Asc
      SortedContainers.default_expand
      SortedContainers.default_shrink).data.flatten = [] := rfl
  rw [h0f, List.append_nil] at hpflat
  have hperm2 : s'.data.flatten.Perm ((List.range 10000).map
      (fun (k : Nat) => -5000 + (k : Int))) := hpflat.trans hperm
  have hs' : s'.data.flatten.Pairwise (fun a b : Int => a < b) := by
    have hs := hsort'
    unfold sortedFlat at hs
    rw [hot'] at hs
    exact hs
  have heq : s'.data.flatten = (List.range 10000).map
      (fun (k : Nat) => -5000 + (k : Int)) :=
    List.eq_of_perm_of_sorted hperm2 hs' hbs
  have hvl : vs.length = 10000 := by
    have hl := hperm.length_eq
    rw [List.length_map, List.length_range] at hl
    exact hl
  have h0 : (SortedContainers.new_with_strategies .Asc
      SortedContainers.default_expand SortedContainers.default_shrink).len = 0 := rfl
  have hlen10 : s'.len = 10000 := by omega
  refine ⟨s', hall, ?_⟩
  rw [range_ok hsi' (by omega) (by omega) (by omega), if_neg (by decide)]
  have hsub : (7500 : Nat) - 2500 = 5000 := rfl
  rw [hsub, heq, c8slice]

theorem spec2proof_c8_witness :
    ∃ s', (SortedContainers.new .Asc).insertAll
        (((List.range 10000).map (fun (k : Nat) => -5000 + (k : Int))).reverse)
        = some s' ∧
      s'.range 2500 7500 = some (some ((List.range 5000).map
        (fun (k : Nat) => -2500 + (k : Int)))) :=
  spec2proof_c8 _ (List.reverse_perm _)

/-- C9: whenever the shrink step runs on bucket pos with at least two buckets and
boundary and bucket counts in sync, the merge partner is exactly the one the
specification words describe (right neighbor for the first bucket, left neighbor
for the last, otherwise the smaller neighbor with ties to the right); the two
buckets' contents are concatenated into the lower-indexed slot, bucket and
boundary counts each drop by one, and the flattened contents are unchanged, so no
element is lost or duplicated. -/
theorem spec2proof_c9 (s : SortedContainers) (pos : Nat)
    (hml : s.maxes.length = s.data.length) (h2 : 2 ≤ s.data.length)
    (hpos : pos < s.data.length) :
    ∃ t bp bv, s.data[pos]? = some bp ∧
      s.data[spec_merge_partner s.data pos]? = some bv ∧
      s.shrink pos = some t ∧
      t.data.length + 1 = s.data.length ∧ t.maxes.length + 1 = s.maxes.length ∧
      t.data.flatten = s.data.flatten ∧
      t.data[min pos (spec_merge_partner s.data pos)]? =
        some (if pos < spec_merge_partner s.data pos then bp ++ bv
          else bv ++ bp) := by
  rcases shrink_spec hml h2 hpos with
    ⟨vte, mn, bmn, bmx, mmx, t, hmn, hc0, hclast, hcmid, hmnlt, hbmn, hbmx, hmmx,
      hsh, hdata, hmaxes, hidx, hlen, hot, hes, hss, hflat, hdlen, hmlen⟩
  have hvte : vte = spec_merge_partner s.data pos := by
    by_cases hp0 : pos = 0
    · rw [spec_merge_partner, if_pos hp0, hc0 hp0]
    · by_cases hpl : pos = s.data.length - 1
      · rw [spec_merge_partner, if_neg hp0, if_pos hpl, hclast hp0 hpl]
      · have hpm1 : pos - 1 < s.data.length := by omega
        have hpp1 : pos + 1 < s.data.length := by omega
        obtain ⟨L, hL⟩ : ∃ L, s.data[pos - 1]? = some L :=
          ⟨_, List.getElem?_eq_getElem hpm1⟩
        obtain ⟨R, hR⟩ : ∃ R, s.data[pos + 1]? = some R :=
          ⟨_, List.getElem?_eq_getElem hpp1⟩
        rw [spec_merge_partner, if_neg hp0, if_neg hpl]
        simp only [hL, hR]
        exact hcmid hp0 hpl _ _ hL hR
  rw [← hvte]
  rcases hmn with ⟨hv1, hm1⟩ | ⟨hp0, hv2, hm2⟩
  · subst mn
    subst hv1
    refine ⟨t, bmn, bmx, hbmn, hbmx, hsh, hdlen, hmlen, hflat, ?_⟩
    have hminv : min pos (pos + 1) = pos := by omega
    rw [hminv, if_pos (by omega), hdata, splice_getElem?]
    have hlt : (s.data.take pos).length = pos := by
      rw [List.length_take]
      omega
    rw [hlt, if_neg (by omega), if_pos rfl]
  · subst hm2
    subst hv2
    have hpm : pos - 1 + 1 = pos := by omega
    rw [hpm] at hbmx hmnlt
    refine ⟨t, bmx, bmn, hbmx, hbmn, hsh, hdlen, hmlen, hflat, ?_⟩
    have hminv : min pos (pos - 1) = pos - 1 := by omega
    rw [hminv, if_neg (by omega), hdata, splice_getElem?]
    have hlt : (s.data.take (pos - 1)).length = pos - 1 := by
      rw [List.length_take]
      omega
    rw [hlt, if_neg (by omega), if_pos rfl]

theorem spec2proof_c9_witness :
    ∃ t bp bv,
      (⟨[[1], [2, 3], [4, 5, 6]], [1, 3, 6], [0, 1, 3], .Asc, 6,
        SortedContainers.default_expand,
        SortedContainers.default_shrink⟩ : SortedContainers).data[1]? = some bp ∧
      (⟨[[1], [2, 3], [4, 5, 6]], [1, 3, 6], [0, 1, 3], .Asc, 6,
        SortedContainers.default_expand,
        SortedContainers.default_shrink⟩ : SortedContainers).data[
          spec_merge_partner [[1], [2, 3], [4, 5, 6]] 1]? = some bv ∧
      (⟨[[1], [2, 3], [4, 5, 6]], [1, 3, 6], [0, 1, 3], .Asc, 6,
        SortedContainers.default_expand,
        SortedContainers.default_shrink⟩ : SortedContainers).shrink 1 = some t ∧
      t.data.length + 1 = 3 ∧ t.maxes.length + 1 = 3 ∧
      t.data.flatten = [1, 2, 3, 4, 5, 6] ∧
      t.data[min 1 (spec_merge_partner [[1], [2, 3], [4, 5, 6]] 1)]? =
        some (if 1 < spec_merge_partner [[1], [2, 3], [4, 5, 6]] 1 then bp ++ bv
          else bv ++ bp) :=
  spec2proof_c9
    ⟨[[1], [2, 3], [4, 5, 6]], [1, 3, 6], [0, 1, 3], .Asc, 6,
      SortedContainers.default_expand, SortedContainers.default_shrink⟩ 1
    rfl (by decide) (by decide)

/-- C10: iterating a freshly constructed collection yields no elements and no
panic (the iterator reports exhaustion on its first step); but after clear, and
likewise after remove empties the collection, the bucket sequence has zero
buckets rather than one empty bucket, and the first iterator step is an
out-of-bounds bucket access (modelled as none) instead of the end-of-iteration
signal. -/
theorem spec2proof_c10 :
    iterTrace (SortedContainers.new .Asc).data iterStart 1 = some [] ∧
    (SortedContainers.new .Asc).clear.data = [] ∧
    iterNext (SortedContainers.new .Asc).clear.data iterStart = none ∧
    iterNext (SortedContainers.new .Asc).data iterStart = some none ∧
    ((SortedContainers.new .Asc).insert 1).bind
        (fun pr => (pr.snd.remove 1).map
          (fun rr => (rr.snd.data.length, iterNext rr.snd.data iterStart)))
      = some (0, none) :=
  ⟨rfl, rfl, rfl, rfl, rfl⟩
